import Mathlib

/-!
# Text layout engine of dali-toolkit

A shallow embedding of `dali-toolkit/internal/text/layouts/layout-engine.cpp`
(`LayoutEngine::Impl`): the line breaker `GetLineLayoutForBox`, the orchestrating
`LayoutText` loop, the reordering pass `ReLayoutRightToLeftLines` and the aligner (`Align`,
`CalculateHorizontalAlignment`); and of the parts of `internal/text/visual-model.cpp` and
`internal/text/logical-model.cpp` that build and query the models' tables.

Modelling conventions.

* A `float` is a rational number. Every `float` addition, subtraction and multiplication of
  the source yields `impl.round` of the exact result, in the order in which the source
  applies them. With `round` the identity the metrics are read as exact numbers;
  `roundToFloat` is the rounding of IEEE 754 single precision. Infinities and NaN are not
  modelled.
* Raw pointers into caller-owned buffers (`glyphsBuffer + glyphIndex`, ...) are total
  functions `Nat → α`; `Vector<LineRun>` is a `List` that `PushBack` extends at its end.
  The table of bidirectional runs has `numberOfBidirectionalInfoRuns` entries: `Align`,
  which can read past its end, is `none` when it does.
* `static_cast<int>` of a `float` rounds towards zero inside the range of the 32 bit `int`;
  statements about it are made inside that range.
* `GlyphIndex`, `CharacterIndex`, `Length`, `FontId`, `Character` and the break info
  classes are unsigned integers and are all `Nat` here. Glyph counters never exceed
  `totalNumberOfGlyphs`, so they are not reduced; sums and differences of character counts
  supplied by the caller are reduced modulo `2 ^ 32`.
* Services that live outside this repository (`TextAbstraction::IsWhiteSpace`, the font
  client's `GetFontMetrics`) are parameters.
* A `Dali::Vector` owned by a model is a `List`; `Resize` followed by `memcpy` from a
  caller's buffer stores the first entries of that buffer, and `operator[]` outside the
  vector, which the vector asserts against, is `none`.
-/

namespace Dali.Toolkit.Text


/-- Wrap-around of 32 bit unsigned arithmetic. -/
def wrap32 (n : Nat) : Nat := n % 2 ^ 32

/-- The value `std::numeric_limits<float>::max()`, which is `(2 ^ 24 - 1) * 2 ^ 104`. -/
def MAX_FLOAT : ℚ := 340282346638528859811704183484516925440

/-- The floor of the binary logarithm of `p / q`, for positive `p` and `q`. -/
def floorLog2 (p q : Nat) : Int :=
  if q ≤ p then (Nat.log2 (p / q) : Int)
  else -((Nat.log2 ((q + p - 1) / p - 1) + 1 : Nat) : Int)

/-- The `float` nearest to `x` (IEEE 754 single precision, ties to even): a multiple of
`2 ^ (e - 23)`, where `2 ^ e <= |x| < 2 ^ (e + 1)` and `e` is not below -126. Results
beyond `MAX_FLOAT`, which the machine makes infinite, are not modelled: the exponent is
not bounded above. -/
def roundToFloat (x : ℚ) : ℚ :=
  if x = 0 then 0 else
    let p := x.num.natAbs
    let q := x.den
    let e : Int := max (floorLog2 p q) (-126)
    let t : Int := e - 23
    let n := if 0 ≤ t then p else p * 2 ^ t.natAbs
    let d := if 0 ≤ t then q * 2 ^ t.natAbs else q
    let f := n / d
    let r := n % d
    let m := if 2 * r < d then f else if d < 2 * r then f + 1 else if f % 2 = 0 then f else f + 1
    let a : ℚ := if 0 ≤ t then ((m * 2 ^ t.natAbs : Nat) : ℚ) else mkRat m (2 ^ t.natAbs)
    if x < 0 then -a else a

namespace TextAbstraction

/-- Line break class 0: the text must be broken into a new line. -/
def LINE_MUST_BREAK : Nat := 0
/-- Line break class 1: it is possible to break the text into a new line. -/
def LINE_ALLOW_BREAK : Nat := 1
/-- Line break class 2: the text can not be broken into a new line. -/
def LINE_NO_BREAK : Nat := 2
/-- Word break class 0: the text can be broken into a new word. -/
def WORD_BREAK : Nat := 0
/-- Word break class 1: the text can not be broken into a new word. -/
def WORD_NO_BREAK : Nat := 1

end TextAbstraction

/-- The shaping result of one glyph, as consumed by the layout engine. -/
structure GlyphInfo where
  fontId : Nat
  index : Nat
  width : ℚ
  height : ℚ
  xBearing : ℚ
  yBearing : ℚ
  advance : ℚ
deriving DecidableEq

/-- The font metrics the line breaker reads. -/
structure FontMetrics where
  ascender : ℚ
  descender : ℚ
deriving DecidableEq

structure Vector2 where
  x : ℚ
  y : ℚ
deriving DecidableEq

/-- A `Size` is a `Vector2` read as (width, height). -/
structure Size where
  width : ℚ
  height : ℚ
deriving DecidableEq

structure CharacterRun where
  characterIndex : Nat
  numberOfCharacters : Nat
deriving DecidableEq

/-- One laid-out line. -/
structure LineRun where
  glyphIndex : Nat
  numberOfGlyphs : Nat
  characterRun : CharacterRun
  width : ℚ
  ascender : ℚ
  descender : ℚ
  extraLength : ℚ
  direction : Bool
deriving DecidableEq

/-- Bidirectional info of one line with right to left text. -/
structure BidirectionalLineInfoRun where
  characterRun : CharacterRun
  visualToLogicalMap : Nat → Nat
  direction : Bool

/-- The parameters handed to the layout engine. Buffers are pointers in the source;
`lineBidirectionalInfoRunsBuffer` may be `NULL`, which is `none` here. -/
structure LayoutParameters where
  boundingBox : Size
  textBuffer : Nat → Nat
  lineBreakInfoBuffer : Nat → Nat
  wordBreakInfoBuffer : Nat → Nat
  totalNumberOfGlyphs : Nat
  glyphsBuffer : Nat → GlyphInfo
  glyphsToCharactersBuffer : Nat → Nat
  charactersPerGlyphBuffer : Nat → Nat
  charactersToGlyphsBuffer : Nat → Nat
  glyphsPerCharacterBuffer : Nat → Nat
  numberOfBidirectionalInfoRuns : Nat
  lineBidirectionalInfoRunsBuffer : Option (Nat → BidirectionalLineInfoRun)

/-- Temporary layout info of a line (`struct LineLayout`). -/
structure LineLayout where
  glyphIndex : Nat
  characterIndex : Nat
  numberOfCharacters : Nat
  numberOfGlyphs : Nat
  length : ℚ
  widthAdvanceDiff : ℚ
  wsLengthEndOfLine : ℚ
  ascender : ℚ
  descender : ℚ
deriving DecidableEq

/-- The default constructor `LineLayout()`, which is also what `Clear()` restores. -/
def LineLayout.Clear : LineLayout :=
  { glyphIndex := 0, characterIndex := 0, numberOfCharacters := 0, numberOfGlyphs := 0,
    length := 0, widthAdvanceDiff := 0, wsLengthEndOfLine := 0, ascender := 0,
    descender := MAX_FLOAT }

namespace LayoutEngine

inductive Layout where
  | SINGLE_LINE_BOX
  | MULTI_LINE_BOX
deriving DecidableEq

inductive HorizontalAlignment where
  | HORIZONTAL_ALIGN_BEGIN
  | HORIZONTAL_ALIGN_CENTER
  | HORIZONTAL_ALIGN_END
deriving DecidableEq

inductive VerticalAlignment where
  | VERTICAL_ALIGN_TOP
  | VERTICAL_ALIGN_CENTER
  | VERTICAL_ALIGN_BOTTOM
deriving DecidableEq

/-- The engine's state (`struct LayoutEngine::Impl`). `mFontClient` stands for
`FontClient::GetFontMetrics`; `IsWhiteSpace` stands for `TextAbstraction::IsWhiteSpace`,
a free function of the text abstraction the engine is linked against; `round` is the
rounding of the `float` arithmetic of the machine the engine runs on. -/
structure Impl where
  mLayout : Layout
  mHorizontalAlignment : HorizontalAlignment
  mVerticalAlignment : VerticalAlignment
  mFontClient : Nat → FontMetrics
  IsWhiteSpace : Nat → Bool
  round : ℚ → ℚ

open Layout HorizontalAlignment VerticalAlignment

/-- `Impl::MergeLineLayout`: merges a temporary line layout into the line layout. -/
def MergeLineLayout (impl : Impl) (lineLayout tmpLineLayout : LineLayout) : LineLayout :=
  let length := impl.round (lineLayout.length + tmpLineLayout.length)
  { glyphIndex := lineLayout.glyphIndex
    characterIndex := lineLayout.characterIndex
    numberOfCharacters := wrap32 (lineLayout.numberOfCharacters + tmpLineLayout.numberOfCharacters)
    numberOfGlyphs := lineLayout.numberOfGlyphs + tmpLineLayout.numberOfGlyphs
    length :=
      if 0 < tmpLineLayout.length then impl.round (length + lineLayout.wsLengthEndOfLine)
      else length
    widthAdvanceDiff := tmpLineLayout.widthAdvanceDiff
    wsLengthEndOfLine :=
      if 0 < tmpLineLayout.length then tmpLineLayout.wsLengthEndOfLine
      else impl.round (lineLayout.wsLengthEndOfLine + tmpLineLayout.wsLengthEndOfLine)
    ascender :=
      if tmpLineLayout.ascender > lineLayout.ascender then tmpLineLayout.ascender
      else lineLayout.ascender
    descender :=
      if tmpLineLayout.descender < lineLayout.descender then tmpLineLayout.descender
      else lineLayout.descender }

/-- Index of the last character of a glyph, the one whose break info the line breaker
reads: `characterFirstIndex + ( ( 1u > charactersPerGlyph ) ? 0u : charactersPerGlyph - 1u )`. -/
def characterLastIndex (parameters : LayoutParameters) (glyphIndex : Nat) :
    Nat :=
  let charactersPerGlyph := parameters.charactersPerGlyphBuffer glyphIndex
  let characterFirstIndex := parameters.glyphsToCharactersBuffer glyphIndex
  wrap32 (characterFirstIndex + (if 1 > charactersPerGlyph then 0 else charactersPerGlyph - 1))

/-- The pending layout after the current glyph has been accumulated
(lines 171 to 196 of the loop body of `GetLineLayoutForBox`). -/
def accumulateGlyph (impl : Impl) (parameters : LayoutParameters) (glyphIndex : Nat)
    (tmpLineLayout : LineLayout) : LineLayout :=
  let glyphInfo := parameters.glyphsBuffer glyphIndex
  let charactersPerGlyph := parameters.charactersPerGlyphBuffer glyphIndex
  let characterFirstIndex := parameters.glyphsToCharactersBuffer glyphIndex
  let character := parameters.textBuffer characterFirstIndex
  let isWhiteSpace := impl.IsWhiteSpace character
  let counted : LineLayout :=
    { tmpLineLayout with
      numberOfCharacters := wrap32 (tmpLineLayout.numberOfCharacters + charactersPerGlyph)
      numberOfGlyphs := tmpLineLayout.numberOfGlyphs + 1 }
  if isWhiteSpace then
    { counted with
      wsLengthEndOfLine := impl.round (tmpLineLayout.wsLengthEndOfLine + glyphInfo.advance)
      widthAdvanceDiff := 0 }
  else
    { counted with
      length :=
        impl.round (tmpLineLayout.length +
          impl.round (tmpLineLayout.wsLengthEndOfLine + glyphInfo.advance))
      widthAdvanceDiff := impl.round (glyphInfo.width - glyphInfo.advance)
      wsLengthEndOfLine := 0 }

/-- The extent the overflow test compares with the box width (line 200). -/
def overflowExtent (impl : Impl) (lineLayout tmpLineLayout : LineLayout) : ℚ :=
  impl.round
    (impl.round (impl.round (lineLayout.length + tmpLineLayout.length) +
        tmpLineLayout.widthAdvanceDiff) +
      (if 0 < tmpLineLayout.length then lineLayout.wsLengthEndOfLine else 0))

/-- The font metrics update at the end of the loop body (lines 225 to 243). -/
def updateFontMetrics (impl : Impl) (fontId lastFontId : Nat) (tmpLineLayout : LineLayout) :
    LineLayout :=
  if lastFontId ≠ fontId then
    let fontMetrics := impl.mFontClient fontId
    let ascended : LineLayout :=
      if fontMetrics.ascender > tmpLineLayout.ascender then
        { tmpLineLayout with ascender := fontMetrics.ascender }
      else tmpLineLayout
    if -fontMetrics.descender < ascended.descender then
      { ascended with descender := fontMetrics.descender }
    else ascended
  else tmpLineLayout

/-- Which statement ended the loop of `GetLineLayoutForBox`: the `return` of the overflow
test (line 203), the `return` after a mandatory break (line 212), or the loop condition.
It is a record of the control flow only; the source returns nothing but the line layout. -/
inductive LoopExit where
  | wordDoesNotFit (glyphIndex : Nat)
  | mustBreak (glyphIndex : Nat)
  | endOfGlyphs
deriving DecidableEq

/-- The `for` loop of `GetLineLayoutForBox`. The first argument is the number of glyphs
left, `totalNumberOfGlyphs - glyphIndex`, so the recursion runs once per iteration. -/
def GetLineLayoutForBox.loop (impl : Impl) (parameters : LayoutParameters) :
    Nat → Nat → LineLayout → LineLayout → Nat → LineLayout × LoopExit
  | 0, _, lineLayout, _, _ => (lineLayout, LoopExit.endOfGlyphs)
  | remaining + 1, glyphIndex, lineLayout, tmpLineLayout, lastFontId =>
    let isMultiline := impl.mLayout = MULTI_LINE_BOX
    let lastGlyphIndex := parameters.totalNumberOfGlyphs - 1
    let isLastGlyph := glyphIndex = lastGlyphIndex
    let glyphInfo := parameters.glyphsBuffer glyphIndex
    let lineBreakInfo := parameters.lineBreakInfoBuffer (characterLastIndex parameters glyphIndex)
    let wordBreakInfo := parameters.wordBreakInfoBuffer (characterLastIndex parameters glyphIndex)
    let tmpLineLayout := accumulateGlyph impl parameters glyphIndex tmpLineLayout
    if isMultiline ∧
        overflowExtent impl lineLayout tmpLineLayout > parameters.boundingBox.width then
      -- Current word does not fit in the box's width.
      (lineLayout, LoopExit.wordDoesNotFit glyphIndex)
    else if (isMultiline ∨ isLastGlyph) ∧ TextAbstraction.LINE_MUST_BREAK = lineBreakInfo then
      -- Must break the line. Update the line layout and return.
      (MergeLineLayout impl lineLayout tmpLineLayout, LoopExit.mustBreak glyphIndex)
    else if isMultiline ∧ TextAbstraction.WORD_BREAK = wordBreakInfo then
      -- Current glyph is the last one of the current word.
      GetLineLayoutForBox.loop impl parameters remaining (glyphIndex + 1)
        (MergeLineLayout impl lineLayout tmpLineLayout)
        (updateFontMetrics impl glyphInfo.fontId lastFontId LineLayout.Clear)
        glyphInfo.fontId
    else
      GetLineLayoutForBox.loop impl parameters remaining (glyphIndex + 1)
        lineLayout
        (updateFontMetrics impl glyphInfo.fontId lastFontId tmpLineLayout)
        glyphInfo.fontId

/-- The loop of `GetLineLayoutForBox` as it is entered: from `lineLayout.glyphIndex`, with an
empty temporary layout and `lastFontId = 0`. -/
def GetLineLayoutForBox.run (impl : Impl) (parameters : LayoutParameters)
    (lineLayout : LineLayout) : LineLayout × LoopExit :=
  GetLineLayoutForBox.loop impl parameters
    (parameters.totalNumberOfGlyphs - lineLayout.glyphIndex) lineLayout.glyphIndex
    lineLayout LineLayout.Clear 0

/-- `Impl::GetLineLayoutForBox`: retrieves the line layout for a given box width,
starting at `lineLayout.glyphIndex`. -/
def GetLineLayoutForBox (impl : Impl) (parameters : LayoutParameters) (lineLayout : LineLayout) :
    LineLayout :=
  (GetLineLayoutForBox.run impl parameters lineLayout).1

/-- The line layout `LayoutText` asks for at glyph `index`:
`LineLayout layout; layout.glyphIndex = index; GetLineLayoutForBox( layoutParameters, layout )`. -/
def lineLayoutAt (impl : Impl) (parameters : LayoutParameters) (index : Nat) :
    LineLayout :=
  GetLineLayoutForBox impl parameters { LineLayout.Clear with glyphIndex := index }

/-- The way the line breaker's loop ends for the line starting at glyph `index`. -/
def lineExitAt (impl : Impl) (parameters : LayoutParameters) (index : Nat) : LoopExit :=
  (GetLineLayoutForBox.run impl parameters { LineLayout.Clear with glyphIndex := index }).2

/-- The line run `LayoutText` creates for the layout of the line starting at `index`
(lines 270 to 281). The subtraction of character indices is unsigned 32 bit arithmetic. -/
def makeLineRun (impl : Impl) (parameters : LayoutParameters) (index : Nat)
    (layout : LineLayout) : LineRun :=
  let lastGlyphIndex := index + layout.numberOfGlyphs - 1
  let characterIndex := parameters.glyphsToCharactersBuffer index
  { glyphIndex := index
    numberOfGlyphs := layout.numberOfGlyphs
    characterRun :=
      { characterIndex := characterIndex
        numberOfCharacters :=
          wrap32 (wrap32 (parameters.glyphsToCharactersBuffer lastGlyphIndex +
            parameters.charactersPerGlyphBuffer lastGlyphIndex) + (2 ^ 32 - wrap32 characterIndex)) }
    width :=
      impl.round
        (layout.length + (if layout.widthAdvanceDiff > 0 then layout.widthAdvanceDiff else 0))
    ascender := layout.ascender
    descender := layout.descender
    extraLength := layout.wsLengthEndOfLine
    direction := false }

/-- The update of the actual size for one line (lines 286 to 291). -/
def updateActualSize (impl : Impl) (layout : LineLayout) (lineRun : LineRun)
    (actualSize : Size) : Size :=
  { width :=
      if impl.round (layout.length + layout.widthAdvanceDiff) > actualSize.width then
        layout.length
      else actualSize.width
    height :=
      impl.round (actualSize.height + impl.round (lineRun.ascender + -lineRun.descender)) }

/-- The inner loop of `LayoutText` that sets the positions of the glyphs of one line
(lines 298 to 307); the first argument counts the glyphs still to be placed. -/
def setGlyphPositions (impl : Impl) (parameters : LayoutParameters) (penY : ℚ) :
    Nat → Nat → ℚ → (Nat → Vector2) → (Nat → Vector2)
  | 0, _, _, glyphPositions => glyphPositions
  | count + 1, i, penX, glyphPositions =>
    let glyph := parameters.glyphsBuffer i
    setGlyphPositions impl parameters penY count (i + 1) (impl.round (penX + glyph.advance))
      (Function.update glyphPositions i
        { x := impl.round (penX + glyph.xBearing), y := impl.round (penY - glyph.yBearing) })

/-- The three in/out arguments of `LayoutText`. -/
structure LayoutOutput where
  glyphPositions : Nat → Vector2
  lines : List LineRun
  actualSize : Size

/-- The outer loop of `LayoutText`. Every iteration lays out at least one glyph or returns,
so `totalNumberOfGlyphs - index` iterations are enough; `none` is an exhausted iteration
budget, which `LayoutText` never meets (`LayoutText_returns`). -/
def LayoutText.loop (impl : Impl) (layoutParameters : LayoutParameters) :
    Nat → Nat → ℚ → LayoutOutput → Option (Bool × LayoutOutput)
  | 0, index, _, out =>
    if index < layoutParameters.totalNumberOfGlyphs then none else some (true, out)
  | budget + 1, index, penY, out =>
    if index < layoutParameters.totalNumberOfGlyphs then
      let penX : ℚ := 0
      -- Get the layout for the line.
      let layout := lineLayoutAt impl layoutParameters index
      if 0 = layout.numberOfGlyphs then
        -- The width is too small and no characters are laid-out.
        some (false, out)
      else
        -- Create a line run and add it to the lines.
        let lineRun := makeLineRun impl layoutParameters index layout
        let lines := out.lines ++ [lineRun]
        -- Update the actual size.
        let actualSize := updateActualSize impl layout lineRun out.actualSize
        -- Traverse the glyphs and set the positions.
        let penY := impl.round (penY + layout.ascender)
        let glyphPositions :=
          setGlyphPositions impl layoutParameters penY layout.numberOfGlyphs index penX
            out.glyphPositions
        let penY := impl.round (penY + -layout.descender)
        -- Increase the glyph index.
        LayoutText.loop impl layoutParameters budget (index + layout.numberOfGlyphs) penY
          { glyphPositions := glyphPositions, lines := lines, actualSize := actualSize }
    else some (true, out)

/-- `Impl::LayoutText`: the returned flag, and the glyph positions, lines and actual size
the call leaves behind. -/
def LayoutText (impl : Impl) (layoutParameters : LayoutParameters)
    (glyphPositions : Nat → Vector2) (lines : List LineRun) (actualSize : Size) :
    Option (Bool × LayoutOutput) :=
  LayoutText.loop impl layoutParameters layoutParameters.totalNumberOfGlyphs 0 0
    { glyphPositions := glyphPositions, lines := lines, actualSize := actualSize }

/-- The last character of glyph `glyphIndex` is classified `LINE_MUST_BREAK`. -/
def isMustBreak (parameters : LayoutParameters) (glyphIndex : Nat) : Prop :=
  TextAbstraction.LINE_MUST_BREAK =
    parameters.lineBreakInfoBuffer (characterLastIndex parameters glyphIndex)

instance (parameters : LayoutParameters) (glyphIndex : Nat) :
    Decidable (isMustBreak parameters glyphIndex) := by
  unfold isMustBreak; infer_instance

/-- The last character of glyph `glyphIndex` is classified `WORD_BREAK`. -/
def isWordBreak (parameters : LayoutParameters) (glyphIndex : Nat) : Prop :=
  TextAbstraction.WORD_BREAK =
    parameters.wordBreakInfoBuffer (characterLastIndex parameters glyphIndex)

instance (parameters : LayoutParameters) (glyphIndex : Nat) :
    Decidable (isWordBreak parameters glyphIndex) := by
  unfold isWordBreak; infer_instance

/-- The width-advance difference the line breaker records for a glyph: zero for a white
space, `width - advance` otherwise (lines 182 to 196). -/
def glyphWidthAdvanceDiff (impl : Impl) (parameters : LayoutParameters)
    (glyphIndex : Nat) : ℚ :=
  if impl.IsWhiteSpace
      (parameters.textBuffer (parameters.glyphsToCharactersBuffer glyphIndex)) = true then 0
  else
    impl.round
      ((parameters.glyphsBuffer glyphIndex).width - (parameters.glyphsBuffer glyphIndex).advance)

/-- The pending layout of `count` glyphs accumulated from glyph `glyphIndex` on with no
break in between (the font metrics, which play no part in the extents, are left out). -/
def accumulateGlyphs (impl : Impl) (parameters : LayoutParameters) :
    Nat → Nat → LineLayout → LineLayout
  | 0, _, tmpLineLayout => tmpLineLayout
  | count + 1, glyphIndex, tmpLineLayout =>
    accumulateGlyphs impl parameters count (glyphIndex + 1)
      (accumulateGlyph impl parameters glyphIndex tmpLineLayout)

/-- The extent the overflow test sees at glyph `last` when the glyphs `first .. last` are
all pending on an empty line: the advances of `first .. last` without the trailing white
space, plus the width-advance difference of `last`. -/
def pendingExtent (impl : Impl) (parameters : LayoutParameters) (first last : Nat) : ℚ :=
  overflowExtent impl LineLayout.Clear
    (accumulateGlyphs impl parameters (last + 1 - first) first LineLayout.Clear)

/-- The conversion `static_cast<int>( offset )`: the fractional part is discarded, which
rounds towards zero. When the result is outside the range of the 32 bit `int` the
conversion is undefined in the source; the model returns `INT_MIN` there, as the
conversion instruction of the usual targets does, and the statements about the conversion
are made for the values inside the range. -/
def staticCastInt (offset : ℚ) : Int :=
  if -2147483649 < offset ∧ offset < 2147483648 then Int.tdiv offset.num offset.den
  else -2147483648

/-- `Impl::CalculateHorizontalAlignment`. -/
def CalculateHorizontalAlignment (impl : Impl) (boxWidth lineLength extraLength : ℚ)
    (paragraphDirection : Bool) : ℚ :=
  let alignment : HorizontalAlignment :=
    if paragraphDirection = true ∧ HORIZONTAL_ALIGN_CENTER ≠ impl.mHorizontalAlignment then
      if HORIZONTAL_ALIGN_BEGIN = impl.mHorizontalAlignment then HORIZONTAL_ALIGN_END
      else HORIZONTAL_ALIGN_BEGIN
    else impl.mHorizontalAlignment
  let offset : ℚ :=
    match alignment with
    | HORIZONTAL_ALIGN_BEGIN => 0
    | HORIZONTAL_ALIGN_CENTER =>
      let offset := impl.round ((1 / 2 : ℚ) * impl.round (boxWidth - lineLength))
      let intOffset := staticCastInt offset -- try to avoid pixel alignment.
      impl.round (intOffset : ℚ)
    | HORIZONTAL_ALIGN_END => impl.round (boxWidth - lineLength)
  if paragraphDirection = true then impl.round (offset - extraLength) else offset

/-- A glyph after which the loop of `GetLineLayoutForBox` merges the pending layout. -/
def commitsAt (impl : Impl) (p : LayoutParameters) (e : Nat) : Prop :=
  ((impl.mLayout = MULTI_LINE_BOX ∨ e = p.totalNumberOfGlyphs - 1) ∧ isMustBreak p e) ∨
    (impl.mLayout = MULTI_LINE_BOX ∧ isWordBreak p e)

/-- Two pending layouts with the same extents (length, width-advance difference and
trailing white space). -/
def sameExtents (a b : LineLayout) : Prop :=
  a.length = b.length ∧ a.widthAdvanceDiff = b.widthAdvanceDiff ∧
    a.wsLengthEndOfLine = b.wsLengthEndOfLine

/-- The lines `LayoutText` appends when its loop is entered at glyph `index`, together with
the flag it returns: one line per line layout, each starting where the previous one ends,
until the glyphs are used up (`true`) or a line layout has no glyphs (`false`). -/
def LinesFrom (impl : Impl) (p : LayoutParameters) : Nat → List LineRun → Bool → Prop
  | index, [], ok =>
    if index < p.totalNumberOfGlyphs then
      (lineLayoutAt impl p index).numberOfGlyphs = 0 ∧ ok = false
    else ok = true
  | index, line :: rest, ok =>
    index < p.totalNumberOfGlyphs ∧ (lineLayoutAt impl p index).numberOfGlyphs ≠ 0 ∧
      line = makeLineRun impl p index (lineLayoutAt impl p index) ∧
      LinesFrom impl p (index + (lineLayoutAt impl p index).numberOfGlyphs) rest ok

/-- The overflow test fires on the line that starts at glyph `index`: the line breaker
returns because a word does not fit. -/
def overflowFiresAt (impl : Impl) (parameters : LayoutParameters) (index : Nat) : Bool :=
  match lineExitAt impl parameters index with
  | LoopExit.wordDoesNotFit _ => true
  | _ => false

/-- The glyph positions, lines and actual size a call of `LayoutText` leaves behind. -/
def layoutOutput (impl : Impl) (layoutParameters : LayoutParameters)
    (glyphPositions : Nat → Vector2) (lines : List LineRun) (actualSize : Size) :
    LayoutOutput :=
  ((LayoutText impl layoutParameters glyphPositions lines actualSize).getD
    (false, { glyphPositions := glyphPositions, lines := lines, actualSize := actualSize })).2

/-! ### The reordering pass -/

/-- The character the pass handles at position `characterLogicalIndex` of a bidirectional
line: `bidiLine.characterRun.characterIndex + *( bidiLine.visualToLogicalMap +
characterLogicalIndex )`, a sum of 32 bit character indices. -/
def characterVisualIndex (bidiLine : BidirectionalLineInfoRun) (characterLogicalIndex : Nat) :
    Nat :=
  wrap32 (bidiLine.characterRun.characterIndex +
    bidiLine.visualToLogicalMap characterLogicalIndex)

/-- The innermost loop of `ReLayoutRightToLeftLines` (lines 341 to 353): it places the
glyphs of one character from `penX` on and returns the pen with the positions. The first
argument counts the glyphs left. The `DALI_ASSERT_DEBUG` on the glyph index, which only a
debug build compiles, is not part of the model. -/
def ReLayoutRightToLeftLines.glyphs (impl : Impl) (layoutParameters : LayoutParameters)
    (characterVisualIndex : Nat) :
    Nat → Nat → ℚ → (Nat → Vector2) → ℚ × (Nat → Vector2)
  | 0, _, penX, glyphPositions => (penX, glyphPositions)
  | count + 1, index, penX, glyphPositions =>
    let glyphIndex := layoutParameters.charactersToGlyphsBuffer characterVisualIndex + index
    let glyph := layoutParameters.glyphsBuffer glyphIndex
    ReLayoutRightToLeftLines.glyphs impl layoutParameters characterVisualIndex count (index + 1)
      (impl.round (penX + glyph.advance))
      (Function.update glyphPositions glyphIndex
        { glyphPositions glyphIndex with x := impl.round (penX + glyph.xBearing) })

/-- The loop over the characters of one right to left line (lines 331 to 354). The first
argument counts the characters left. -/
def ReLayoutRightToLeftLines.characters (impl : Impl) (layoutParameters : LayoutParameters)
    (bidiLine : BidirectionalLineInfoRun) :
    Nat → Nat → ℚ → (Nat → Vector2) → Nat → Vector2
  | 0, _, _, glyphPositions => glyphPositions
  | count + 1, characterLogicalIndex, penX, glyphPositions =>
    let visualIndex := characterVisualIndex bidiLine characterLogicalIndex
    let numberOfGlyphs := layoutParameters.glyphsPerCharacterBuffer visualIndex
    let placed :=
      ReLayoutRightToLeftLines.glyphs impl layoutParameters visualIndex numberOfGlyphs 0 penX
        glyphPositions
    ReLayoutRightToLeftLines.characters impl layoutParameters bidiLine count
      (characterLogicalIndex + 1) placed.1 placed.2

/-- The loop over the right to left lines (lines 322 to 355); the pen restarts at 0 on
each of them. The first argument counts the lines left. -/
def ReLayoutRightToLeftLines.lines (impl : Impl) (layoutParameters : LayoutParameters)
    (buffer : Nat → BidirectionalLineInfoRun) :
    Nat → Nat → (Nat → Vector2) → Nat → Vector2
  | 0, _, glyphPositions => glyphPositions
  | count + 1, lineIndex, glyphPositions =>
    let bidiLine := buffer lineIndex
    ReLayoutRightToLeftLines.lines impl layoutParameters buffer count (lineIndex + 1)
      (ReLayoutRightToLeftLines.characters impl layoutParameters bidiLine
        bidiLine.characterRun.numberOfCharacters 0 0 glyphPositions)

/-- `Impl::ReLayoutRightToLeftLines`. The pass does not test the buffer of bidirectional
runs against `NULL`: with a `NULL` buffer and a positive number of runs it dereferences
a null pointer, which is `none`. -/
def ReLayoutRightToLeftLines (impl : Impl) (layoutParameters : LayoutParameters)
    (glyphPositions : Nat → Vector2) : Option (Nat → Vector2) :=
  match layoutParameters.lineBidirectionalInfoRunsBuffer with
  | some buffer =>
    some (ReLayoutRightToLeftLines.lines impl layoutParameters buffer
      layoutParameters.numberOfBidirectionalInfoRuns 0 glyphPositions)
  | none =>
    if layoutParameters.numberOfBidirectionalInfoRuns = 0 then some glyphPositions else none

/-- Glyph `glyphIndex` belongs to a character of the bidirectional line: it is one of the
`glyphsPerCharacter` glyphs of a character the line's map names. -/
def glyphOfBidiLine (layoutParameters : LayoutParameters) (bidiLine : BidirectionalLineInfoRun)
    (glyphIndex : Nat) : Prop :=
  ∃ k, k < bidiLine.characterRun.numberOfCharacters ∧
    ∃ j, j < layoutParameters.glyphsPerCharacterBuffer (characterVisualIndex bidiLine k) ∧
      layoutParameters.charactersToGlyphsBuffer (characterVisualIndex bidiLine k) + j =
        glyphIndex

instance (layoutParameters : LayoutParameters) (bidiLine : BidirectionalLineInfoRun)
    (glyphIndex : Nat) : Decidable (glyphOfBidiLine layoutParameters bidiLine glyphIndex) := by
  unfold glyphOfBidiLine; infer_instance

/-- The first glyph of the character at position `k` of the bidirectional line. -/
def glyphOfVisual (layoutParameters : LayoutParameters) (bidiLine : BidirectionalLineInfoRun)
    (k : Nat) : Nat :=
  layoutParameters.charactersToGlyphsBuffer (characterVisualIndex bidiLine k)

/-- The pen position at position `k` of the bidirectional line when every character has one
glyph: the sum of the advances of the glyphs of the positions before `k`, added one after
the other from 0 as `penX += glyph.advance` adds them. -/
def penBefore (impl : Impl) (layoutParameters : LayoutParameters)
    (bidiLine : BidirectionalLineInfoRun) : Nat → ℚ
  | 0 => 0
  | k + 1 =>
    impl.round (penBefore impl layoutParameters bidiLine k +
      (layoutParameters.glyphsBuffer (glyphOfVisual layoutParameters bidiLine k)).advance)

/-! ### The aligner -/

/-- The `while` loop of `Align` that looks for the right to left line matching the current
line (lines 386 to 391). The first argument is `numberOfBidirectionalInfoRuns -
bidiLineIndex`: once it is 0 the second operand of the loop condition is false. The run at
`bidiLineIndex` is read before the index is compared with the number of runs. -/
def Align.matchRun (buffer : Nat → BidirectionalLineInfoRun)
    (numberOfBidirectionalInfoRuns characterIndex : Nat) : Nat → Nat → Nat
  | 0, bidiLineIndex => bidiLineIndex
  | budget + 1, bidiLineIndex =>
    if characterIndex > (buffer bidiLineIndex).characterRun.characterIndex ∧
        bidiLineIndex < numberOfBidirectionalInfoRuns then
      Align.matchRun buffer numberOfBidirectionalInfoRuns characterIndex budget
        (bidiLineIndex + 1)
    else bidiLineIndex

/-- Step 1 of the loop body of `Align` (lines 376 to 397): the paragraph's direction for
the line, and the index of the bidirectional run the traversal has reached. -/
def Align.paragraphDirection (layoutParameters : LayoutParameters) (bidiLineIndex : Nat)
    (line : LineRun) : Bool × Nat :=
  match layoutParameters.lineBidirectionalInfoRunsBuffer with
  | some buffer =>
    if bidiLineIndex < layoutParameters.numberOfBidirectionalInfoRuns then
      let matched :=
        Align.matchRun buffer layoutParameters.numberOfBidirectionalInfoRuns
          line.characterRun.characterIndex
          (layoutParameters.numberOfBidirectionalInfoRuns - bidiLineIndex) bidiLineIndex
      if line.characterRun.characterIndex = (buffer matched).characterRun.characterIndex then
        ((buffer matched).direction, matched)
      else (false, matched)
    else (false, bidiLineIndex)
  | none => (false, bidiLineIndex)

/-- Step 3 of the loop body of `Align` (lines 407 to 415): `position.x += alignOffset` for
the glyphs of the line. The first argument counts the glyphs left. -/
def Align.addOffset (impl : Impl) (alignOffset : ℚ) :
    Nat → Nat → (Nat → Vector2) → Nat → Vector2
  | 0, _, glyphPositions => glyphPositions
  | count + 1, index, glyphPositions =>
    Align.addOffset impl alignOffset count (index + 1)
      (Function.update glyphPositions index
        { glyphPositions index with x := impl.round ((glyphPositions index).x + alignOffset) })

/-- The loop of `Align` over the lines, from the bidirectional run `bidiLineIndex` on. -/
def Align.loop (impl : Impl) (layoutParameters : LayoutParameters) (layoutSize : Size) :
    List LineRun → Nat → (Nat → Vector2) → Nat → Vector2
  | [], _, glyphPositions => glyphPositions
  | line :: rest, bidiLineIndex, glyphPositions =>
    -- 1) Get the paragraph's direction.
    let direction := Align.paragraphDirection layoutParameters bidiLineIndex line
    -- 2) Calculate the alignment offset.
    let alignOffset :=
      CalculateHorizontalAlignment impl layoutSize.width line.width line.extraLength direction.1
    -- 3) Traverse all glyphs and update the 'x' position.
    Align.loop impl layoutParameters layoutSize rest direction.2
      (Align.addOffset impl alignOffset line.numberOfGlyphs line.glyphIndex glyphPositions)

/-- The indices of the bidirectional runs that step 1 of the loop body of `Align` reads for
one line, in order (lines 383 to 396): every evaluation of the `while` condition reads
`bidiLine->characterRun.characterIndex` before it compares `bidiLineIndex` with the number
of runs, and the `if` after the loop reads the run once more. The arguments are those of
`Align.matchRun`. -/
def Align.runsRead (buffer : Nat → BidirectionalLineInfoRun)
    (numberOfBidirectionalInfoRuns characterIndex : Nat) : Nat → Nat → List Nat
  | 0, bidiLineIndex => [bidiLineIndex, bidiLineIndex]
  | budget + 1, bidiLineIndex =>
    if characterIndex > (buffer bidiLineIndex).characterRun.characterIndex ∧
        bidiLineIndex < numberOfBidirectionalInfoRuns then
      bidiLineIndex ::
        Align.runsRead buffer numberOfBidirectionalInfoRuns characterIndex budget
          (bidiLineIndex + 1)
    else [bidiLineIndex, bidiLineIndex]

/-- The indices of the bidirectional runs `Align` reads over a line table, from the run
`bidiLineIndex` on: nothing for a line met with a `NULL` buffer or with all the runs
passed (line 380), the reads of step 1 otherwise. -/
def Align.reads (layoutParameters : LayoutParameters) : List LineRun → Nat → List Nat
  | [], _ => []
  | line :: rest, bidiLineIndex =>
    (match layoutParameters.lineBidirectionalInfoRunsBuffer with
      | some buffer =>
        if bidiLineIndex < layoutParameters.numberOfBidirectionalInfoRuns then
          Align.runsRead buffer layoutParameters.numberOfBidirectionalInfoRuns
            line.characterRun.characterIndex
            (layoutParameters.numberOfBidirectionalInfoRuns - bidiLineIndex) bidiLineIndex
        else []
      | none => []) ++
    Align.reads layoutParameters rest
      (Align.paragraphDirection layoutParameters bidiLineIndex line).2

/-- `Impl::Align`. A read of a bidirectional run past the end of the table is undefined
behaviour in the source, which is `none`; otherwise the positions the loop leaves. -/
def Align (impl : Impl) (layoutParameters : LayoutParameters) (layoutSize : Size)
    (lines : List LineRun) (glyphPositions : Nat → Vector2) : Option (Nat → Vector2) :=
  if ∀ i ∈ Align.reads layoutParameters lines 0,
      i < layoutParameters.numberOfBidirectionalInfoRuns then
    some (Align.loop impl layoutParameters layoutSize lines 0 glyphPositions)
  else none

/-- An engine whose every font has ascender 10 and descender -2, for which the space and
the new line character are the white spaces, and whose arithmetic is exact. -/
def sampleImpl (layout : Layout) (alignment : HorizontalAlignment) : Impl :=
  { mLayout := layout
    mHorizontalAlignment := alignment
    mVerticalAlignment := VERTICAL_ALIGN_TOP
    mFontClient := fun _ => { ascender := 10, descender := -2 }
    IsWhiteSpace := fun c => c == 32 || c == 10
    round := fun x => x }

/-- An engine with `float` arithmetic, whose every font has the `float` nearest to 18.9 as
ascender and that nearest to -4.8 as descender, and for which the space and the new line
character are the white spaces. -/
def floatImpl (layout : Layout) : Impl :=
  { mLayout := layout
    mHorizontalAlignment := HORIZONTAL_ALIGN_BEGIN
    mVerticalAlignment := VERTICAL_ALIGN_TOP
    mFontClient := fun _ =>
      { ascender := roundToFloat (189 / 10), descender := -roundToFloat (48 / 10) }
    IsWhiteSpace := fun c => c == 32 || c == 10
    round := roundToFloat }

/-- A glyph of advance 10 and width 8. -/
def sampleGlyph : GlyphInfo :=
  { fontId := 1, index := 0, width := 8, height := 10, xBearing := 1, yBearing := 9,
    advance := 10 }

/-- Parameters for a text shaped into one `sampleGlyph` per character. -/
def sampleParameters (boxWidth : ℚ) (text lineBreakInfo wordBreakInfo : List Nat) :
    LayoutParameters :=
  { boundingBox := { width := boxWidth, height := 100 }
    textBuffer := fun i => text.getD i 0
    lineBreakInfoBuffer := fun i => lineBreakInfo.getD i TextAbstraction.LINE_NO_BREAK
    wordBreakInfoBuffer := fun i => wordBreakInfo.getD i TextAbstraction.WORD_NO_BREAK
    totalNumberOfGlyphs := text.length
    glyphsBuffer := fun _ => sampleGlyph
    glyphsToCharactersBuffer := fun i => i
    charactersPerGlyphBuffer := fun _ => 1
    charactersToGlyphsBuffer := fun i => i
    glyphsPerCharacterBuffer := fun _ => 1
    numberOfBidirectionalInfoRuns := 0
    lineBidirectionalInfoRunsBuffer := none }

/-- The line break info of "Hello big\nworld", `2222212220 22220`. -/
def helloLineBreakInfo : List Nat := [2, 2, 2, 2, 2, 1, 2, 2, 2, 0, 2, 2, 2, 2, 0]

/-- The word break info of "Hello big\nworld", `1111001100 11110`. -/
def helloWordBreakInfo : List Nat := [1, 1, 1, 1, 0, 0, 1, 1, 0, 0, 1, 1, 1, 1, 0]

/-- The text "Hello big\nworld", one glyph per character. -/
def helloParameters (boxWidth : ℚ) : LayoutParameters :=
  sampleParameters boxWidth
    [72, 101, 108, 108, 111, 32, 98, 105, 103, 10, 119, 111, 114, 108, 100]
    helloLineBreakInfo helloWordBreakInfo

/-- The parameters describe "Hello big\nworld" shaped into one glyph per character, with
the break info of the documentation of `LogicalModel::GetLineBreakInfo` and
`GetWordBreakInfo`; the glyph metrics and the box are left open. -/
def isHelloText (parameters : LayoutParameters) : Prop :=
  parameters.totalNumberOfGlyphs = 15 ∧
    ∀ g, g < 15 →
      parameters.glyphsToCharactersBuffer g = g ∧ parameters.charactersPerGlyphBuffer g = 1 ∧
      parameters.lineBreakInfoBuffer g = helloLineBreakInfo.getD g 2 ∧
      parameters.wordBreakInfoBuffer g = helloWordBreakInfo.getD g 1

/-- A glyph position buffer filled with zeros. -/
def zeroPositions : Nat → Vector2 := fun _ => { x := 0, y := 0 }

/-- Parameters for a text shaped into one glyph per character, the glyphs being given one
by one (`sampleGlyph` beyond the list). -/
def glyphParameters (boxWidth : ℚ) (text lineBreakInfo wordBreakInfo : List Nat)
    (glyphs : List GlyphInfo) : LayoutParameters :=
  { sampleParameters boxWidth text lineBreakInfo wordBreakInfo with
    glyphsBuffer := fun i => glyphs.getD i sampleGlyph }

/-- A glyph of the given advance, width and horizontal bearing. -/
def glyphOf (advance width xBearing : ℚ) : GlyphInfo :=
  { sampleGlyph with advance := advance, width := width, xBearing := xBearing }

/-- The text "a\nb": an "a" of advance 10 and width 8, a new line character without
extent, and a "b" of advance 11 and width 9. -/
def twoLineParameters : LayoutParameters :=
  glyphParameters 100 [97, 10, 98] [2, 0, 0] [0, 0, 0]
    [glyphOf 10 8 1, glyphOf 0 0 0, glyphOf 11 9 1]

/-- A right to left line of the five characters 0 to 4, in the visual order 4, 3, 2, 1, 0. -/
def reversedLine : BidirectionalLineInfoRun :=
  { characterRun := { characterIndex := 0, numberOfCharacters := 5 }
    visualToLogicalMap := fun k => 4 - k
    direction := true }

/-- Five glyphs of advances 10, 11, 12, 13 and 14 for five characters, with one right to
left line that holds all of them in the order 4, 3, 2, 1, 0. -/
def reversedParameters : LayoutParameters :=
  { glyphParameters 100 [1488, 1489, 1490, 1491, 1492] [2, 2, 2, 2, 0] [1, 1, 1, 1, 0]
      [glyphOf 10 8 1, glyphOf 11 8 1, glyphOf 12 8 1, glyphOf 13 8 1, glyphOf 14 8 1] with
    numberOfBidirectionalInfoRuns := 1
    lineBidirectionalInfoRunsBuffer := some (fun _ => reversedLine) }

/-- The text "a b" in a box of width 100, the advances (and widths) of its glyphs being the
`float`s nearest to 10.1, 3.3 and 7.7. -/
def roundedSumParameters : LayoutParameters :=
  glyphParameters 100 [97, 32, 98] [2, 1, 0] [0, 0, 0]
    [glyphOf (roundToFloat (101 / 10)) (roundToFloat (101 / 10)) 0,
      glyphOf (roundToFloat (33 / 10)) 0 0,
      glyphOf (roundToFloat (77 / 10)) (roundToFloat (77 / 10)) 0]

/-- A line run over the glyphs `glyphIndex .. glyphIndex + numberOfGlyphs - 1`, which are
also its characters, of the given width. -/
def sampleLine (glyphIndex numberOfGlyphs : Nat) (width : ℚ) : LineRun :=
  { glyphIndex := glyphIndex
    numberOfGlyphs := numberOfGlyphs
    characterRun := { characterIndex := glyphIndex, numberOfCharacters := numberOfGlyphs }
    width := width
    ascender := 10
    descender := -2
    extraLength := 0
    direction := false }

end LayoutEngine

/-! ### The visual model -/

/-- What `Resize( count )` followed by `memcpy` from a caller's buffer leaves in a vector:
the first `count` entries of the buffer. -/
def copyBuffer {α : Type} (buffer : Nat → α) (count : Nat) : List α :=
  (List.range count).map buffer

namespace VisualModel

/-- The tables of the visual model (`struct VisualModel::Impl`). -/
structure Impl where
  mGlyphs : List GlyphInfo
  mGlyphsToCharacters : List Nat
  mCharactersToGlyph : List Nat
  mCharactersPerGlyph : List Nat
  mGlyphPositions : List Vector2
  mNaturalSize : Size
  mActualSize : Size

/-- `VisualModel::New`: a model whose vectors are empty. -/
def New : Impl :=
  { mGlyphs := [], mGlyphsToCharacters := [], mCharactersToGlyph := [],
    mCharactersPerGlyph := [], mGlyphPositions := [],
    mNaturalSize := { width := 0, height := 0 }, mActualSize := { width := 0, height := 0 } }

/-- The inner loop of `SetGlyphs` (lines 88 to 91): `numberOfCharacters` times
`modelCharactersToGlyph.PushBack( glyphIndex )`. -/
def SetGlyphs.pushBack (glyphIndex : Nat) : Nat → List Nat → List Nat
  | 0, charactersToGlyph => charactersToGlyph
  | count + 1, charactersToGlyph =>
    SetGlyphs.pushBack glyphIndex count (charactersToGlyph ++ [glyphIndex])

/-- The loop of `SetGlyphs` over the characters per glyph (lines 79 to 92). -/
def SetGlyphs.traverse : List Nat → Nat → List Nat → List Nat
  | [], _, charactersToGlyph => charactersToGlyph
  | numberOfCharacters :: rest, glyphIndex, charactersToGlyph =>
    SetGlyphs.traverse rest (glyphIndex + 1)
      (SetGlyphs.pushBack glyphIndex numberOfCharacters charactersToGlyph)

/-- `VisualModel::SetGlyphs`. The three vectors of glyph data are resized and overwritten;
the characters to glyph table is only reserved space for (`Reserve` keeps the entries of a
vector) and then pushed to. -/
def SetGlyphs (model : Impl) (glyphs : Nat → GlyphInfo) (characterIndices : Nat → Nat)
    (charactersPerGlyph : Nat → Nat) (numberOfGlyphs : Nat) : Impl :=
  { model with
    mGlyphs := copyBuffer glyphs numberOfGlyphs
    mGlyphsToCharacters := copyBuffer characterIndices numberOfGlyphs
    mCharactersPerGlyph := copyBuffer charactersPerGlyph numberOfGlyphs
    mCharactersToGlyph :=
      SetGlyphs.traverse (copyBuffer charactersPerGlyph numberOfGlyphs) 0
        model.mCharactersToGlyph }

/-- `VisualModel::GetCharacterIndex`: `mGlyphsToCharacters[glyphIndex]`. -/
def GetCharacterIndex (model : Impl) (glyphIndex : Nat) : Option Nat :=
  model.mGlyphsToCharacters[glyphIndex]?

/-- `VisualModel::GetCharactersPerGlyph`: `mCharactersPerGlyph[glyphIndex]`. -/
def GetCharactersPerGlyph (model : Impl) (glyphIndex : Nat) : Option Nat :=
  model.mCharactersPerGlyph[glyphIndex]?

/-- `VisualModel::GetGlyphIndex`: `mCharactersToGlyph[characterIndex]`. -/
def GetGlyphIndex (model : Impl) (characterIndex : Nat) : Option Nat :=
  model.mCharactersToGlyph[characterIndex]?

/-- The number of characters before glyph `glyphIndex`: the sum of the characters per
glyph of the glyphs before it. -/
def charactersBefore (charactersPerGlyph : Nat → Nat) (glyphIndex : Nat) : Nat :=
  ((List.range glyphIndex).map charactersPerGlyph).sum

end VisualModel

/-! ### The logical model -/

namespace LogicalModel

/-- A run of characters with its script (`struct ScriptRun`). A `Script` is a value of an
enumeration of the text abstraction, a number here. -/
structure ScriptRun where
  characterRun : CharacterRun
  script : Nat
deriving DecidableEq

/-- A run of characters with its font (`struct FontRun`). -/
structure FontRun where
  characterRun : CharacterRun
  fontId : Nat
deriving DecidableEq

/-- The vectors of the logical model (`struct LogicalModel::Impl`). -/
structure Impl where
  mText : List Nat
  mScriptRuns : List ScriptRun
  mFontRuns : List FontRun
  mLineBreakInfo : List Nat
  mWordBreakInfo : List Nat
deriving DecidableEq

/-- `LogicalModel::New`: a model whose vectors are empty. -/
def New : Impl :=
  { mText := [], mScriptRuns := [], mFontRuns := [], mLineBreakInfo := [],
    mWordBreakInfo := [] }

/-- `LogicalModel::SetText`. -/
def SetText (model : Impl) (text : Nat → Nat) (numberOfCharacters : Nat) : Impl :=
  if 0 = numberOfCharacters then { model with mText := [] }
  else { model with mText := copyBuffer text numberOfCharacters }

/-- `LogicalModel::GetNumberOfCharacters`. -/
def GetNumberOfCharacters (model : Impl) : Nat := model.mText.length

/-- `LogicalModel::SetScripts`. -/
def SetScripts (model : Impl) (scripts : Nat → ScriptRun) (numberOfRuns : Nat) : Impl :=
  if 0 = numberOfRuns then { model with mScriptRuns := [] }
  else { model with mScriptRuns := copyBuffer scripts numberOfRuns }

/-- `LogicalModel::SetFonts`. -/
def SetFonts (model : Impl) (fonts : Nat → FontRun) (numberOfRuns : Nat) : Impl :=
  if 0 = numberOfRuns then { model with mFontRuns := [] }
  else { model with mFontRuns := copyBuffer fonts numberOfRuns }

/-- `LogicalModel::SetLineBreakInfo`. -/
def SetLineBreakInfo (model : Impl) (lineBreakInfo : Nat → Nat) (length : Nat) : Impl :=
  if 0 = length then { model with mLineBreakInfo := [] }
  else { model with mLineBreakInfo := copyBuffer lineBreakInfo length }

/-- `LogicalModel::SetWordBreakInfo`. -/
def SetWordBreakInfo (model : Impl) (wordBreakInfo : Nat → Nat) (length : Nat) : Impl :=
  if 0 = length then { model with mWordBreakInfo := [] }
  else { model with mWordBreakInfo := copyBuffer wordBreakInfo length }

/-- The end of a character run as the source computes it,
`characterRun.characterIndex + characterRun.numberOfCharacters` in 32 bit arithmetic. -/
def runEnd (characterRun : CharacterRun) : Nat :=
  wrap32 (characterRun.characterIndex + characterRun.numberOfCharacters)

/-- The loop of `GetNumberOfScriptRuns` and of `GetNumberOfFontRuns` (lines 115 to 138 and
208 to 231), over the character runs of the script or font runs left; it returns the
number of runs counted. -/
def GetNumberOfRuns.loop (characterIndex charcterEndIndex : Nat) :
    List CharacterRun → Nat → Bool → Nat
  | [], numberOfRuns, _ => numberOfRuns
  | characterRun :: rest, numberOfRuns, firstIndexFound =>
    let firstIndexFound :=
      if firstIndexFound = false ∧ characterIndex < runEnd characterRun then true
      else firstIndexFound
    if firstIndexFound = true then
      if runEnd characterRun > charcterEndIndex then
        -- This run exceeds the given range. The number of runs can be returned.
        numberOfRuns + 1
      else GetNumberOfRuns.loop characterIndex charcterEndIndex rest (numberOfRuns + 1)
        firstIndexFound
    else GetNumberOfRuns.loop characterIndex charcterEndIndex rest numberOfRuns firstIndexFound

/-- `LogicalModel::GetNumberOfScriptRuns`. -/
def GetNumberOfScriptRuns (model : Impl) (characterIndex numberOfCharacters : Nat) : Nat :=
  if 0 = characterIndex ∧ model.mText.length = numberOfCharacters then
    model.mScriptRuns.length
  else
    GetNumberOfRuns.loop characterIndex (wrap32 (characterIndex + numberOfCharacters))
      (model.mScriptRuns.map (fun run => run.characterRun)) 0 false

/-- `LogicalModel::GetNumberOfFontRuns`. -/
def GetNumberOfFontRuns (model : Impl) (characterIndex numberOfCharacters : Nat) : Nat :=
  if 0 = characterIndex ∧ model.mText.length = numberOfCharacters then
    model.mFontRuns.length
  else
    GetNumberOfRuns.loop characterIndex (wrap32 (characterIndex + numberOfCharacters))
      (model.mFontRuns.map (fun run => run.characterRun)) 0 false

/-- The loop of `GetScript` (lines 166 to 177); `UNKNOWN` stands for
`TextAbstraction::UNKNOWN`, a value of an enumeration declared outside this repository. -/
def GetScript.loop (UNKNOWN characterIndex : Nat) : List ScriptRun → Nat
  | [] => UNKNOWN
  | scriptRun :: rest =>
    if scriptRun.characterRun.characterIndex ≤ characterIndex ∧
        characterIndex < runEnd scriptRun.characterRun then
      scriptRun.script
    else GetScript.loop UNKNOWN characterIndex rest

/-- `LogicalModel::GetScript`. -/
def GetScript (UNKNOWN : Nat) (model : Impl) (characterIndex : Nat) : Nat :=
  GetScript.loop UNKNOWN characterIndex model.mScriptRuns

/-- The loop of `GetFont` (lines 257 to 268). -/
def GetFont.loop (characterIndex : Nat) : List FontRun → Nat
  | [] => 0
  | fontRun :: rest =>
    if fontRun.characterRun.characterIndex ≤ characterIndex ∧
        characterIndex < runEnd fontRun.characterRun then
      fontRun.fontId
    else GetFont.loop characterIndex rest

/-- `LogicalModel::GetFont`. -/
def GetFont (model : Impl) (characterIndex : Nat) : Nat :=
  GetFont.loop characterIndex model.mFontRuns

/-- The run covers the character: `characterIndex <= c < characterIndex +
numberOfCharacters`, in the arithmetic of the natural numbers. -/
def coversCharacter (characterRun : CharacterRun) (c : Nat) : Prop :=
  characterRun.characterIndex ≤ c ∧
    c < characterRun.characterIndex + characterRun.numberOfCharacters

instance (characterRun : CharacterRun) (c : Nat) :
    Decidable (coversCharacter characterRun c) := by
  unfold coversCharacter; infer_instance

/-- A character of the range `characterIndex .. characterIndex + numberOfCharacters - 1`
is in the run. -/
def runMeetsRange (characterIndex numberOfCharacters : Nat) (characterRun : CharacterRun) :
    Prop :=
  ∃ c, c < characterIndex + numberOfCharacters ∧ characterIndex ≤ c ∧
    characterRun.characterIndex ≤ c ∧
    c < characterRun.characterIndex + characterRun.numberOfCharacters

instance (characterIndex numberOfCharacters : Nat) (characterRun : CharacterRun) :
    Decidable (runMeetsRange characterIndex numberOfCharacters characterRun) := by
  unfold runMeetsRange; infer_instance

/-- A model of ten characters with the script runs and the font runs `[0, 5)` and
`[5, 10)`, and break info for every character. -/
def sampleModel : Impl :=
  { mText := [72, 101, 108, 108, 111, 1513, 1500, 1493, 1501, 10]
    mScriptRuns :=
      [{ characterRun := { characterIndex := 0, numberOfCharacters := 5 }, script := 1 },
       { characterRun := { characterIndex := 5, numberOfCharacters := 5 }, script := 2 }]
    mFontRuns :=
      [{ characterRun := { characterIndex := 0, numberOfCharacters := 5 }, fontId := 3 },
       { characterRun := { characterIndex := 5, numberOfCharacters := 5 }, fontId := 4 }]
    mLineBreakInfo := [2, 2, 2, 2, 1, 2, 2, 2, 2, 0]
    mWordBreakInfo := [1, 1, 1, 1, 0, 1, 1, 1, 0, 0] }

end LogicalModel

namespace LayoutEngine

open Layout HorizontalAlignment VerticalAlignment

/-! ### Sums over glyphs and trailing white space -/

/-- The sum of `f` over the `count` indices from `first` on. -/
def sumFrom {α : Type} [AddCommMonoid α] (f : Nat → α) (first count : Nat) : α :=
  ((List.range count).map (fun j => f (first + j))).sum

/-- The pen `penX` of `LayoutText` after `k` glyphs of a line that starts at glyph `first`:
the advances of those glyphs, added one after the other from 0 (lines 253 and 306). -/
def penXAt (impl : Impl) (parameters : LayoutParameters) (first : Nat) : Nat → ℚ
  | 0 => 0
  | k + 1 =>
    impl.round (penXAt impl parameters first k + (parameters.glyphsBuffer (first + k)).advance)

/-- The pen `penY` of `LayoutText` after the given lines: from 0, the ascender and then the
negated descender of each line, added one after the other (lines 295 and 309). -/
def penYAfter (impl : Impl) (lines : List LineRun) : ℚ :=
  lines.foldl (fun penY l => impl.round (impl.round (penY + l.ascender) + -l.descender)) 0

/-- The line breaker takes the glyph for a white space: `IsWhiteSpace` of the first
character of the glyph (lines 178 and 179). -/
def isWhiteSpaceGlyph (impl : Impl) (parameters : LayoutParameters) (glyphIndex : Nat) : Bool :=
  impl.IsWhiteSpace (parameters.textBuffer (parameters.glyphsToCharactersBuffer glyphIndex))

/-- The sum of the advances of the maximal run of white space glyphs at the end of the
`count` glyphs from `first` on; 0 when the last of them is not a white space. -/
def trailingWhiteSpace (impl : Impl) (parameters : LayoutParameters) (first : Nat) : Nat → ℚ
  | 0 => 0
  | count + 1 =>
    if isWhiteSpaceGlyph impl parameters (first + count) = true then
      trailingWhiteSpace impl parameters first count +
        (parameters.glyphsBuffer (first + count)).advance
    else 0

/-- The text "a " followed by a mark that is not a white space and has no advance: an "a"
and a space of advance 10, and a mark of advance 0 and width 2 that ends the text. -/
def markParameters : LayoutParameters :=
  glyphParameters 100 [97, 32, 769] [2, 1, 0] [0, 0, 0]
    [glyphOf 10 8 1, glyphOf 10 0 0, glyphOf 0 2 0]

/-- A bidirectional line run over the four characters 6 to 9, in their logical order. -/
def identityLine : BidirectionalLineInfoRun :=
  { characterRun := { characterIndex := 6, numberOfCharacters := 4 }
    visualToLogicalMap := fun k => k
    direction := false }

/-- The text "Hello big\nworld" in a box of width 50, with one bidirectional line run, over
the characters of its second line "big\n", whose visual to logical map is the identity. -/
def identityParameters : LayoutParameters :=
  { helloParameters 50 with
    numberOfBidirectionalInfoRuns := 1
    lineBidirectionalInfoRunsBuffer := some (fun _ => identityLine) }

/-! ## The line breaker -/

theorem GetLineLayoutForBox_loop_succ (impl : Impl) (p : LayoutParameters)
    (rem : Nat) (g : Nat) (line tmp : LineLayout) (lf : Nat) :
    GetLineLayoutForBox.loop impl p (rem + 1) g line tmp lf =
      if impl.mLayout = MULTI_LINE_BOX ∧
          overflowExtent impl line (accumulateGlyph impl p g tmp) > p.boundingBox.width then
        (line, LoopExit.wordDoesNotFit g)
      else if (impl.mLayout = MULTI_LINE_BOX ∨ g = p.totalNumberOfGlyphs - 1) ∧
          isMustBreak p g then
        (MergeLineLayout impl line (accumulateGlyph impl p g tmp), LoopExit.mustBreak g)
      else if impl.mLayout = MULTI_LINE_BOX ∧ isWordBreak p g then
        GetLineLayoutForBox.loop impl p rem (g + 1)
          (MergeLineLayout impl line (accumulateGlyph impl p g tmp))
          (updateFontMetrics impl (p.glyphsBuffer g).fontId lf LineLayout.Clear)
          (p.glyphsBuffer g).fontId
      else
        GetLineLayoutForBox.loop impl p rem (g + 1) line
          (updateFontMetrics impl (p.glyphsBuffer g).fontId lf (accumulateGlyph impl p g tmp))
          (p.glyphsBuffer g).fontId := rfl

theorem accumulateGlyph_numberOfGlyphs (impl : Impl) (p : LayoutParameters) (g : Nat)
    (tmp : LineLayout) :
    (accumulateGlyph impl p g tmp).numberOfGlyphs = tmp.numberOfGlyphs + 1 := by
  simp only [accumulateGlyph]
  split_ifs <;> rfl

theorem accumulateGlyph_widthAdvanceDiff (impl : Impl) (p : LayoutParameters) (g : Nat)
    (tmp : LineLayout) :
    (accumulateGlyph impl p g tmp).widthAdvanceDiff = glyphWidthAdvanceDiff impl p g := by
  simp only [accumulateGlyph, glyphWidthAdvanceDiff]
  split_ifs <;> rfl

theorem updateFontMetrics_numberOfGlyphs (impl : Impl) (f lf : Nat) (tmp : LineLayout) :
    (updateFontMetrics impl f lf tmp).numberOfGlyphs = tmp.numberOfGlyphs := by
  simp only [updateFontMetrics]
  split_ifs <;> rfl

theorem MergeLineLayout_numberOfGlyphs (impl : Impl) (line tmp : LineLayout) :
    (MergeLineLayout impl line tmp).numberOfGlyphs =
      line.numberOfGlyphs + tmp.numberOfGlyphs := rfl

/-- The loop either merges nothing, or the glyphs it returns end at a glyph at which it
merges. -/
theorem GetLineLayoutForBox_loop_count (impl : Impl) (p : LayoutParameters) :
    ∀ (rem : Nat) (g : Nat) (line tmp : LineLayout) (lf : Nat),
      (GetLineLayoutForBox.loop impl p rem g line tmp lf).1.numberOfGlyphs =
          line.numberOfGlyphs ∨
        ∃ e, g ≤ e ∧ e < g + rem ∧
          (GetLineLayoutForBox.loop impl p rem g line tmp lf).1.numberOfGlyphs =
            line.numberOfGlyphs + tmp.numberOfGlyphs + (e - g + 1) ∧
          commitsAt impl p e := by
  intro rem
  induction rem with
  | zero => intro g line tmp lf; left; rfl
  | succ rem ih =>
    intro g line tmp lf
    rw [GetLineLayoutForBox_loop_succ]
    split_ifs with h1 h2 h3
    · left; rfl
    · right
      refine ⟨g, le_refl g, by omega, ?_, Or.inl h2⟩
      simp only [MergeLineLayout_numberOfGlyphs, accumulateGlyph_numberOfGlyphs]
      omega
    · right
      rcases ih (g + 1) (MergeLineLayout impl line (accumulateGlyph impl p g tmp))
          (updateFontMetrics impl (p.glyphsBuffer g).fontId lf LineLayout.Clear)
          (p.glyphsBuffer g).fontId with h | ⟨e, he1, he2, he3, he4⟩
      · refine ⟨g, le_refl g, by omega, ?_, Or.inr h3⟩
        rw [h]
        simp only [MergeLineLayout_numberOfGlyphs, accumulateGlyph_numberOfGlyphs]
        omega
      · refine ⟨e, by omega, by omega, ?_, he4⟩
        rw [he3]
        simp only [MergeLineLayout_numberOfGlyphs, accumulateGlyph_numberOfGlyphs,
          updateFontMetrics_numberOfGlyphs]
        have : LineLayout.Clear.numberOfGlyphs = 0 := rfl
        omega
    · rcases ih (g + 1) line
          (updateFontMetrics impl (p.glyphsBuffer g).fontId lf (accumulateGlyph impl p g tmp))
          (p.glyphsBuffer g).fontId with h | ⟨e, he1, he2, he3, he4⟩
      · left; exact h
      · right
        refine ⟨e, by omega, by omega, ?_, he4⟩
        rw [he3]
        simp only [accumulateGlyph_numberOfGlyphs, updateFontMetrics_numberOfGlyphs]
        omega

/-- In multi-line mode: a loop that ends at a mandatory break ends at the first one, and a
loop that runs out of glyphs met none. -/
theorem GetLineLayoutForBox_loop_exit (impl : Impl) (p : LayoutParameters)
    (hm : impl.mLayout = MULTI_LINE_BOX) :
    ∀ (rem g : Nat) (line tmp : LineLayout) (lf : Nat),
      (∀ e, (GetLineLayoutForBox.loop impl p rem g line tmp lf).2 = LoopExit.mustBreak e →
        g ≤ e ∧ e < g + rem ∧ isMustBreak p e ∧ (∀ j, g ≤ j → j < e → ¬ isMustBreak p j) ∧
          (GetLineLayoutForBox.loop impl p rem g line tmp lf).1.numberOfGlyphs =
            line.numberOfGlyphs + tmp.numberOfGlyphs + (e - g + 1)) ∧
      ((GetLineLayoutForBox.loop impl p rem g line tmp lf).2 = LoopExit.endOfGlyphs →
        ∀ j, g ≤ j → j < g + rem → ¬ isMustBreak p j) := by
  intro rem
  induction rem with
  | zero =>
    intro g line tmp lf
    refine ⟨fun e h => ?_, fun _ j h1 h2 => ?_⟩
    · simp [GetLineLayoutForBox.loop] at h
    · omega
  | succ rem ih =>
    intro g line tmp lf
    rw [GetLineLayoutForBox_loop_succ]
    split_ifs with h1 h2 h3
    · refine ⟨fun e h => ?_, fun h => ?_⟩
      · simp at h
      · simp at h
    · refine ⟨fun e h => ?_, fun h => ?_⟩
      · have hge : g = e := by simpa using h
        subst hge
        refine ⟨le_refl g, by omega, h2.2, fun j h1 h2 => by omega, ?_⟩
        simp only [MergeLineLayout_numberOfGlyphs, accumulateGlyph_numberOfGlyphs]
        omega
      · simp at h
    · have hg : ¬ isMustBreak p g := fun h => h2 ⟨Or.inl hm, h⟩
      obtain ⟨ih1, ih2⟩ := ih (g + 1) (MergeLineLayout impl line (accumulateGlyph impl p g tmp))
          (updateFontMetrics impl (p.glyphsBuffer g).fontId lf LineLayout.Clear)
          (p.glyphsBuffer g).fontId
      refine ⟨fun e h => ?_, fun h j hj1 hj2 => ?_⟩
      · obtain ⟨a, b, c, d, f⟩ := ih1 e h
        refine ⟨by omega, by omega, c, fun j hj1 hj2 => ?_, ?_⟩
        · rcases Nat.eq_or_lt_of_le hj1 with hj | hj
          · rw [← hj]; exact hg
          · exact d j hj hj2
        · rw [f]
          simp only [MergeLineLayout_numberOfGlyphs, accumulateGlyph_numberOfGlyphs,
            updateFontMetrics_numberOfGlyphs]
          have : LineLayout.Clear.numberOfGlyphs = 0 := rfl
          omega
      · rcases Nat.eq_or_lt_of_le hj1 with hj | hj
        · rw [← hj]; exact hg
        · exact ih2 h j hj (by omega)
    · have hg : ¬ isMustBreak p g := fun h => h2 ⟨Or.inl hm, h⟩
      obtain ⟨ih1, ih2⟩ := ih (g + 1) line
          (updateFontMetrics impl (p.glyphsBuffer g).fontId lf (accumulateGlyph impl p g tmp))
          (p.glyphsBuffer g).fontId
      refine ⟨fun e h => ?_, fun h j hj1 hj2 => ?_⟩
      · obtain ⟨a, b, c, d, f⟩ := ih1 e h
        refine ⟨by omega, by omega, c, fun j hj1 hj2 => ?_, ?_⟩
        · rcases Nat.eq_or_lt_of_le hj1 with hj | hj
          · rw [← hj]; exact hg
          · exact d j hj hj2
        · rw [f]
          simp only [accumulateGlyph_numberOfGlyphs, updateFontMetrics_numberOfGlyphs]
          omega
      · rcases Nat.eq_or_lt_of_le hj1 with hj | hj
        · rw [← hj]; exact hg
        · exact ih2 h j hj (by omega)

theorem updateFontMetrics_sameExtents (impl : Impl) (f lf : Nat) (tmp : LineLayout) :
    sameExtents (updateFontMetrics impl f lf tmp) tmp := by
  simp only [updateFontMetrics, sameExtents]
  split_ifs <;> exact ⟨rfl, rfl, rfl⟩

theorem accumulateGlyph_sameExtents (impl : Impl) (p : LayoutParameters) (g : Nat)
    (a b : LineLayout) (h : sameExtents a b) :
    sameExtents (accumulateGlyph impl p g a) (accumulateGlyph impl p g b) := by
  obtain ⟨h1, h2, h3⟩ := h
  simp only [accumulateGlyph, sameExtents]
  split_ifs
  · exact ⟨h1, rfl, by rw [h3]⟩
  · exact ⟨by rw [h1, h3], rfl, rfl⟩

theorem accumulateGlyphs_sameExtents (impl : Impl) (p : LayoutParameters) :
    ∀ (count g : Nat) (a b : LineLayout), sameExtents a b →
      sameExtents (accumulateGlyphs impl p count g a) (accumulateGlyphs impl p count g b) := by
  intro count
  induction count with
  | zero => intro g a b h; exact h
  | succ count ih =>
    intro g a b h
    exact ih (g + 1) _ _ (accumulateGlyph_sameExtents impl p g a b h)

theorem overflowExtent_congr (impl : Impl) (line a b : LineLayout) (h : sameExtents a b) :
    overflowExtent impl line a = overflowExtent impl line b := by
  obtain ⟨h1, h2, h3⟩ := h
  simp only [overflowExtent, h1, h2]

/-- In multi-line mode the loop merges nothing when, before any break, the pending glyphs
exceed the box. -/
theorem GetLineLayoutForBox_loop_oversize (impl : Impl) (p : LayoutParameters)
    (hm : impl.mLayout = MULTI_LINE_BOX) :
    ∀ (rem g : Nat) (line tmp tmp0 : LineLayout) (lf k : Nat), sameExtents tmp tmp0 → k < rem →
      (∀ j, j < k → ¬ isMustBreak p (g + j) ∧ ¬ isWordBreak p (g + j)) →
      overflowExtent impl line (accumulateGlyphs impl p (k + 1) g tmp0) > p.boundingBox.width →
      (GetLineLayoutForBox.loop impl p rem g line tmp lf).1 = line := by
  intro rem
  induction rem with
  | zero => intro g line tmp tmp0 lf k _ hk; omega
  | succ rem ih =>
    intro g line tmp tmp0 lf k hs hk hno hover
    rw [GetLineLayoutForBox_loop_succ]
    have hacc := accumulateGlyph_sameExtents impl p g tmp tmp0 hs
    split_ifs with h1 h2 h3
    · rfl
    · exfalso
      cases k with
      | zero =>
        apply h1
        refine ⟨hm, ?_⟩
        rw [overflowExtent_congr impl line _ _ hacc]
        exact hover
      | succ k =>
        have := hno 0 (by omega)
        exact this.1 h2.2
    · exfalso
      cases k with
      | zero =>
        apply h1
        refine ⟨hm, ?_⟩
        rw [overflowExtent_congr impl line _ _ hacc]
        exact hover
      | succ k =>
        have := hno 0 (by omega)
        exact this.2 h3.2
    · cases k with
      | zero =>
        exfalso
        apply h1
        refine ⟨hm, ?_⟩
        rw [overflowExtent_congr impl line _ _ hacc]
        exact hover
      | succ k =>
        refine ih (g + 1) line _ (accumulateGlyph impl p g tmp0) _ k ?_ (by omega) ?_ hover
        · exact ⟨(updateFontMetrics_sameExtents impl _ lf _).1.trans hacc.1,
            (updateFontMetrics_sameExtents impl _ lf _).2.1.trans hacc.2.1,
            (updateFontMetrics_sameExtents impl _ lf _).2.2.trans hacc.2.2⟩
        · intro j hj
          have := hno (j + 1) (by omega)
          rwa [show g + 1 + j = g + (j + 1) by omega]

/-! ### The line laid out at a given glyph -/

theorem lineLayoutAt_eq (impl : Impl) (p : LayoutParameters) (s : Nat) :
    lineLayoutAt impl p s =
      (GetLineLayoutForBox.loop impl p (p.totalNumberOfGlyphs - s) s
        { LineLayout.Clear with glyphIndex := s } LineLayout.Clear 0).1 := rfl

theorem lineExitAt_eq (impl : Impl) (p : LayoutParameters) (s : Nat) :
    lineExitAt impl p s =
      (GetLineLayoutForBox.loop impl p (p.totalNumberOfGlyphs - s) s
        { LineLayout.Clear with glyphIndex := s } LineLayout.Clear 0).2 := rfl

/-- A line with glyphs ends, inside the text, at a glyph at which the loop merges. -/
theorem lineLayoutAt_end (impl : Impl) (p : LayoutParameters) (s : Nat)
    (h : (lineLayoutAt impl p s).numberOfGlyphs ≠ 0) :
    ∃ e, s ≤ e ∧ e < p.totalNumberOfGlyphs ∧
      (lineLayoutAt impl p s).numberOfGlyphs = e - s + 1 ∧ commitsAt impl p e := by
  rw [lineLayoutAt_eq] at h ⊢
  rcases GetLineLayoutForBox_loop_count impl p (p.totalNumberOfGlyphs - s) s
      { LineLayout.Clear with glyphIndex := s } LineLayout.Clear 0 with h0 | ⟨e, h1, h2, h3, h4⟩
  · exact absurd h0 h
  · refine ⟨e, h1, by omega, ?_, h4⟩
    rw [h3]
    show 0 + 0 + (e - s + 1) = e - s + 1
    omega

theorem lineLayoutAt_le (impl : Impl) (p : LayoutParameters) (s : Nat) :
    s + (lineLayoutAt impl p s).numberOfGlyphs ≤ max s p.totalNumberOfGlyphs := by
  by_cases h : (lineLayoutAt impl p s).numberOfGlyphs = 0
  · rw [h]; exact le_max_left _ _
  · obtain ⟨e, h1, h2, h3, _⟩ := lineLayoutAt_end impl p s h
    rw [h3]
    have := le_max_right s p.totalNumberOfGlyphs
    omega

/-- In multi-line mode no line starts at a glyph from which the pending glyphs exceed the
box before any break. -/
theorem lineLayoutAt_oversize (impl : Impl) (p : LayoutParameters)
    (hm : impl.mLayout = MULTI_LINE_BOX) (s g : Nat) (hsg : s ≤ g)
    (hg : g < p.totalNumberOfGlyphs)
    (hno : ∀ j, s ≤ j → j < g → ¬ isMustBreak p j ∧ ¬ isWordBreak p j)
    (hover : pendingExtent impl p s g > p.boundingBox.width) :
    (lineLayoutAt impl p s).numberOfGlyphs = 0 := by
  rw [lineLayoutAt_eq]
  rw [GetLineLayoutForBox_loop_oversize impl p hm (p.totalNumberOfGlyphs - s) s
    { LineLayout.Clear with glyphIndex := s } LineLayout.Clear LineLayout.Clear 0 (g - s)
    ⟨rfl, rfl, rfl⟩ (by omega) (fun j hj => hno (s + j) (by omega) (by omega)) ?_]
  · rfl
  · have h1 : g - s + 1 = g + 1 - s := by omega
    rw [h1]
    exact hover

/-! ## The layout loop -/

theorem LayoutText_loop_succ (impl : Impl) (p : LayoutParameters) (budget index : Nat)
    (penY : ℚ) (out : LayoutOutput) :
    LayoutText.loop impl p (budget + 1) index penY out =
      if index < p.totalNumberOfGlyphs then
        if 0 = (lineLayoutAt impl p index).numberOfGlyphs then some (false, out)
        else
          LayoutText.loop impl p budget (index + (lineLayoutAt impl p index).numberOfGlyphs)
            (impl.round (impl.round (penY + (lineLayoutAt impl p index).ascender) +
              -(lineLayoutAt impl p index).descender))
            { glyphPositions :=
                setGlyphPositions impl p
                  (impl.round (penY + (lineLayoutAt impl p index).ascender))
                  (lineLayoutAt impl p index).numberOfGlyphs index 0 out.glyphPositions
              lines := out.lines ++ [makeLineRun impl p index (lineLayoutAt impl p index)]
              actualSize :=
                updateActualSize impl (lineLayoutAt impl p index)
                  (makeLineRun impl p index (lineLayoutAt impl p index)) out.actualSize }
      else some (true, out) := rfl

/-- The loop of `LayoutText` returns whenever its budget covers the glyphs left. -/
theorem LayoutText_loop_returns (impl : Impl) (p : LayoutParameters) :
    ∀ (budget index : Nat) (penY : ℚ) (out : LayoutOutput),
      p.totalNumberOfGlyphs - index ≤ budget →
      ∃ r, LayoutText.loop impl p budget index penY out = some r := by
  intro budget
  induction budget with
  | zero =>
    intro index penY out h
    refine ⟨(true, out), ?_⟩
    simp only [LayoutText.loop]
    rw [if_neg (by omega)]
  | succ budget ih =>
    intro index penY out h
    rw [LayoutText_loop_succ]
    split_ifs with h1 h2
    · exact ⟨_, rfl⟩
    · exact ih _ _ _ (by omega)
    · exact ⟨_, rfl⟩

/-- `LayoutText` always returns. -/
theorem LayoutText_returns (impl : Impl) (p : LayoutParameters) (glyphPositions : Nat → Vector2)
    (lines : List LineRun) (actualSize : Size) :
    ∃ r, LayoutText impl p glyphPositions lines actualSize = some r :=
  LayoutText_loop_returns impl p _ _ _ _ (by omega)

/-- What the loop of `LayoutText` leaves in the line table and in the height. -/
theorem LayoutText_loop_lines (impl : Impl) (p : LayoutParameters) :
    ∀ (budget index : Nat) (penY : ℚ) (out : LayoutOutput) (r : Bool × LayoutOutput),
      LayoutText.loop impl p budget index penY out = some r →
      ∃ new, r.2.lines = out.lines ++ new ∧ LinesFrom impl p index new r.1 ∧
        r.2.actualSize.height =
          new.foldl (fun h l => impl.round (h + impl.round (l.ascender + -l.descender)))
            out.actualSize.height := by
  intro budget
  induction budget with
  | zero =>
    intro index penY out r h
    simp only [LayoutText.loop] at h
    split_ifs at h with h1
    cases h
    exact ⟨[], by simp, by simp [LinesFrom, h1], by simp⟩
  | succ budget ih =>
    intro index penY out r h
    rw [LayoutText_loop_succ] at h
    split_ifs at h with h1 h2
    · cases h
      exact ⟨[], by simp, by simp [LinesFrom, h1, h2.symm], by simp⟩
    · obtain ⟨new, e1, e2, e3⟩ := ih _ _ _ _ h
      refine ⟨makeLineRun impl p index (lineLayoutAt impl p index) :: new, ?_, ?_, ?_⟩
      · rw [e1]; simp
      · exact ⟨h1, fun h => h2 h.symm, rfl, e2⟩
      · rw [e3]
        rfl
    · cases h
      exact ⟨[], by simp, by simp [LinesFrom, h1], by simp⟩

/-- Every appended line is the line run of the line layout at its first glyph. -/
theorem LinesFrom_mem (impl : Impl) (p : LayoutParameters) :
    ∀ (new : List LineRun) (index : Nat) (ok : Bool), LinesFrom impl p index new ok →
      ∀ l ∈ new, ∃ s, index ≤ s ∧ s < p.totalNumberOfGlyphs ∧
        (lineLayoutAt impl p s).numberOfGlyphs ≠ 0 ∧
        l = makeLineRun impl p s (lineLayoutAt impl p s) := by
  intro new
  induction new with
  | nil => intro index ok _ l hl; simp at hl
  | cons l0 rest ih =>
    intro index ok h l hl
    simp only [LinesFrom] at h
    rcases List.mem_cons.mp hl with hl | hl
    · exact ⟨index, le_refl _, h.1, h.2.1, hl.trans h.2.2.1⟩
    · obtain ⟨s, a, b, c, d⟩ := ih _ ok h.2.2.2 l hl
      exact ⟨s, by omega, b, c, d⟩

/-- The appended lines start at `index`, follow one another without gap or overlap, hold
at least one glyph each and, on success, reach the last glyph. -/
theorem LinesFrom_coverage (impl : Impl) (p : LayoutParameters) :
    ∀ (new : List LineRun) (index : Nat) (ok : Bool), LinesFrom impl p index new ok →
      (∀ l, new.head? = some l → l.glyphIndex = index) ∧
      List.Chain' (fun a b : LineRun => b.glyphIndex = a.glyphIndex + a.numberOfGlyphs) new ∧
      (∀ l ∈ new, 1 ≤ l.numberOfGlyphs) ∧
      (ok = true → index ≤ p.totalNumberOfGlyphs →
        index + (new.map (fun l => l.numberOfGlyphs)).sum = p.totalNumberOfGlyphs) := by
  intro new
  induction new with
  | nil =>
    intro index ok h
    simp only [LinesFrom] at h
    refine ⟨by simp, List.chain'_nil, by simp, fun hok hle => ?_⟩
    split_ifs at h with h1
    · rw [hok] at h; simp at h
    · simp; omega
  | cons l0 rest ih =>
    intro index ok h
    simp only [LinesFrom] at h
    obtain ⟨h1, h2, h3, h4⟩ := h
    obtain ⟨i1, i2, i3, i4⟩ := ih _ ok h4
    have hg : l0.glyphIndex = index := by rw [h3]; rfl
    have hn : l0.numberOfGlyphs = (lineLayoutAt impl p index).numberOfGlyphs := by rw [h3]; rfl
    refine ⟨?_, ?_, ?_, ?_⟩
    · intro l hl
      simp only [List.head?_cons, Option.some.injEq] at hl
      rw [← hl]; exact hg
    · rw [List.chain'_cons']
      refine ⟨fun y hy => ?_, i2⟩
      rw [i1 y hy, hg, hn]
    · intro l hl
      rcases List.mem_cons.mp hl with hl | hl
      · rw [hl, hn]; omega
      · exact i3 l hl
    · intro hok hle
      have hle2 := lineLayoutAt_le impl p index
      rw [max_eq_right hle] at hle2
      have := i4 hok hle2
      simp only [List.map_cons, List.sum_cons]
      rw [hn]
      omega

/-- The lines a call appends are those of `LinesFrom` at glyph 0; the call adds their
heights to the actual size. -/
theorem LayoutText_lines (impl : Impl) (p : LayoutParameters) (glyphPositions : Nat → Vector2)
    (lines : List LineRun) (actualSize : Size) (r : Bool × LayoutOutput)
    (h : LayoutText impl p glyphPositions lines actualSize = some r) :
    ∃ new, r.2.lines = lines ++ new ∧ r.2.lines.drop lines.length = new ∧
      LinesFrom impl p 0 new r.1 ∧
      r.2.actualSize.height =
        new.foldl (fun h l => impl.round (h + impl.round (l.ascender + -l.descender)))
          actualSize.height := by
  obtain ⟨new, h1, h2, h3⟩ := LayoutText_loop_lines impl p _ _ _ _ r h
  exact ⟨new, h1, by rw [h1]; simp, h2, h3⟩

/-- A call of `LayoutText` returns its flag together with `layoutOutput`. -/
theorem LayoutText_eq_of_flag (impl : Impl) (p : LayoutParameters)
    (glyphPositions : Nat → Vector2) (lines : List LineRun) (actualSize : Size) (b : Bool)
    (h : (LayoutText impl p glyphPositions lines actualSize).map Prod.fst = some b) :
    LayoutText impl p glyphPositions lines actualSize =
      some (b, layoutOutput impl p glyphPositions lines actualSize) := by
  obtain ⟨r, hr⟩ := LayoutText_returns impl p glyphPositions lines actualSize
  unfold layoutOutput
  rw [hr] at h ⊢
  simp only [Option.map_some', Option.some.injEq] at h
  simp only [Option.getD_some, Option.some.injEq]
  exact Prod.ext h rfl

/-! ## Coverage, word atomicity and the single-line mode -/

/-- C1: a successful `LayoutText` that starts with an empty line table emits lines that
start at glyph 0, follow one another (each `glyphIndex` is the previous `glyphIndex` plus
`numberOfGlyphs`), hold at least one glyph each and whose `numberOfGlyphs` add up to
`totalNumberOfGlyphs`. -/
theorem LayoutText_coverage (impl : Impl) (p : LayoutParameters)
    (glyphPositions : Nat → Vector2) (actualSize : Size) (out : LayoutOutput)
    (h : LayoutText impl p glyphPositions [] actualSize = some (true, out)) :
    (∀ l, out.lines.head? = some l → l.glyphIndex = 0) ∧
      List.Chain' (fun a b : LineRun => b.glyphIndex = a.glyphIndex + a.numberOfGlyphs)
        out.lines ∧
      (∀ l ∈ out.lines, 1 ≤ l.numberOfGlyphs) ∧
      (out.lines.map (fun l => l.numberOfGlyphs)).sum = p.totalNumberOfGlyphs := by
  obtain ⟨new, h1, _, h2, _⟩ := LayoutText_lines impl p _ _ _ _ h
  simp only [List.nil_append] at h1
  rw [h1]
  obtain ⟨c1, c2, c3, c4⟩ := LinesFrom_coverage impl p new 0 true h2
  refine ⟨c1, c2, c3, ?_⟩
  have := c4 rfl (Nat.zero_le _)
  omega

theorem LayoutText_coverage_witness :
    LayoutText (sampleImpl MULTI_LINE_BOX HORIZONTAL_ALIGN_BEGIN) (helloParameters 50)
        zeroPositions [] { width := 0, height := 0 } =
      some (true, layoutOutput (sampleImpl MULTI_LINE_BOX HORIZONTAL_ALIGN_BEGIN)
        (helloParameters 50) zeroPositions [] { width := 0, height := 0 }) ∧
    ((layoutOutput (sampleImpl MULTI_LINE_BOX HORIZONTAL_ALIGN_BEGIN) (helloParameters 50)
        zeroPositions [] { width := 0, height := 0 }).lines.map
          (fun l => l.numberOfGlyphs)).sum = 15 :=
  have h := LayoutText_eq_of_flag (sampleImpl MULTI_LINE_BOX HORIZONTAL_ALIGN_BEGIN)
    (helloParameters 50) zeroPositions [] { width := 0, height := 0 } true (by decide!)
  ⟨h, (LayoutText_coverage _ _ _ _ _ h).2.2.2⟩

/-- C4: every line `LayoutText` emits, in `MULTI_LINE_BOX` mode in particular, ends at a
glyph whose last character is classified `WORD_BREAK` or `LINE_MUST_BREAK`, so no line
boundary falls inside a word. -/
theorem LayoutText_word_atomic (impl : Impl) (p : LayoutParameters)
    (glyphPositions : Nat → Vector2) (lines : List LineRun) (actualSize : Size)
    (ok : Bool) (out : LayoutOutput)
    (h : LayoutText impl p glyphPositions lines actualSize = some (ok, out)) :
    ∀ l ∈ out.lines.drop lines.length,
      isWordBreak p (l.glyphIndex + l.numberOfGlyphs - 1) ∨
        isMustBreak p (l.glyphIndex + l.numberOfGlyphs - 1) := by
  obtain ⟨new, _, h1, h2, _⟩ := LayoutText_lines impl p _ _ _ _ h
  simp only at h1 h2
  rw [h1]
  intro l hl
  obtain ⟨s, _, _, hn, hl2⟩ := LinesFrom_mem impl p new 0 ok h2 l hl
  obtain ⟨e, he1, _, he3, he4⟩ := lineLayoutAt_end impl p s hn
  have hlast : l.glyphIndex + l.numberOfGlyphs - 1 = e := by
    rw [hl2]
    show s + (lineLayoutAt impl p s).numberOfGlyphs - 1 = e
    omega
  rw [hlast]
  rcases he4 with h | h
  · exact Or.inr h.2
  · exact Or.inl h.2

theorem LayoutText_word_atomic_witness :
    (sampleImpl MULTI_LINE_BOX HORIZONTAL_ALIGN_BEGIN).mLayout = MULTI_LINE_BOX ∧
    LayoutText (sampleImpl MULTI_LINE_BOX HORIZONTAL_ALIGN_BEGIN) (helloParameters 50)
        zeroPositions [] { width := 0, height := 0 } =
      some (true, layoutOutput (sampleImpl MULTI_LINE_BOX HORIZONTAL_ALIGN_BEGIN)
        (helloParameters 50) zeroPositions [] { width := 0, height := 0 }) ∧
    ∀ l ∈ ((layoutOutput (sampleImpl MULTI_LINE_BOX HORIZONTAL_ALIGN_BEGIN)
        (helloParameters 50) zeroPositions [] { width := 0, height := 0 }).lines.drop
          ([] : List LineRun).length),
      isWordBreak (helloParameters 50) (l.glyphIndex + l.numberOfGlyphs - 1) ∨
        isMustBreak (helloParameters 50) (l.glyphIndex + l.numberOfGlyphs - 1) :=
  have h := LayoutText_eq_of_flag (sampleImpl MULTI_LINE_BOX HORIZONTAL_ALIGN_BEGIN)
    (helloParameters 50) zeroPositions [] { width := 0, height := 0 } true (by decide!)
  ⟨rfl, h, LayoutText_word_atomic _ _ _ _ _ _ _ h⟩

/-- C7: in `SINGLE_LINE_BOX` mode, for a text with at least one glyph and any box width, a
successful `LayoutText` that starts with an empty line table emits exactly one line, with
`glyphIndex` 0 and `numberOfGlyphs = totalNumberOfGlyphs`, wherever `LINE_MUST_BREAK`
characters occur. -/
theorem LayoutText_single_line (impl : Impl) (p : LayoutParameters)
    (glyphPositions : Nat → Vector2) (actualSize : Size) (out : LayoutOutput)
    (hs : impl.mLayout = SINGLE_LINE_BOX) (hn : 0 < p.totalNumberOfGlyphs)
    (h : LayoutText impl p glyphPositions [] actualSize = some (true, out)) :
    ∃ l, out.lines = [l] ∧ l.glyphIndex = 0 ∧ l.numberOfGlyphs = p.totalNumberOfGlyphs := by
  obtain ⟨new, h1, _, h2, _⟩ := LayoutText_lines impl p _ _ _ _ h
  simp only [List.nil_append] at h1 h2
  rw [h1]
  cases new with
  | nil =>
    simp only [LinesFrom] at h2
    rw [if_pos hn] at h2
    simp at h2
  | cons l rest =>
    simp only [LinesFrom] at h2
    obtain ⟨_, a, b, c⟩ := h2
    obtain ⟨e, _, he2, he3, he4⟩ := lineLayoutAt_end impl p 0 a
    have hne : impl.mLayout ≠ MULTI_LINE_BOX := by rw [hs]; decide
    have hlast : e = p.totalNumberOfGlyphs - 1 := by
      rcases he4 with h | h
      · rcases h.1 with h | h
        · exact absurd h hne
        · exact h
      · exact absurd h.1 hne
    have hcount : (lineLayoutAt impl p 0).numberOfGlyphs = p.totalNumberOfGlyphs := by omega
    rw [hcount] at c
    cases rest with
    | nil => exact ⟨l, rfl, by rw [b]; rfl, by rw [b]; exact hcount⟩
    | cons l2 rest2 =>
      simp only [LinesFrom] at c
      omega

theorem LayoutText_single_line_witness :
    (sampleImpl SINGLE_LINE_BOX HORIZONTAL_ALIGN_BEGIN).mLayout = SINGLE_LINE_BOX ∧
    0 < (helloParameters 0).totalNumberOfGlyphs ∧
    LayoutText (sampleImpl SINGLE_LINE_BOX HORIZONTAL_ALIGN_BEGIN) (helloParameters 0)
        zeroPositions [] { width := 0, height := 0 } =
      some (true, layoutOutput (sampleImpl SINGLE_LINE_BOX HORIZONTAL_ALIGN_BEGIN)
        (helloParameters 0) zeroPositions [] { width := 0, height := 0 }) ∧
    ∃ l, (layoutOutput (sampleImpl SINGLE_LINE_BOX HORIZONTAL_ALIGN_BEGIN)
        (helloParameters 0) zeroPositions [] { width := 0, height := 0 }).lines = [l] ∧
      l.glyphIndex = 0 ∧ l.numberOfGlyphs = (helloParameters 0).totalNumberOfGlyphs :=
  have h := LayoutText_eq_of_flag (sampleImpl SINGLE_LINE_BOX HORIZONTAL_ALIGN_BEGIN)
    (helloParameters 0) zeroPositions [] { width := 0, height := 0 } true (by decide!)
  ⟨rfl, by decide, h, LayoutText_single_line _ _ _ _ _ rfl (by decide) h⟩

/-! ## The box width -/

/-- C5, counterexample: a text of one glyph of advance 10 and width 8 is laid out with
success in `SINGLE_LINE_BOX` mode in a box of width 0, and in `MULTI_LINE_BOX` mode in a
box of width 9, narrower than the advance. -/
theorem LayoutText_single_glyph_narrow_box_succeeds :
    (LayoutText (sampleImpl SINGLE_LINE_BOX HORIZONTAL_ALIGN_BEGIN)
        (sampleParameters 0 [97] [0] [0]) zeroPositions [] { width := 0, height := 0 }).map
          Prod.fst = some true ∧
    (sampleParameters 9 [97] [0] [0]).boundingBox.width <
        ((sampleParameters 9 [97] [0] [0]).glyphsBuffer 0).advance ∧
    (LayoutText (sampleImpl MULTI_LINE_BOX HORIZONTAL_ALIGN_BEGIN)
        (sampleParameters 9 [97] [0] [0]) zeroPositions [] { width := 0, height := 0 }).map
          Prod.fst = some true := by
  refine ⟨by decide!, by decide!, by decide!⟩

/-- C5, amended: in `MULTI_LINE_BOX` mode, for a text of a single glyph, `LayoutText`
returns false, and leaves its arguments as they are, when the box is narrower than the
extent the overflow test computes for the glyph; for a glyph that is not a white space
that extent is `advance + (width - advance)` in the arithmetic of the engine, which is the
width of the glyph when the metrics are read as exact numbers. -/
theorem LayoutText_single_glyph_too_wide (impl : Impl) (p : LayoutParameters)
    (glyphPositions : Nat → Vector2) (lines : List LineRun) (actualSize : Size)
    (hm : impl.mLayout = MULTI_LINE_BOX) (hone : p.totalNumberOfGlyphs = 1)
    (hbox : p.boundingBox.width < pendingExtent impl p 0 0) :
    LayoutText impl p glyphPositions lines actualSize =
        some (false,
          { glyphPositions := glyphPositions, lines := lines, actualSize := actualSize }) ∧
      (impl.IsWhiteSpace (p.textBuffer (p.glyphsToCharactersBuffer 0)) = false →
        pendingExtent impl p 0 0 =
          impl.round (impl.round (impl.round (0 +
              impl.round (0 + impl.round (0 + (p.glyphsBuffer 0).advance))) +
            impl.round ((p.glyphsBuffer 0).width - (p.glyphsBuffer 0).advance)) + 0) ∧
        ((∀ x, impl.round x = x) → pendingExtent impl p 0 0 = (p.glyphsBuffer 0).width)) := by
  have hzero : (lineLayoutAt impl p 0).numberOfGlyphs = 0 :=
    lineLayoutAt_oversize impl p hm 0 0 (le_refl 0) (by omega) (fun j h1 h2 => by omega) hbox
  refine ⟨?_, fun hws => ?_⟩
  · unfold LayoutText
    rw [hone, LayoutText_loop_succ, if_pos (by omega), if_pos hzero.symm]
  · have hext : pendingExtent impl p 0 0 =
        impl.round (impl.round (impl.round (0 +
            impl.round (0 + impl.round (0 + (p.glyphsBuffer 0).advance))) +
          impl.round ((p.glyphsBuffer 0).width - (p.glyphsBuffer 0).advance)) + 0) := by
      simp only [pendingExtent, accumulateGlyphs, accumulateGlyph, overflowExtent, hws,
        LineLayout.Clear]
      simp
    refine ⟨hext, fun hexact => ?_⟩
    rw [hext]
    simp only [hexact]
    ring

theorem LayoutText_single_glyph_too_wide_witness :
    (sampleImpl MULTI_LINE_BOX HORIZONTAL_ALIGN_BEGIN).mLayout = MULTI_LINE_BOX ∧
    (sampleParameters 7 [97] [0] [0]).totalNumberOfGlyphs = 1 ∧
    (sampleParameters 7 [97] [0] [0]).boundingBox.width <
      ((sampleParameters 7 [97] [0] [0]).glyphsBuffer 0).width ∧
    (sampleParameters 7 [97] [0] [0]).boundingBox.width <
      pendingExtent (sampleImpl MULTI_LINE_BOX HORIZONTAL_ALIGN_BEGIN)
        (sampleParameters 7 [97] [0] [0]) 0 0 ∧
    LayoutText (sampleImpl MULTI_LINE_BOX HORIZONTAL_ALIGN_BEGIN)
        (sampleParameters 7 [97] [0] [0]) zeroPositions [] { width := 0, height := 0 } =
      some (false,
        { glyphPositions := zeroPositions, lines := [], actualSize := { width := 0, height := 0 } }) :=
  ⟨rfl, rfl, by decide!, by decide!,
    (LayoutText_single_glyph_too_wide (sampleImpl MULTI_LINE_BOX HORIZONTAL_ALIGN_BEGIN)
      (sampleParameters 7 [97] [0] [0]) zeroPositions [] { width := 0, height := 0 }
      rfl rfl (by decide!)).1⟩

/-- When a line has to start at a glyph `s` at which the line layout has no glyphs, the
flag is false and every appended line ends at or before `s`. -/
theorem LinesFrom_stops (impl : Impl) (p : LayoutParameters) (s : Nat)
    (hs : s < p.totalNumberOfGlyphs) (hzero : (lineLayoutAt impl p s).numberOfGlyphs = 0) :
    ∀ (new : List LineRun) (index : Nat) (ok : Bool), LinesFrom impl p index new ok →
      (s = index ∨ ∃ l ∈ new, l.glyphIndex + l.numberOfGlyphs = s) →
      ok = false ∧ ∀ l ∈ new, l.glyphIndex + l.numberOfGlyphs ≤ s := by
  intro new
  induction new with
  | nil =>
    intro index ok h hstart
    rcases hstart with hstart | ⟨l, hl, _⟩
    · subst hstart
      simp only [LinesFrom] at h
      rw [if_pos hs] at h
      exact ⟨h.2, by simp⟩
    · simp at hl
  | cons l0 rest ih =>
    intro index ok h hstart
    simp only [LinesFrom] at h
    obtain ⟨h1, h2, h3, h4⟩ := h
    have hend : l0.glyphIndex + l0.numberOfGlyphs =
        index + (lineLayoutAt impl p index).numberOfGlyphs := by rw [h3]; rfl
    have hrest : s = index + (lineLayoutAt impl p index).numberOfGlyphs ∨
        ∃ l ∈ rest, l.glyphIndex + l.numberOfGlyphs = s := by
      rcases hstart with hstart | ⟨l, hl, hls⟩
      · subst hstart; exact absurd hzero h2
      · rcases List.mem_cons.mp hl with hl | hl
        · left; rw [← hls, hl, hend]
        · right; exact ⟨l, hl, hls⟩
    obtain ⟨i1, i2⟩ := ih _ ok h4 hrest
    refine ⟨i1, fun l hl => ?_⟩
    rcases List.mem_cons.mp hl with hl | hl
    · rw [hl, hend]
      rcases hrest with hrest | ⟨l1, hl1, hls1⟩
      · omega
      · obtain ⟨s1, a, _, _, d⟩ := LinesFrom_mem impl p rest _ ok h4 l1 hl1
        have : l1.glyphIndex = s1 := by rw [d]; rfl
        omega
    · exact i2 l hl

/-- C6, counterexample: in `MULTI_LINE_BOX` mode with a box of width 25 and glyphs of
advance 10, the text "a bbb" gets the line "a " and then `LayoutText` returns false: the
word "bbb", wider than the box, is on no line. -/
theorem LayoutText_oversized_word_not_placed :
    (sampleImpl MULTI_LINE_BOX HORIZONTAL_ALIGN_BEGIN).mLayout = MULTI_LINE_BOX ∧
    LayoutText (sampleImpl MULTI_LINE_BOX HORIZONTAL_ALIGN_BEGIN)
        (sampleParameters 25 [97, 32, 98, 98, 98] [2, 1, 2, 2, 0] [0, 0, 1, 1, 0])
        zeroPositions [] { width := 0, height := 0 } =
      some (false, layoutOutput (sampleImpl MULTI_LINE_BOX HORIZONTAL_ALIGN_BEGIN)
        (sampleParameters 25 [97, 32, 98, 98, 98] [2, 1, 2, 2, 0] [0, 0, 1, 1, 0])
        zeroPositions [] { width := 0, height := 0 }) ∧
    (layoutOutput (sampleImpl MULTI_LINE_BOX HORIZONTAL_ALIGN_BEGIN)
        (sampleParameters 25 [97, 32, 98, 98, 98] [2, 1, 2, 2, 0] [0, 0, 1, 1, 0])
        zeroPositions [] { width := 0, height := 0 }).lines.map
          (fun l => (l.glyphIndex, l.numberOfGlyphs)) = [(0, 2)] :=
  ⟨rfl, LayoutText_eq_of_flag _ _ _ _ _ _ (by decide!), by decide!⟩

/-- C6, amended: in `MULTI_LINE_BOX` mode, when a line has to start at glyph `s` (the first
glyph, or the glyph after an emitted line) and the glyphs `s .. g`, with no `WORD_BREAK` or
`LINE_MUST_BREAK` glyph among `s .. g - 1`, exceed the box at `g`, then `LayoutText`
returns false after the lines of the preceding words; no emitted line holds glyph `s`. -/
theorem LayoutText_oversized_word_fails (impl : Impl) (p : LayoutParameters)
    (glyphPositions : Nat → Vector2) (lines : List LineRun) (actualSize : Size)
    (s g : Nat) (hm : impl.mLayout = MULTI_LINE_BOX) (hsg : s ≤ g)
    (hg : g < p.totalNumberOfGlyphs)
    (hword : ∀ j, s ≤ j → j < g → ¬ isMustBreak p j ∧ ¬ isWordBreak p j)
    (hwide : pendingExtent impl p s g > p.boundingBox.width)
    (hstart : s = 0 ∨
      ∃ l ∈ (layoutOutput impl p glyphPositions lines actualSize).lines.drop lines.length,
        l.glyphIndex + l.numberOfGlyphs = s) :
    LayoutText impl p glyphPositions lines actualSize =
        some (false, layoutOutput impl p glyphPositions lines actualSize) ∧
      ∀ l ∈ (layoutOutput impl p glyphPositions lines actualSize).lines.drop lines.length,
        l.glyphIndex + l.numberOfGlyphs ≤ s := by
  obtain ⟨r, hr⟩ := LayoutText_returns impl p glyphPositions lines actualSize
  have hout : layoutOutput impl p glyphPositions lines actualSize = r.2 := by
    unfold layoutOutput; rw [hr]; rfl
  rw [hout] at hstart ⊢
  obtain ⟨new, _, h1, h2, _⟩ := LayoutText_lines impl p _ _ _ _ hr
  rw [h1] at hstart ⊢
  have hzero := lineLayoutAt_oversize impl p hm s g hsg hg hword hwide
  obtain ⟨f1, f2⟩ := LinesFrom_stops impl p s (by omega) hzero new 0 r.1 h2 hstart
  refine ⟨?_, f2⟩
  rw [hr, ← f1]

theorem LayoutText_oversized_word_fails_witness :
    LayoutText (sampleImpl MULTI_LINE_BOX HORIZONTAL_ALIGN_BEGIN)
        (sampleParameters 25 [97, 32, 98, 98, 98] [2, 1, 2, 2, 0] [0, 0, 1, 1, 0])
        zeroPositions [] { width := 0, height := 0 } =
      some (false, layoutOutput (sampleImpl MULTI_LINE_BOX HORIZONTAL_ALIGN_BEGIN)
        (sampleParameters 25 [97, 32, 98, 98, 98] [2, 1, 2, 2, 0] [0, 0, 1, 1, 0])
        zeroPositions [] { width := 0, height := 0 }) ∧
    ∀ l ∈ (layoutOutput (sampleImpl MULTI_LINE_BOX HORIZONTAL_ALIGN_BEGIN)
        (sampleParameters 25 [97, 32, 98, 98, 98] [2, 1, 2, 2, 0] [0, 0, 1, 1, 0])
        zeroPositions [] { width := 0, height := 0 }).lines.drop ([] : List LineRun).length,
      l.glyphIndex + l.numberOfGlyphs ≤ 2 :=
  LayoutText_oversized_word_fails (sampleImpl MULTI_LINE_BOX HORIZONTAL_ALIGN_BEGIN)
    (sampleParameters 25 [97, 32, 98, 98, 98] [2, 1, 2, 2, 0] [0, 0, 1, 1, 0])
    zeroPositions [] { width := 0, height := 0 } 2 4 rfl (by decide) (by decide)
    (by decide!) (by decide!) (Or.inr (by decide!))

/-! ## Mandatory breaks -/

/-- In multi-line mode a line on which the overflow test does not fire ends at the first
`LINE_MUST_BREAK` glyph at or after its start. -/
theorem lineLayoutAt_first_must_break (impl : Impl) (p : LayoutParameters)
    (hm : impl.mLayout = MULTI_LINE_BOX) (s m : Nat)
    (hov : overflowFiresAt impl p s = false) (hsm : s ≤ m) (hmt : m < p.totalNumberOfGlyphs)
    (hmb : isMustBreak p m) (hfirst : ∀ j, s ≤ j → j < m → ¬ isMustBreak p j) :
    (lineLayoutAt impl p s).numberOfGlyphs = m - s + 1 := by
  obtain ⟨x1, x2⟩ := GetLineLayoutForBox_loop_exit impl p hm (p.totalNumberOfGlyphs - s) s
    { LineLayout.Clear with glyphIndex := s } LineLayout.Clear 0
  rw [← lineExitAt_eq, ← lineLayoutAt_eq] at x1
  rw [← lineExitAt_eq] at x2
  unfold overflowFiresAt at hov
  cases hexit : lineExitAt impl p s with
  | wordDoesNotFit g => rw [hexit] at hov; simp at hov
  | mustBreak e =>
    obtain ⟨a, b, c, d, f⟩ := x1 e hexit
    have hem : e = m := by
      rcases Nat.lt_trichotomy e m with h | h | h
      · exact absurd c (hfirst e a h)
      · exact h
      · exact absurd hmb (d m hsm h)
    rw [f, hem]
    show 0 + 0 + (m - s + 1) = m - s + 1
    omega
  | endOfGlyphs => exact absurd hmb (x2 hexit m hsm (by omega))

theorem isHelloText_isMustBreak (p : LayoutParameters) (hp : isHelloText p) (g : Nat)
    (hg : g < 15) : isMustBreak p g ↔ 0 = helloLineBreakInfo.getD g 2 := by
  obtain ⟨a, b, c, _⟩ := hp.2 g hg
  unfold isMustBreak characterLastIndex
  simp only [a, b, wrap32]
  rw [show (g + if 1 > 1 then 0 else 1 - 1) % 2 ^ 32 = g by simp; omega, c]
  rfl

/-- C3, counterexample: in `MULTI_LINE_BOX` mode with a box of width 1000 (the overflow
test does not fire) the one glyph text whose character is `WORD_BREAK` and `LINE_NO_BREAK`
is laid out on a line that does not end at a `LINE_MUST_BREAK` glyph. -/
theorem LayoutText_line_without_mandatory_break :
    (sampleImpl MULTI_LINE_BOX HORIZONTAL_ALIGN_BEGIN).mLayout = MULTI_LINE_BOX ∧
    LayoutText (sampleImpl MULTI_LINE_BOX HORIZONTAL_ALIGN_BEGIN)
        (sampleParameters 1000 [97] [2] [0]) zeroPositions [] { width := 0, height := 0 } =
      some (true, layoutOutput (sampleImpl MULTI_LINE_BOX HORIZONTAL_ALIGN_BEGIN)
        (sampleParameters 1000 [97] [2] [0]) zeroPositions [] { width := 0, height := 0 }) ∧
    (∀ l ∈ (layoutOutput (sampleImpl MULTI_LINE_BOX HORIZONTAL_ALIGN_BEGIN)
        (sampleParameters 1000 [97] [2] [0]) zeroPositions [] { width := 0, height := 0 }).lines,
      overflowFiresAt (sampleImpl MULTI_LINE_BOX HORIZONTAL_ALIGN_BEGIN)
        (sampleParameters 1000 [97] [2] [0]) l.glyphIndex = false) ∧
    ∃ l ∈ (layoutOutput (sampleImpl MULTI_LINE_BOX HORIZONTAL_ALIGN_BEGIN)
        (sampleParameters 1000 [97] [2] [0]) zeroPositions [] { width := 0, height := 0 }).lines,
      ¬ isMustBreak (sampleParameters 1000 [97] [2] [0]) (l.glyphIndex + l.numberOfGlyphs - 1) :=
  ⟨rfl, LayoutText_eq_of_flag _ _ _ _ _ _ (by decide!), by decide!, by decide!⟩

/-- C3, amended: in `MULTI_LINE_BOX` mode every line `LayoutText` emits on which the
overflow test does not fire ends exactly at the first `LINE_MUST_BREAK` glyph at or after
its start, whenever there is such a glyph. For "Hello big\nworld" (one glyph per
character, line break info `2222212220 22220`) in a box in which the overflow test does
not fire, `LayoutText` succeeds with exactly 2 lines, the glyphs 0 to 9 and 10 to 14. -/
theorem LayoutText_mandatory_breaks (impl : Impl) (p : LayoutParameters)
    (glyphPositions : Nat → Vector2) (lines : List LineRun) (actualSize : Size)
    (ok : Bool) (out : LayoutOutput) (hm : impl.mLayout = MULTI_LINE_BOX)
    (h : LayoutText impl p glyphPositions lines actualSize = some (ok, out)) :
    (∀ l ∈ out.lines.drop lines.length, overflowFiresAt impl p l.glyphIndex = false →
      ∀ m, l.glyphIndex ≤ m → m < p.totalNumberOfGlyphs → isMustBreak p m →
        (∀ j, l.glyphIndex ≤ j → j < m → ¬ isMustBreak p j) →
        l.glyphIndex + l.numberOfGlyphs - 1 = m) ∧
    (isHelloText p → overflowFiresAt impl p 0 = false → overflowFiresAt impl p 10 = false →
      ok = true ∧
        (out.lines.drop lines.length).map (fun l => (l.glyphIndex, l.numberOfGlyphs)) =
          [(0, 10), (10, 5)]) := by
  obtain ⟨new, _, h1, h2, _⟩ := LayoutText_lines impl p _ _ _ _ h
  simp only at h1 h2
  rw [h1]
  refine ⟨fun l hl hov m hlm hmt hmb hfirst => ?_, fun hp hov0 hov10 => ?_⟩
  · obtain ⟨s, _, _, _, hl2⟩ := LinesFrom_mem impl p new 0 ok h2 l hl
    have hg : l.glyphIndex = s := by rw [hl2]; rfl
    have hn : l.numberOfGlyphs = (lineLayoutAt impl p s).numberOfGlyphs := by rw [hl2]; rfl
    rw [hg] at hov hlm hfirst
    rw [hg, hn, lineLayoutAt_first_must_break impl p hm s m hov hlm hmt hmb hfirst]
    omega
  · have ht : p.totalNumberOfGlyphs = 15 := hp.1
    have n0 : (lineLayoutAt impl p 0).numberOfGlyphs = 10 := by
      rw [lineLayoutAt_first_must_break impl p hm 0 9 hov0 (by omega) (by omega)
        ((isHelloText_isMustBreak p hp 9 (by omega)).mpr (by decide))
        (fun j _ hj => by
          rw [isHelloText_isMustBreak p hp j (by omega)]
          interval_cases j <;> decide)]
    have n10 : (lineLayoutAt impl p 10).numberOfGlyphs = 5 := by
      rw [lineLayoutAt_first_must_break impl p hm 10 14 hov10 (by omega) (by omega)
        ((isHelloText_isMustBreak p hp 14 (by omega)).mpr (by decide))
        (fun j hj1 hj2 => by
          rw [isHelloText_isMustBreak p hp j (by omega)]
          interval_cases j <;> decide)]
    cases new with
    | nil =>
      simp only [LinesFrom, ht] at h2
      rw [if_pos (by omega)] at h2
      omega
    | cons l rest =>
      simp only [LinesFrom, n0, Nat.zero_add] at h2
      obtain ⟨_, _, hl, h3⟩ := h2
      cases rest with
      | nil =>
        simp only [LinesFrom, ht, n10] at h3
        rw [if_pos (by omega)] at h3
        omega
      | cons l2 rest2 =>
        simp only [LinesFrom, n10, Nat.reduceAdd] at h3
        obtain ⟨_, _, hl2, h4⟩ := h3
        cases rest2 with
        | nil =>
          simp only [LinesFrom, ht] at h4
          rw [if_neg (by omega)] at h4
          refine ⟨h4, ?_⟩
          rw [hl, hl2]
          simp only [List.map_cons, List.map_nil, makeLineRun, n0, n10]
        | cons l3 rest3 =>
          simp only [LinesFrom, ht] at h4
          omega

theorem LayoutText_mandatory_breaks_witness :
    (sampleImpl MULTI_LINE_BOX HORIZONTAL_ALIGN_BEGIN).mLayout = MULTI_LINE_BOX ∧
    LayoutText (sampleImpl MULTI_LINE_BOX HORIZONTAL_ALIGN_BEGIN) (helloParameters 1000)
        zeroPositions [] { width := 0, height := 0 } =
      some (true, layoutOutput (sampleImpl MULTI_LINE_BOX HORIZONTAL_ALIGN_BEGIN)
        (helloParameters 1000) zeroPositions [] { width := 0, height := 0 }) ∧
    ((layoutOutput (sampleImpl MULTI_LINE_BOX HORIZONTAL_ALIGN_BEGIN)
        (helloParameters 1000) zeroPositions [] { width := 0, height := 0 }).lines.drop
          ([] : List LineRun).length).map (fun l => (l.glyphIndex, l.numberOfGlyphs)) =
      [(0, 10), (10, 5)] :=
  have h := LayoutText_eq_of_flag (sampleImpl MULTI_LINE_BOX HORIZONTAL_ALIGN_BEGIN)
    (helloParameters 1000) zeroPositions [] { width := 0, height := 0 } true (by decide!)
  ⟨rfl, h,
    ((LayoutText_mandatory_breaks _ _ _ _ _ _ _ rfl h).2 ⟨rfl, by decide⟩ (by decide!)
      (by decide!)).2⟩

/-! ## Running the layout twice -/

/-- Inside the range of `int`, the conversion to `int` is the floor of a number that is not
negative and the ceiling of a negative one. -/
theorem staticCastInt_eq (q : ℚ) (hrange : -2147483649 < q ∧ q < 2147483648) :
    staticCastInt q = if 0 ≤ q then ⌊q⌋ else ⌈q⌉ := by
  unfold staticCastInt
  rw [if_pos hrange]
  split_ifs with h
  · rw [Rat.floor_def]
    exact Int.tdiv_eq_ediv (Rat.num_nonneg.mpr h) (Int.natCast_nonneg _)
  · have hneg : 0 ≤ -q := by linarith [not_le.mp h]
    have h1 : ⌈q⌉ = -⌊-q⌋ := by rw [Int.floor_neg, neg_neg]
    rw [h1, Rat.floor_def, Rat.neg_num, Rat.neg_den]
    rw [← Int.tdiv_eq_ediv (by simpa using Rat.num_nonneg.mpr hneg) (Int.natCast_nonneg _)]
    rw [Int.neg_tdiv, neg_neg]

/-- C9, counterexample: with CENTER alignment, box width 10 and line width 13 (left to
right) the offset is -1, while `floor(0.5 * (10 - 13))` is -2. -/
theorem CalculateHorizontalAlignment_center_not_floor :
    CalculateHorizontalAlignment (sampleImpl MULTI_LINE_BOX HORIZONTAL_ALIGN_CENTER)
        10 13 0 false = -1 ∧
      ((⌊(1 / 2 : ℚ) * (10 - 13)⌋ : ℤ) : ℚ) = -2 ∧
      CalculateHorizontalAlignment (sampleImpl MULTI_LINE_BOX HORIZONTAL_ALIGN_CENTER)
        10 13 0 false ≠ ((⌊(1 / 2 : ℚ) * (10 - 13)⌋ : ℤ) : ℚ) := by
  refine ⟨by decide!, by decide!, by decide!⟩

/-- C9, amended: with CENTER alignment and a left to right paragraph, when
`0.5 * (boxWidth - lineWidth)`, as the engine computes it, is inside the range of `int`,
`CalculateHorizontalAlignment` returns that value rounded towards zero (its floor when it
is not negative, its ceiling when it is), converted back to `float`. With the metrics read
as exact numbers this is `floor(0.5 * (boxWidth - lineWidth))` when the line is not wider
than the box, for even and odd differences alike, and the ceiling when the line is wider;
`boxWidth = 100`, `lineWidth = 33` gives 33. -/
theorem CalculateHorizontalAlignment_center (impl : Impl)
    (hc : impl.mHorizontalAlignment = HORIZONTAL_ALIGN_CENTER)
    (boxWidth lineWidth extraLength : ℚ)
    (hrange : -2147483649 < impl.round ((1 / 2 : ℚ) * impl.round (boxWidth - lineWidth)) ∧
      impl.round ((1 / 2 : ℚ) * impl.round (boxWidth - lineWidth)) < 2147483648) :
    CalculateHorizontalAlignment impl boxWidth lineWidth extraLength false =
        impl.round
          (((if 0 ≤ impl.round ((1 / 2 : ℚ) * impl.round (boxWidth - lineWidth)) then
              ⌊impl.round ((1 / 2 : ℚ) * impl.round (boxWidth - lineWidth))⌋
            else ⌈impl.round ((1 / 2 : ℚ) * impl.round (boxWidth - lineWidth))⌉ : ℤ)) : ℚ) ∧
      ((∀ x, impl.round x = x) →
        CalculateHorizontalAlignment impl boxWidth lineWidth extraLength false =
            (((if lineWidth ≤ boxWidth then ⌊(1 / 2 : ℚ) * (boxWidth - lineWidth)⌋
              else ⌈(1 / 2 : ℚ) * (boxWidth - lineWidth)⌉ : ℤ)) : ℚ) ∧
          CalculateHorizontalAlignment impl 100 33 extraLength false = 33) := by
  have key : ∀ b l : ℚ, CalculateHorizontalAlignment impl b l extraLength false =
      impl.round ((staticCastInt (impl.round ((1 / 2 : ℚ) * impl.round (b - l))) : ℤ) : ℚ) := by
    intro b l
    simp [CalculateHorizontalAlignment, hc]
  refine ⟨?_, fun hexact => ⟨?_, ?_⟩⟩
  · rw [key, staticCastInt_eq _ hrange]
  · rw [key, staticCastInt_eq _ hrange]
    simp only [hexact]
    have hiff : (0 ≤ (1 / 2 : ℚ) * (boxWidth - lineWidth)) ↔ lineWidth ≤ boxWidth := by
      constructor <;> intro h <;> linarith
    simp only [hiff]
  · rw [key]
    simp only [hexact]
    have : staticCastInt ((1 / 2 : ℚ) * (100 - 33)) = 33 := by decide!
    rw [this]
    norm_num

theorem CalculateHorizontalAlignment_center_witness :
    (sampleImpl MULTI_LINE_BOX HORIZONTAL_ALIGN_CENTER).mHorizontalAlignment =
        HORIZONTAL_ALIGN_CENTER ∧
      CalculateHorizontalAlignment (sampleImpl MULTI_LINE_BOX HORIZONTAL_ALIGN_CENTER)
        100 33 0 false = 33 :=
  ⟨rfl, ((CalculateHorizontalAlignment_center (sampleImpl MULTI_LINE_BOX HORIZONTAL_ALIGN_CENTER)
    rfl 100 33 0 (by decide!)).2 (fun _ => rfl)).2⟩

/-- C10, counterexample: with BEGIN alignment and a right to left paragraph, box width 100
and line width 30 give the offset 70. -/
theorem CalculateHorizontalAlignment_begin_rtl :
    CalculateHorizontalAlignment (sampleImpl MULTI_LINE_BOX HORIZONTAL_ALIGN_BEGIN)
        100 30 0 true = 70 ∧
      CalculateHorizontalAlignment (sampleImpl MULTI_LINE_BOX HORIZONTAL_ALIGN_BEGIN)
        100 30 0 true ≠ 0 := by
  refine ⟨by decide!, by decide!⟩

/-- C10, amended: when the configured horizontal alignment is BEGIN and the paragraph is
left to right, `CalculateHorizontalAlignment` returns 0 for every box width, line width
and trailing white space length. -/
theorem CalculateHorizontalAlignment_begin (impl : Impl)
    (hb : impl.mHorizontalAlignment = HORIZONTAL_ALIGN_BEGIN)
    (boxWidth lineWidth extraLength : ℚ) :
    CalculateHorizontalAlignment impl boxWidth lineWidth extraLength false = 0 := by
  simp [CalculateHorizontalAlignment, hb]

theorem CalculateHorizontalAlignment_begin_witness :
    (sampleImpl MULTI_LINE_BOX HORIZONTAL_ALIGN_BEGIN).mHorizontalAlignment =
        HORIZONTAL_ALIGN_BEGIN ∧
      CalculateHorizontalAlignment (sampleImpl MULTI_LINE_BOX HORIZONTAL_ALIGN_BEGIN)
        100 30 5 false = 0 :=
  ⟨rfl, CalculateHorizontalAlignment_begin _ rfl 100 30 5⟩

/-- C11: for a right to left paragraph the offset under BEGIN is `(boxWidth - lineWidth) -
extraLength`, under END it is `0 - extraLength`, and under CENTER it is the left to right
CENTER offset minus `extraLength`: BEGIN and END are swapped, CENTER is not, and the
trailing white space length is subtracted. The differences are those the engine computes;
with the metrics read as exact numbers they are the exact differences. -/
theorem CalculateHorizontalAlignment_right_to_left (impl : Impl)
    (boxWidth lineWidth extraLength : ℚ) :
    (CalculateHorizontalAlignment { impl with mHorizontalAlignment := HORIZONTAL_ALIGN_BEGIN }
          boxWidth lineWidth extraLength true =
        impl.round (impl.round (boxWidth - lineWidth) - extraLength) ∧
      CalculateHorizontalAlignment { impl with mHorizontalAlignment := HORIZONTAL_ALIGN_END }
          boxWidth lineWidth extraLength true = impl.round (0 - extraLength) ∧
      CalculateHorizontalAlignment { impl with mHorizontalAlignment := HORIZONTAL_ALIGN_CENTER }
          boxWidth lineWidth extraLength true =
        impl.round (CalculateHorizontalAlignment
          { impl with mHorizontalAlignment := HORIZONTAL_ALIGN_CENTER }
          boxWidth lineWidth extraLength false - extraLength)) ∧
    ((∀ x, impl.round x = x) →
      CalculateHorizontalAlignment { impl with mHorizontalAlignment := HORIZONTAL_ALIGN_BEGIN }
          boxWidth lineWidth extraLength true = (boxWidth - lineWidth) - extraLength ∧
        CalculateHorizontalAlignment { impl with mHorizontalAlignment := HORIZONTAL_ALIGN_END }
          boxWidth lineWidth extraLength true = 0 - extraLength ∧
        CalculateHorizontalAlignment
            { impl with mHorizontalAlignment := HORIZONTAL_ALIGN_CENTER }
            boxWidth lineWidth extraLength true =
          CalculateHorizontalAlignment
            { impl with mHorizontalAlignment := HORIZONTAL_ALIGN_CENTER }
            boxWidth lineWidth extraLength false - extraLength) := by
  have h : CalculateHorizontalAlignment
        { impl with mHorizontalAlignment := HORIZONTAL_ALIGN_BEGIN }
          boxWidth lineWidth extraLength true =
        impl.round (impl.round (boxWidth - lineWidth) - extraLength) ∧
      CalculateHorizontalAlignment { impl with mHorizontalAlignment := HORIZONTAL_ALIGN_END }
          boxWidth lineWidth extraLength true = impl.round (0 - extraLength) ∧
      CalculateHorizontalAlignment { impl with mHorizontalAlignment := HORIZONTAL_ALIGN_CENTER }
          boxWidth lineWidth extraLength true =
        impl.round (CalculateHorizontalAlignment
          { impl with mHorizontalAlignment := HORIZONTAL_ALIGN_CENTER }
          boxWidth lineWidth extraLength false - extraLength) := by
    refine ⟨?_, ?_, ?_⟩ <;> simp [CalculateHorizontalAlignment]
  refine ⟨h, fun hexact => ?_⟩
  obtain ⟨h1, h2, h3⟩ := h
  rw [h1, h2, h3]
  simp only [hexact]
  exact ⟨trivial, trivial, trivial⟩

theorem CalculateHorizontalAlignment_right_to_left_witness :
    (∀ x, (sampleImpl MULTI_LINE_BOX HORIZONTAL_ALIGN_BEGIN).round x = x) ∧
      CalculateHorizontalAlignment
          { sampleImpl MULTI_LINE_BOX HORIZONTAL_ALIGN_BEGIN with
            mHorizontalAlignment := HORIZONTAL_ALIGN_BEGIN }
          100 33 5 true = (100 - 33) - 5 ∧
        CalculateHorizontalAlignment
          { sampleImpl MULTI_LINE_BOX HORIZONTAL_ALIGN_BEGIN with
            mHorizontalAlignment := HORIZONTAL_ALIGN_END }
          100 33 5 true = 0 - 5 ∧
        CalculateHorizontalAlignment
            { sampleImpl MULTI_LINE_BOX HORIZONTAL_ALIGN_BEGIN with
              mHorizontalAlignment := HORIZONTAL_ALIGN_CENTER }
            100 33 5 true =
          CalculateHorizontalAlignment
            { sampleImpl MULTI_LINE_BOX HORIZONTAL_ALIGN_BEGIN with
              mHorizontalAlignment := HORIZONTAL_ALIGN_CENTER }
            100 33 5 false - 5 :=
  ⟨fun _ => rfl,
    (CalculateHorizontalAlignment_right_to_left (sampleImpl MULTI_LINE_BOX HORIZONTAL_ALIGN_BEGIN)
      100 33 5).2 (fun _ => rfl)⟩

/-! ## The aligner -/

theorem ReLayout_glyphs_outside (impl : Impl) (p : LayoutParameters) (visualIndex : Nat) :
    ∀ (count index : Nat) (penX : ℚ) (pos : Nat → Vector2) (g : Nat),
      (∀ j, index ≤ j → j < index + count → p.charactersToGlyphsBuffer visualIndex + j ≠ g) →
      (ReLayoutRightToLeftLines.glyphs impl p visualIndex count index penX pos).2 g = pos g := by
  intro count
  induction count with
  | zero => intro _ _ _ _ _; rfl
  | succ count ih =>
    intro index penX pos g h
    simp only [ReLayoutRightToLeftLines.glyphs]
    rw [ih _ _ _ _ (fun j h1 h2 => h j (by omega) (by omega)),
      Function.update_noteq (fun hg => h index (le_refl _) (by omega) hg.symm)]

theorem ReLayout_glyphs_y (impl : Impl) (p : LayoutParameters) (visualIndex : Nat) :
    ∀ (count index : Nat) (penX : ℚ) (pos : Nat → Vector2) (g : Nat),
      ((ReLayoutRightToLeftLines.glyphs impl p visualIndex count index penX pos).2 g).y =
        (pos g).y := by
  intro count
  induction count with
  | zero => intro _ _ _ _; rfl
  | succ count ih =>
    intro index penX pos g
    simp only [ReLayoutRightToLeftLines.glyphs]
    rw [ih]
    by_cases hg : g = p.charactersToGlyphsBuffer visualIndex + index
    · rw [hg, Function.update_same]
    · rw [Function.update_noteq hg]

theorem ReLayout_characters_outside (impl : Impl) (p : LayoutParameters) (bidiLine : BidirectionalLineInfoRun) :
    ∀ (count k0 : Nat) (penX : ℚ) (pos : Nat → Vector2) (g : Nat),
      (∀ k, k0 ≤ k → k < k0 + count →
        ∀ j, j < p.glyphsPerCharacterBuffer (characterVisualIndex bidiLine k) →
          p.charactersToGlyphsBuffer (characterVisualIndex bidiLine k) + j ≠ g) →
      ReLayoutRightToLeftLines.characters impl p bidiLine count k0 penX pos g = pos g := by
  intro count
  induction count with
  | zero => intro _ _ _ _ _; rfl
  | succ count ih =>
    intro k0 penX pos g h
    simp only [ReLayoutRightToLeftLines.characters]
    rw [ih _ _ _ _ (fun k h1 h2 => h k (by omega) (by omega)),
      ReLayout_glyphs_outside impl p _ _ _ _ _ _
        (fun j _ h2 => h k0 (le_refl _) (by omega) j (by omega))]

theorem ReLayout_characters_y (impl : Impl) (p : LayoutParameters) (bidiLine : BidirectionalLineInfoRun) :
    ∀ (count k0 : Nat) (penX : ℚ) (pos : Nat → Vector2) (g : Nat),
      (ReLayoutRightToLeftLines.characters impl p bidiLine count k0 penX pos g).y = (pos g).y := by
  intro count
  induction count with
  | zero => intro _ _ _ _; rfl
  | succ count ih =>
    intro k0 penX pos g
    simp only [ReLayoutRightToLeftLines.characters]
    rw [ih, ReLayout_glyphs_y]

theorem ReLayout_lines_outside (impl : Impl) (p : LayoutParameters) (buffer : Nat → BidirectionalLineInfoRun) :
    ∀ (count i : Nat) (pos : Nat → Vector2) (g : Nat),
      (∀ r, i ≤ r → r < i + count → ¬ glyphOfBidiLine p (buffer r) g) →
      ReLayoutRightToLeftLines.lines impl p buffer count i pos g = pos g := by
  intro count
  induction count with
  | zero => intro _ _ _ _; rfl
  | succ count ih =>
    intro i pos g h
    simp only [ReLayoutRightToLeftLines.lines]
    rw [ih _ _ _ (fun r h1 h2 => h r (by omega) (by omega))]
    apply ReLayout_characters_outside
    intro k _ hk j hj hg
    exact h i (le_refl _) (by omega) ⟨k, by omega, j, hj, hg⟩

theorem ReLayout_lines_y (impl : Impl) (p : LayoutParameters) (buffer : Nat → BidirectionalLineInfoRun) :
    ∀ (count i : Nat) (pos : Nat → Vector2) (g : Nat),
      (ReLayoutRightToLeftLines.lines impl p buffer count i pos g).y = (pos g).y := by
  intro count
  induction count with
  | zero => intro _ _ _; rfl
  | succ count ih =>
    intro i pos g
    simp only [ReLayoutRightToLeftLines.lines]
    rw [ih, ReLayout_characters_y]

/-- C14: `ReLayoutRightToLeftLines` leaves every y coordinate as it is and leaves the
position of every glyph that belongs to no character of a bidirectional line run as it is;
with zero bidirectional line runs it is the identity on the glyph positions. -/
theorem ReLayoutRightToLeftLines_frame (impl : Impl) (p : LayoutParameters) (glyphPositions : Nat → Vector2) :
    (p.numberOfBidirectionalInfoRuns = 0 →
      ReLayoutRightToLeftLines impl p glyphPositions = some glyphPositions) ∧
    (∀ buffer, p.lineBidirectionalInfoRunsBuffer = some buffer →
      ∃ pos2, ReLayoutRightToLeftLines impl p glyphPositions = some pos2 ∧
        (∀ g, (pos2 g).y = (glyphPositions g).y) ∧
        ∀ g, (∀ r, r < p.numberOfBidirectionalInfoRuns →
            ¬ glyphOfBidiLine p (buffer r) g) →
          pos2 g = glyphPositions g) := by
  refine ⟨fun h0 => ?_, fun buffer hb => ?_⟩
  · unfold ReLayoutRightToLeftLines
    cases hb : p.lineBidirectionalInfoRunsBuffer with
    | none => simp [h0]
    | some buffer => simp [h0, ReLayoutRightToLeftLines.lines]
  · refine ⟨_, by unfold ReLayoutRightToLeftLines; rw [hb], ?_, ?_⟩
    · exact ReLayout_lines_y impl p buffer _ 0 glyphPositions
    · intro g hg
      exact ReLayout_lines_outside impl p buffer _ 0 glyphPositions g
        (fun r _ hr => hg r (by omega))

theorem ReLayout_glyphs_one (impl : Impl) (p : LayoutParameters) (visualIndex : Nat) (penX : ℚ)
    (pos : Nat → Vector2) :
    ReLayoutRightToLeftLines.glyphs impl p visualIndex 1 0 penX pos =
      (impl.round (penX + (p.glyphsBuffer (p.charactersToGlyphsBuffer visualIndex)).advance),
        Function.update pos (p.charactersToGlyphsBuffer visualIndex)
          { pos (p.charactersToGlyphsBuffer visualIndex) with
            x := impl.round
              (penX + (p.glyphsBuffer (p.charactersToGlyphsBuffer visualIndex)).xBearing) }) := by
  simp [ReLayoutRightToLeftLines.glyphs]

theorem penBefore_succ (impl : Impl) (p : LayoutParameters) (bidiLine : BidirectionalLineInfoRun)
    (k : Nat) :
    penBefore impl p bidiLine (k + 1) =
      impl.round (penBefore impl p bidiLine k +
        (p.glyphsBuffer (glyphOfVisual p bidiLine k)).advance) := rfl

/-- With exact arithmetic the pen position at position `k` is the sum of the advances of
the glyphs of the positions before `k`. -/
theorem penBefore_exact (impl : Impl) (hexact : ∀ x, impl.round x = x) (p : LayoutParameters)
    (bidiLine : BidirectionalLineInfoRun) :
    ∀ k, penBefore impl p bidiLine k =
      ((List.range k).map (fun i =>
        (p.glyphsBuffer (glyphOfVisual p bidiLine i)).advance)).sum := by
  intro k
  induction k with
  | zero => rfl
  | succ k ih => rw [penBefore_succ, hexact, ih, List.range_succ]; simp

/-- On a line whose characters have one glyph each, all distinct, the loop over the
characters puts the glyph of position `k` at the pen position of `k`. -/
theorem ReLayout_characters_pen (impl : Impl) (p : LayoutParameters)
    (bidiLine : BidirectionalLineInfoRun) (n : Nat)
    (hone : ∀ k, k < n → p.glyphsPerCharacterBuffer (characterVisualIndex bidiLine k) = 1)
    (hdistinct : ∀ k k2, k < n → k2 < n →
      glyphOfVisual p bidiLine k = glyphOfVisual p bidiLine k2 → k = k2) :
    ∀ (count k0 : Nat) (pos : Nat → Vector2), k0 + count = n →
      ∀ k, k0 ≤ k → k < n →
        (ReLayoutRightToLeftLines.characters impl p bidiLine count k0
          (penBefore impl p bidiLine k0) pos (glyphOfVisual p bidiLine k)).x =
          impl.round (penBefore impl p bidiLine k +
            (p.glyphsBuffer (glyphOfVisual p bidiLine k)).xBearing) := by
  intro count
  induction count with
  | zero => intro k0 pos h k h1 h2; omega
  | succ count ih =>
    intro k0 pos h k h1 h2
    simp only [ReLayoutRightToLeftLines.characters]
    rw [hone k0 (by omega), ReLayout_glyphs_one]
    simp only
    rcases Nat.eq_or_lt_of_le h1 with hk | hk
    · subst hk
      rw [ReLayout_characters_outside impl p bidiLine count (k0 + 1) _ _ _
        (fun k2 hk1 hk2 j hj hg => by
          rw [hone k2 (by omega)] at hj
          have hj0 : j = 0 := by omega
          rw [hj0, Nat.add_zero] at hg
          have := hdistinct k2 k0 (by omega) (by omega) hg
          omega)]
      show (Function.update pos (glyphOfVisual p bidiLine k0) _ (glyphOfVisual p bidiLine k0)).x = _
      rw [Function.update_same]
      rfl
    · have hpen : impl.round (penBefore impl p bidiLine k0 +
          (p.glyphsBuffer (p.charactersToGlyphsBuffer (characterVisualIndex bidiLine k0))).advance) =
          penBefore impl p bidiLine (k0 + 1) := (penBefore_succ impl p bidiLine k0).symm
      rw [hpen]
      exact ih (k0 + 1) _ (by omega) k (by omega) h2

/-- C13: for a bidirectional line run whose characters have one glyph each, a glyph of its
own for every position of the visual to logical map `p`, and whose glyphs no later run
rewrites, after `ReLayoutRightToLeftLines` the glyph of the character `p[k]` has
`x = (sum of the advances of the glyphs of p[0..k-1]) + xBearing`, for every `k`, the sum
being the pen of the loop, to which the advances are added one after the other from 0.
With 5 characters, 5 glyphs and `p = [4,3,2,1,0]` the glyph 4 is at the pen position 0 and
the glyph 0 at the last one, after the advances of the glyphs 4, 3, 2 and 1. With the
metrics read as exact numbers the pen is the exact sum of the advances. -/
theorem ReLayoutRightToLeftLines_reorders (impl : Impl) (p : LayoutParameters)
    (buffer : Nat → BidirectionalLineInfoRun) (glyphPositions : Nat → Vector2) (r : Nat)
    (hbuffer : p.lineBidirectionalInfoRunsBuffer = some buffer)
    (hr : r < p.numberOfBidirectionalInfoRuns)
    (hone : ∀ k, k < (buffer r).characterRun.numberOfCharacters →
      p.glyphsPerCharacterBuffer (characterVisualIndex (buffer r) k) = 1)
    (hdistinct : ∀ k k2, k < (buffer r).characterRun.numberOfCharacters →
      k2 < (buffer r).characterRun.numberOfCharacters →
      glyphOfVisual p (buffer r) k = glyphOfVisual p (buffer r) k2 → k = k2)
    (hlater : ∀ r2, r < r2 → r2 < p.numberOfBidirectionalInfoRuns →
      ∀ k, k < (buffer r).characterRun.numberOfCharacters →
        ¬ glyphOfBidiLine p (buffer r2) (glyphOfVisual p (buffer r) k)) :
    ∃ pos2, ReLayoutRightToLeftLines impl p glyphPositions = some pos2 ∧
      (∀ k, k < (buffer r).characterRun.numberOfCharacters →
        (pos2 (glyphOfVisual p (buffer r) k)).x =
          impl.round (penBefore impl p (buffer r) k +
            (p.glyphsBuffer (glyphOfVisual p (buffer r) k)).xBearing)) ∧
      ((buffer r).characterRun.numberOfCharacters = 5 →
        (buffer r).characterRun.characterIndex = 0 →
        (∀ k, k < 5 → (buffer r).visualToLogicalMap k = 4 - k) →
        (∀ c, c < 5 → p.charactersToGlyphsBuffer c = c) →
        (pos2 4).x = impl.round (0 + (p.glyphsBuffer 4).xBearing) ∧
          (pos2 0).x =
            impl.round (impl.round (impl.round (impl.round (impl.round
              (0 + (p.glyphsBuffer 4).advance) + (p.glyphsBuffer 3).advance) +
              (p.glyphsBuffer 2).advance) + (p.glyphsBuffer 1).advance) +
              (p.glyphsBuffer 0).xBearing)) ∧
      ((∀ x, impl.round x = x) →
        (∀ k, k < (buffer r).characterRun.numberOfCharacters →
          (pos2 (glyphOfVisual p (buffer r) k)).x =
            ((List.range k).map (fun i =>
              (p.glyphsBuffer (glyphOfVisual p (buffer r) i)).advance)).sum +
              (p.glyphsBuffer (glyphOfVisual p (buffer r) k)).xBearing) ∧
        ((buffer r).characterRun.numberOfCharacters = 5 →
          (buffer r).characterRun.characterIndex = 0 →
          (∀ k, k < 5 → (buffer r).visualToLogicalMap k = 4 - k) →
          (∀ c, c < 5 → p.charactersToGlyphsBuffer c = c) →
          (pos2 4).x = 0 + (p.glyphsBuffer 4).xBearing ∧
            (pos2 0).x =
              ((p.glyphsBuffer 4).advance + (p.glyphsBuffer 3).advance +
                (p.glyphsBuffer 2).advance + (p.glyphsBuffer 1).advance) +
                (p.glyphsBuffer 0).xBearing)) := by
  have key : ∀ (count i : Nat) (pos : Nat → Vector2), i ≤ r → r < i + count →
      i + count = p.numberOfBidirectionalInfoRuns →
      ∀ k, k < (buffer r).characterRun.numberOfCharacters →
        (ReLayoutRightToLeftLines.lines impl p buffer count i pos
          (glyphOfVisual p (buffer r) k)).x =
          impl.round (penBefore impl p (buffer r) k +
            (p.glyphsBuffer (glyphOfVisual p (buffer r) k)).xBearing) := by
    intro count
    induction count with
    | zero => intro i pos h1 h2; omega
    | succ count ih =>
      intro i pos h1 h2 h3 k hk
      simp only [ReLayoutRightToLeftLines.lines]
      rcases Nat.eq_or_lt_of_le h1 with hi | hi
      · subst hi
        rw [ReLayout_lines_outside impl p buffer count (i + 1) _ _
          (fun r2 hr1 hr2 => hlater r2 (by omega) (by omega) k hk)]
        exact ReLayout_characters_pen impl p (buffer i) _ hone hdistinct
          (buffer i).characterRun.numberOfCharacters 0 pos (by omega) k (Nat.zero_le _) hk
      · exact ih (i + 1) _ (by omega) (by omega) (by omega) k hk
  have hall := key p.numberOfBidirectionalInfoRuns 0 glyphPositions (Nat.zero_le _)
    (by omega) (by omega)
  have hfive : (buffer r).characterRun.numberOfCharacters = 5 →
      (buffer r).characterRun.characterIndex = 0 →
      (∀ k, k < 5 → (buffer r).visualToLogicalMap k = 4 - k) →
      (∀ c, c < 5 → p.charactersToGlyphsBuffer c = c) →
      (ReLayoutRightToLeftLines.lines impl p buffer p.numberOfBidirectionalInfoRuns 0
          glyphPositions 4).x = impl.round (0 + (p.glyphsBuffer 4).xBearing) ∧
        (ReLayoutRightToLeftLines.lines impl p buffer p.numberOfBidirectionalInfoRuns 0
          glyphPositions 0).x =
          impl.round (impl.round (impl.round (impl.round (impl.round
            (0 + (p.glyphsBuffer 4).advance) + (p.glyphsBuffer 3).advance) +
            (p.glyphsBuffer 2).advance) + (p.glyphsBuffer 1).advance) +
            (p.glyphsBuffer 0).xBearing) := by
    intro h5 hci hmap hglyph
    have hv : ∀ k, k < 5 → glyphOfVisual p (buffer r) k = 4 - k := by
      intro k hk
      unfold glyphOfVisual characterVisualIndex wrap32
      rw [hci, hmap k hk, Nat.zero_add, Nat.mod_eq_of_lt (by omega), hglyph _ (by omega)]
    have e0 := hall 0 (by omega)
    have e4 := hall 4 (by omega)
    have p0 : penBefore impl p (buffer r) 0 = 0 := rfl
    have p4 : penBefore impl p (buffer r) 4 =
        impl.round (impl.round (impl.round (impl.round
          (0 + (p.glyphsBuffer 4).advance) + (p.glyphsBuffer 3).advance) +
          (p.glyphsBuffer 2).advance) + (p.glyphsBuffer 1).advance) := by
      rw [penBefore_succ, penBefore_succ, penBefore_succ, penBefore_succ, p0,
        hv 0 (by omega), hv 1 (by omega), hv 2 (by omega), hv 3 (by omega)]
    rw [hv 0 (by omega), p0] at e0
    rw [hv 4 (by omega), p4] at e4
    exact ⟨e0, e4⟩
  refine ⟨_, by unfold ReLayoutRightToLeftLines; rw [hbuffer], hall, hfive,
    fun hexact => ⟨fun k hk => ?_, fun h5 hci hmap hglyph => ?_⟩⟩
  · rw [hall k hk, hexact, penBefore_exact impl hexact]
  · obtain ⟨e0, e4⟩ := hfive h5 hci hmap hglyph
    rw [e0, e4]
    simp only [hexact]
    exact ⟨trivial, by ring⟩

theorem ReLayoutRightToLeftLines_reorders_witness :
    ∃ pos2, ReLayoutRightToLeftLines (sampleImpl MULTI_LINE_BOX HORIZONTAL_ALIGN_BEGIN)
        reversedParameters zeroPositions = some pos2 ∧
      (pos2 4).x = 0 + (reversedParameters.glyphsBuffer 4).xBearing ∧
      (pos2 0).x =
        ((reversedParameters.glyphsBuffer 4).advance +
          (reversedParameters.glyphsBuffer 3).advance +
          (reversedParameters.glyphsBuffer 2).advance +
          (reversedParameters.glyphsBuffer 1).advance) +
          (reversedParameters.glyphsBuffer 0).xBearing :=
  (ReLayoutRightToLeftLines_reorders (sampleImpl MULTI_LINE_BOX HORIZONTAL_ALIGN_BEGIN)
    reversedParameters (fun _ => reversedLine)
    zeroPositions 0 rfl (by decide) (fun _ _ => rfl)
    (fun k k2 hk hk2 h => by
      change k < 5 at hk
      change k2 < 5 at hk2
      interval_cases k <;> interval_cases k2 <;> first | rfl | exact absurd h (by decide))
    (fun r2 h1 h2 => absurd h2 (by
      show ¬ r2 < 1
      omega))).imp
    (fun _ h => ⟨h.1,
      (h.2.2.2 (fun _ => rfl)).2 rfl rfl (fun _ _ => rfl) (fun _ _ => rfl)⟩)

/-! ## The laid-out width -/

/-- C15, the code at the failing input: for "a\nb" (advances 10, 0 and 11, widths 8, 0 and
9) in a box of width 100, `LayoutText`, started with an actual size of (0, 0), succeeds
with two lines of widths 10 and 11 and leaves 10 as the width of the actual size. -/
theorem LayoutText_actualSize_width_below_line_width :
    LayoutText (sampleImpl MULTI_LINE_BOX HORIZONTAL_ALIGN_BEGIN) twoLineParameters
        zeroPositions [] { width := 0, height := 0 } =
      some (true, layoutOutput (sampleImpl MULTI_LINE_BOX HORIZONTAL_ALIGN_BEGIN)
        twoLineParameters zeroPositions [] { width := 0, height := 0 }) ∧
    (layoutOutput (sampleImpl MULTI_LINE_BOX HORIZONTAL_ALIGN_BEGIN)
        twoLineParameters zeroPositions [] { width := 0, height := 0 }).lines.map
          (fun l => l.width) = [10, 11] ∧
    (layoutOutput (sampleImpl MULTI_LINE_BOX HORIZONTAL_ALIGN_BEGIN)
        twoLineParameters zeroPositions [] { width := 0, height := 0 }).actualSize.width = 10 :=
  ⟨LayoutText_eq_of_flag _ _ _ _ _ _ (by decide!), by decide!, by decide!⟩

/-! ## Line layouts: the enforced bound, the metrics and the reads of the aligner -/

/-- C22, the code at the failing input: the one glyph text "a" (font 1, whose ascender is
10 and descender -2) is laid out on one line whose ascender is 0 and whose descender is
`MAX_FLOAT`, the initial values of a line layout. -/
theorem LayoutText_single_glyph_line_metrics :
    LayoutText (sampleImpl MULTI_LINE_BOX HORIZONTAL_ALIGN_BEGIN)
        (sampleParameters 100 [97] [0] [0]) zeroPositions [] { width := 0, height := 0 } =
      some (true, layoutOutput (sampleImpl MULTI_LINE_BOX HORIZONTAL_ALIGN_BEGIN)
        (sampleParameters 100 [97] [0] [0]) zeroPositions [] { width := 0, height := 0 }) ∧
    (layoutOutput (sampleImpl MULTI_LINE_BOX HORIZONTAL_ALIGN_BEGIN)
        (sampleParameters 100 [97] [0] [0]) zeroPositions []
        { width := 0, height := 0 }).lines.map
          (fun l => (l.glyphIndex, l.numberOfGlyphs, l.ascender, l.descender)) =
      [(0, 1, 0, MAX_FLOAT)] ∧
    (sampleImpl MULTI_LINE_BOX HORIZONTAL_ALIGN_BEGIN).mFontClient
        ((sampleParameters 100 [97] [0] [0]).glyphsBuffer 0).fontId =
      { ascender := 10, descender := -2 } :=
  ⟨LayoutText_eq_of_flag _ _ _ _ _ _ (by decide!), by decide!, by decide!⟩

/-- The last run read for a line is the run the traversal of `Align` stops at. -/
theorem Align_runsRead_getLast (buffer : Nat → BidirectionalLineInfoRun) (n c : Nat) :
    ∀ (budget bidiLineIndex : Nat),
      (Align.runsRead buffer n c budget bidiLineIndex).getLast? =
        some (Align.matchRun buffer n c budget bidiLineIndex) := by
  intro budget
  induction budget with
  | zero => intro i; rfl
  | succ budget ih =>
    intro i
    simp only [Align.runsRead, Align.matchRun]
    split_ifs with h
    · have hne : Align.runsRead buffer n c budget (i + 1) ≠ [] := by
        intro hnil
        have := ih (i + 1)
        rw [hnil] at this
        simp at this
      obtain ⟨x, xs, hx⟩ := List.exists_cons_of_ne_nil hne
      rw [← ih (i + 1), hx, List.getLast?_cons_cons]
    · rfl

/-- C28, the code at the failing input: with one bidirectional line run (character index
0) and the lines of first character 0 and 2, `Align` reads the runs 0, 0, 0, 1 and 1: for
the second line, whose first character is after that of the last run, it reads the run of
index 1, past the one run of the table. -/
theorem Align_reads_past_last_run :
    reversedParameters.numberOfBidirectionalInfoRuns = 1 ∧
      Align.reads reversedParameters [sampleLine 0 2 30, sampleLine 2 3 40] 0 =
        [0, 0, 0, 1, 1] ∧
      ∃ i ∈ Align.reads reversedParameters [sampleLine 0 2 30, sampleLine 2 3 40] 0,
        ¬ i < reversedParameters.numberOfBidirectionalInfoRuns := by
  refine ⟨rfl, by decide, by decide⟩

/-! ## Sums over the glyphs of a line -/

theorem sumFrom_zero {α : Type} [AddCommMonoid α] (f : Nat → α) (a : Nat) :
    sumFrom f a 0 = 0 := rfl

theorem sumFrom_succ {α : Type} [AddCommMonoid α] (f : Nat → α) (a n : Nat) :
    sumFrom f a (n + 1) = sumFrom f a n + f (a + n) := by
  simp [sumFrom, List.range_succ]

theorem sumFrom_add {α : Type} [AddCommMonoid α] (f : Nat → α) (a m : Nat) :
    ∀ n, sumFrom f a (m + n) = sumFrom f a m + sumFrom f (a + m) n := by
  intro n
  induction n with
  | zero => simp [sumFrom_zero]
  | succ n ih =>
    rw [← Nat.add_assoc, sumFrom_succ, sumFrom_succ, ih, add_assoc, Nat.add_assoc]

theorem sumFrom_cons {α : Type} [AddCommMonoid α] (f : Nat → α) (a n : Nat) :
    sumFrom f a (n + 1) = f a + sumFrom f (a + 1) n := by
  rw [Nat.add_comm n 1, sumFrom_add, sumFrom_succ, sumFrom_zero, zero_add, Nat.add_zero]

theorem sumFrom_le (f : Nat → Nat) (a n b : Nat) (h : a + n ≤ b) :
    sumFrom f a n ≤ sumFrom f 0 b := by
  have h1 : b = a + (n + (b - (a + n))) := by omega
  rw [h1, sumFrom_add, sumFrom_add, Nat.zero_add]
  omega

theorem wrap32_add_wrap32 (a b : Nat) : wrap32 (a + wrap32 b) = wrap32 (a + b) := by
  simp [wrap32, Nat.add_mod]

theorem wrap32_wrap32_add (a b : Nat) : wrap32 (wrap32 a + b) = wrap32 (a + b) := by
  simp [wrap32, Nat.add_mod]

theorem wrap32_of_lt (a : Nat) (h : a < 2 ^ 32) : wrap32 a = a := Nat.mod_eq_of_lt h

/-- A property of a layout and the glyphs it stands for that the steps of the loop of
`GetLineLayoutForBox` keep holds of the layout the loop returns. -/
theorem GetLineLayoutForBox_loop_invariant (impl : Impl) (p : LayoutParameters)
    (P : Nat → Nat → LineLayout → Prop)
    (hclear : ∀ a, P a 0 LineLayout.Clear)
    (hacc : ∀ a m t, P a m t → P a (m + 1) (accumulateGlyph impl p (a + m) t))
    (hfont : ∀ a m t f lf, P a m t → P a m (updateFontMetrics impl f lf t))
    (hmerge : ∀ a m k l t, P a m l → P (a + m) k t → P a (m + k) (MergeLineLayout impl l t))
    (s : Nat) :
    ∀ (rem m k : Nat) (line tmp : LineLayout) (lf : Nat), P s m line → P (s + m) k tmp →
      ∃ n, P s n (GetLineLayoutForBox.loop impl p rem (s + m + k) line tmp lf).1 := by
  intro rem
  induction rem with
  | zero => intro m k line tmp lf h1 _; exact ⟨m, h1⟩
  | succ rem ih =>
    intro m k line tmp lf h1 h2
    rw [GetLineLayoutForBox_loop_succ]
    have h3 := hacc (s + m) k tmp h2
    split_ifs
    · exact ⟨m, h1⟩
    · exact ⟨m + (k + 1), hmerge s m (k + 1) _ _ h1 h3⟩
    · have := ih (m + (k + 1)) 0 _ (updateFontMetrics impl (p.glyphsBuffer (s + m + k)).fontId lf
        LineLayout.Clear) (p.glyphsBuffer (s + m + k)).fontId
        (hmerge s m (k + 1) _ _ h1 h3) (hfont _ _ _ _ _ (hclear _))
      rw [show s + (m + (k + 1)) + 0 = s + m + k + 1 by omega] at this
      exact this
    · have := ih m (k + 1) line _ (p.glyphsBuffer (s + m + k)).fontId h1
        (hfont _ _ _ (p.glyphsBuffer (s + m + k)).fontId lf h3)
      rw [show s + m + (k + 1) = s + m + k + 1 by omega] at this
      exact this

/-- The line layout at glyph `s` has a property that the steps of the line breaker keep
and the empty layout has. -/
theorem lineLayoutAt_invariant (impl : Impl) (p : LayoutParameters)
    (P : Nat → Nat → LineLayout → Prop)
    (hclear : ∀ a, P a 0 LineLayout.Clear)
    (hacc : ∀ a m t, P a m t → P a (m + 1) (accumulateGlyph impl p (a + m) t))
    (hfont : ∀ a m t f lf, P a m t → P a m (updateFontMetrics impl f lf t))
    (hmerge : ∀ a m k l t, P a m l → P (a + m) k t → P a (m + k) (MergeLineLayout impl l t))
    (s : Nat) (hstart : P s 0 { LineLayout.Clear with glyphIndex := s }) :
    ∃ n, P s n (lineLayoutAt impl p s) :=
  GetLineLayoutForBox_loop_invariant impl p P hclear hacc hfont hmerge s
    (p.totalNumberOfGlyphs - s) 0 0 _ _ 0 hstart (hclear _)

/-- What a layout holds of the glyphs it stands for: their number, their characters and,
with exact arithmetic, their advances. -/
theorem lineLayoutAt_conservation (impl : Impl) (p : LayoutParameters) (s : Nat) :
    ((∀ x, impl.round x = x) →
      (lineLayoutAt impl p s).length + (lineLayoutAt impl p s).wsLengthEndOfLine =
        sumFrom (fun g => (p.glyphsBuffer g).advance) s
          (lineLayoutAt impl p s).numberOfGlyphs) ∧
      (lineLayoutAt impl p s).numberOfCharacters =
        wrap32 (sumFrom p.charactersPerGlyphBuffer s (lineLayoutAt impl p s).numberOfGlyphs) := by
  obtain ⟨n, h1, h2, h3⟩ := lineLayoutAt_invariant impl p
    (fun a m t => t.numberOfGlyphs = m ∧
      ((∀ x, impl.round x = x) →
        t.length + t.wsLengthEndOfLine = sumFrom (fun g => (p.glyphsBuffer g).advance) a m) ∧
      t.numberOfCharacters = wrap32 (sumFrom p.charactersPerGlyphBuffer a m))
    (fun a => ⟨rfl, fun _ => by simp [LineLayout.Clear, sumFrom_zero], by
      simp [LineLayout.Clear, sumFrom_zero, wrap32]⟩)
    (fun a m t ⟨h1, h2, h3⟩ => by
      refine ⟨by rw [accumulateGlyph_numberOfGlyphs, h1], fun hexact => ?_, ?_⟩
      · rw [sumFrom_succ, ← h2 hexact]
        simp only [accumulateGlyph, hexact]
        split_ifs <;> simp only <;> ring
      · rw [sumFrom_succ, ← wrap32_wrap32_add, ← h3]
        simp only [accumulateGlyph]
        split_ifs <;> rfl)
    (fun a m t f lf ⟨h1, h2, h3⟩ => by
      simp only [updateFontMetrics]
      split_ifs <;> exact ⟨h1, h2, h3⟩)
    (fun a m k l t ⟨h1, h2, h3⟩ ⟨k1, k2, k3⟩ => by
      refine ⟨by rw [MergeLineLayout_numberOfGlyphs, h1, k1], fun hexact => ?_, ?_⟩
      · rw [sumFrom_add, ← h2 hexact, ← k2 hexact]
        simp only [MergeLineLayout, hexact]
        split_ifs <;> ring
      · rw [sumFrom_add]
        show wrap32 (l.numberOfCharacters + t.numberOfCharacters) = _
        rw [h3, k3, wrap32_wrap32_add, wrap32_add_wrap32])
    s ⟨rfl, fun _ => by simp [LineLayout.Clear, sumFrom_zero], by
      simp [LineLayout.Clear, sumFrom_zero, wrap32]⟩
  rw [h1]
  exact ⟨h2, h3⟩

theorem GetLineLayoutForBox_loop_glyphIndex (impl : Impl) (p : LayoutParameters) :
    ∀ (rem g : Nat) (line tmp : LineLayout) (lf : Nat),
      (GetLineLayoutForBox.loop impl p rem g line tmp lf).1.glyphIndex = line.glyphIndex := by
  intro rem
  induction rem with
  | zero => intro g line tmp lf; rfl
  | succ rem ih =>
    intro g line tmp lf
    rw [GetLineLayoutForBox_loop_succ]
    split_ifs
    · rfl
    · rfl
    · rw [ih]; rfl
    · rw [ih]

/-- C26, counterexample: in `float` arithmetic, for "a b" with the advances 10.1, 3.3 and
7.7 (each the nearest `float`) `GetLineLayoutForBox` returns the three glyphs with
`length + wsLengthEndOfLine` = 21.09999847..., which is neither the sum of the three
advances, 21.10000014..., nor that sum rounded to a `float`. -/
theorem GetLineLayoutForBox_length_rounded :
    (GetLineLayoutForBox (floatImpl MULTI_LINE_BOX) roundedSumParameters
      { LineLayout.Clear with glyphIndex := 0 }).numberOfGlyphs = 3 ∧
    (GetLineLayoutForBox (floatImpl MULTI_LINE_BOX) roundedSumParameters
        { LineLayout.Clear with glyphIndex := 0 }).length +
      (GetLineLayoutForBox (floatImpl MULTI_LINE_BOX) roundedSumParameters
        { LineLayout.Clear with glyphIndex := 0 }).wsLengthEndOfLine = 2765619 / 131072 ∧
    sumFrom (fun g => (roundedSumParameters.glyphsBuffer g).advance) 0 3 =
      88499815 / 4194304 ∧
    (GetLineLayoutForBox (floatImpl MULTI_LINE_BOX) roundedSumParameters
        { LineLayout.Clear with glyphIndex := 0 }).length +
      (GetLineLayoutForBox (floatImpl MULTI_LINE_BOX) roundedSumParameters
        { LineLayout.Clear with glyphIndex := 0 }).wsLengthEndOfLine ≠
      sumFrom (fun g => (roundedSumParameters.glyphsBuffer g).advance) 0 3 ∧
    (GetLineLayoutForBox (floatImpl MULTI_LINE_BOX) roundedSumParameters
        { LineLayout.Clear with glyphIndex := 0 }).length +
      (GetLineLayoutForBox (floatImpl MULTI_LINE_BOX) roundedSumParameters
        { LineLayout.Clear with glyphIndex := 0 }).wsLengthEndOfLine ≠
      roundToFloat (sumFrom (fun g => (roundedSumParameters.glyphsBuffer g).advance) 0 3) := by
  refine ⟨by decide!, by decide!, by decide!, by decide!, by decide!⟩

/-- C26, amended: for every line layout `GetLineLayoutForBox` returns in either mode, for
a layout entered as `LayoutText` enters it at glyph `s` and a text whose characters are
counted by a 32 bit `Length`, `numberOfCharacters` is the sum of the `charactersPerGlyph`
of the `numberOfGlyphs` glyphs from the `glyphIndex` of the line on, which is `s`, and,
with the metrics read as exact numbers, `length + wsLengthEndOfLine` is the sum of the
advances of those glyphs. -/
theorem GetLineLayoutForBox_conservation (impl : Impl) (p : LayoutParameters) (s : Nat)
    (hc : sumFrom p.charactersPerGlyphBuffer 0 p.totalNumberOfGlyphs < 2 ^ 32) :
    (GetLineLayoutForBox impl p { LineLayout.Clear with glyphIndex := s }).glyphIndex = s ∧
      (GetLineLayoutForBox impl p { LineLayout.Clear with glyphIndex := s }).numberOfCharacters =
        sumFrom p.charactersPerGlyphBuffer s
          (GetLineLayoutForBox impl p
            { LineLayout.Clear with glyphIndex := s }).numberOfGlyphs ∧
      ((∀ x, impl.round x = x) →
        (GetLineLayoutForBox impl p { LineLayout.Clear with glyphIndex := s }).length +
            (GetLineLayoutForBox impl p
              { LineLayout.Clear with glyphIndex := s }).wsLengthEndOfLine =
          sumFrom (fun g => (p.glyphsBuffer g).advance) s
            (GetLineLayoutForBox impl p
              { LineLayout.Clear with glyphIndex := s }).numberOfGlyphs) := by
  obtain ⟨h1, h2⟩ := lineLayoutAt_conservation impl p s
  refine ⟨GetLineLayoutForBox_loop_glyphIndex impl p _ _ _ _ _, ?_, h1⟩
  have hle := lineLayoutAt_le impl p s
  have hsum : sumFrom p.charactersPerGlyphBuffer s (lineLayoutAt impl p s).numberOfGlyphs <
      2 ^ 32 := by
    rcases le_total s p.totalNumberOfGlyphs with hs | hs
    · rw [max_eq_right hs] at hle
      exact lt_of_le_of_lt (sumFrom_le _ _ _ _ hle) hc
    · rw [max_eq_left hs] at hle
      have h0 : (lineLayoutAt impl p s).numberOfGlyphs = 0 := by omega
      rw [h0, sumFrom_zero]
      decide
  exact h2.trans (wrap32_of_lt _ hsum)

theorem GetLineLayoutForBox_conservation_witness :
    sumFrom (helloParameters 50).charactersPerGlyphBuffer 0
        (helloParameters 50).totalNumberOfGlyphs < 2 ^ 32 ∧
      (GetLineLayoutForBox (sampleImpl MULTI_LINE_BOX HORIZONTAL_ALIGN_BEGIN)
          (helloParameters 50) { LineLayout.Clear with glyphIndex := 6 }).numberOfGlyphs = 4 ∧
      (GetLineLayoutForBox (sampleImpl MULTI_LINE_BOX HORIZONTAL_ALIGN_BEGIN)
          (helloParameters 50) { LineLayout.Clear with glyphIndex := 6 }).numberOfCharacters =
        sumFrom (helloParameters 50).charactersPerGlyphBuffer 6
          (GetLineLayoutForBox (sampleImpl MULTI_LINE_BOX HORIZONTAL_ALIGN_BEGIN)
            (helloParameters 50) { LineLayout.Clear with glyphIndex := 6 }).numberOfGlyphs ∧
      (GetLineLayoutForBox (sampleImpl MULTI_LINE_BOX HORIZONTAL_ALIGN_BEGIN)
          (helloParameters 50) { LineLayout.Clear with glyphIndex := 6 }).length +
        (GetLineLayoutForBox (sampleImpl MULTI_LINE_BOX HORIZONTAL_ALIGN_BEGIN)
          (helloParameters 50) { LineLayout.Clear with glyphIndex := 6 }).wsLengthEndOfLine =
        sumFrom (fun g => ((helloParameters 50).glyphsBuffer g).advance) 6
          (GetLineLayoutForBox (sampleImpl MULTI_LINE_BOX HORIZONTAL_ALIGN_BEGIN)
            (helloParameters 50) { LineLayout.Clear with glyphIndex := 6 }).numberOfGlyphs :=
  have h := GetLineLayoutForBox_conservation (sampleImpl MULTI_LINE_BOX HORIZONTAL_ALIGN_BEGIN)
    (helloParameters 50) 6 (by decide!)
  ⟨by decide!, by decide!, h.2.1, h.2.2 (fun _ => rfl)⟩

/-! ## Greedy filling -/

theorem accumulateGlyphs_succ (impl : Impl) (p : LayoutParameters) :
    ∀ (k q : Nat) (t : LineLayout),
      accumulateGlyphs impl p (k + 1) q t =
        accumulateGlyph impl p (q + k) (accumulateGlyphs impl p k q t) := by
  intro k
  induction k with
  | zero => intro q t; rfl
  | succ k ih =>
    intro q t
    show accumulateGlyphs impl p (k + 1) (q + 1) (accumulateGlyph impl p q t) = _
    rw [ih (q + 1) (accumulateGlyph impl p q t), show q + 1 + k = q + (k + 1) by omega]
    rfl

theorem sameExtents_trans {a b c : LineLayout} (h1 : sameExtents a b) (h2 : sameExtents b c) :
    sameExtents a c :=
  ⟨h1.1.trans h2.1, h1.2.1.trans h2.2.1, h1.2.2.trans h2.2.2⟩

/-- In multi-line mode, when the loop returns because a word does not fit, what it returns
are the glyphs up to the start of the pending word, no break lies between that start and
the glyph of the overflow test, and the extent the test saw exceeds the box. -/
theorem GetLineLayoutForBox_loop_overflow (impl : Impl) (p : LayoutParameters)
    (hm : impl.mLayout = MULTI_LINE_BOX) (s : Nat) :
    ∀ (rem m k : Nat) (line tmp : LineLayout) (lf : Nat),
      line.numberOfGlyphs = m → tmp.numberOfGlyphs = k →
      sameExtents tmp (accumulateGlyphs impl p k (s + m) LineLayout.Clear) →
      (∀ j, s + m ≤ j → j < s + m + k → ¬ isMustBreak p j ∧ ¬ isWordBreak p j) →
      ∀ g, (GetLineLayoutForBox.loop impl p rem (s + m + k) line tmp lf).2 =
          LoopExit.wordDoesNotFit g →
        s + (GetLineLayoutForBox.loop impl p rem (s + m + k) line tmp lf).1.numberOfGlyphs ≤
            g ∧
          g < s + m + k + rem ∧
          (∀ j, s + (GetLineLayoutForBox.loop impl p rem (s + m + k) line tmp
              lf).1.numberOfGlyphs ≤ j → j < g → ¬ isMustBreak p j ∧ ¬ isWordBreak p j) ∧
          overflowExtent impl (GetLineLayoutForBox.loop impl p rem (s + m + k) line tmp lf).1
              (accumulateGlyphs impl p
                (g + 1 - (s + (GetLineLayoutForBox.loop impl p rem (s + m + k) line tmp
                  lf).1.numberOfGlyphs))
                (s + (GetLineLayoutForBox.loop impl p rem (s + m + k) line tmp
                  lf).1.numberOfGlyphs) LineLayout.Clear) >
            p.boundingBox.width := by
  intro rem
  induction rem with
  | zero =>
    intro m k line tmp lf _ _ _ _ g h
    simp [GetLineLayoutForBox.loop] at h
  | succ rem ih =>
    intro m k line tmp lf hn hk hs hno g
    rw [GetLineLayoutForBox_loop_succ]
    have hacc : sameExtents (accumulateGlyph impl p (s + m + k) tmp)
        (accumulateGlyphs impl p (k + 1) (s + m) LineLayout.Clear) := by
      rw [accumulateGlyphs_succ]
      exact accumulateGlyph_sameExtents impl p _ _ _ hs
    split_ifs with h1 h2 h3
    · intro h
      have hg : s + m + k = g := by simpa using h
      subst hg
      simp only [hn]
      refine ⟨by omega, by omega, fun j a b => hno j a b, ?_⟩
      rw [show s + m + k + 1 - (s + m) = k + 1 by omega,
        ← overflowExtent_congr impl line _ _ hacc]
      exact h1.2
    · intro h; simp at h
    · intro h
      have := ih (m + (k + 1)) 0 (MergeLineLayout impl line (accumulateGlyph impl p (s + m + k) tmp))
        (updateFontMetrics impl (p.glyphsBuffer (s + m + k)).fontId lf LineLayout.Clear)
        (p.glyphsBuffer (s + m + k)).fontId
        (by rw [MergeLineLayout_numberOfGlyphs, accumulateGlyph_numberOfGlyphs, hn, hk])
        (by rw [updateFontMetrics_numberOfGlyphs]; rfl)
        (updateFontMetrics_sameExtents impl _ _ _) (fun j a b => by omega) g
      rw [show s + (m + (k + 1)) + 0 = s + m + k + 1 by omega] at this
      obtain ⟨a, b, c, d⟩ := this h
      exact ⟨a, by omega, c, d⟩
    · intro h
      have := ih m (k + 1) line
        (updateFontMetrics impl (p.glyphsBuffer (s + m + k)).fontId lf
          (accumulateGlyph impl p (s + m + k) tmp))
        (p.glyphsBuffer (s + m + k)).fontId hn
        (by rw [updateFontMetrics_numberOfGlyphs, accumulateGlyph_numberOfGlyphs, hk])
        (sameExtents_trans (updateFontMetrics_sameExtents impl _ _ _) hacc)
        (fun j a b => by
          rcases Nat.lt_or_ge j (s + m + k) with hj | hj
          · exact hno j a hj
          · have hj2 : j = s + m + k := by omega
            rw [hj2]
            exact ⟨fun hx => h2 ⟨Or.inl hm, hx⟩, fun hx => h3 ⟨hm, hx⟩⟩) g
      rw [show s + m + (k + 1) = s + m + k + 1 by omega] at this
      obtain ⟨a, b, c, d⟩ := this h
      exact ⟨a, by omega, c, d⟩

/-- C21: in `MULTI_LINE_BOX` mode with the last character of the final glyph
`LINE_MUST_BREAK`, when `GetLineLayoutForBox` returns a line of the glyphs `s .. e`,
`e = s + numberOfGlyphs - 1`, whose last glyph `e` is not a `LINE_MUST_BREAK` glyph, there
is a glyph `g > e` of the text with no `WORD_BREAK` or `LINE_MUST_BREAK` glyph among
`e + 1 .. g - 1` at which the extent of the overflow test (the length of the line, the
pending length of the glyphs `e + 1 .. g`, the width-advance difference of `g` and, when
the pending length is positive, the trailing white space of the line) exceeds the box
width. -/
theorem GetLineLayoutForBox_greedy (impl : Impl) (p : LayoutParameters) (s : Nat)
    (hm : impl.mLayout = MULTI_LINE_BOX)
    (hlast : isMustBreak p (p.totalNumberOfGlyphs - 1))
    (hn : 1 ≤ (lineLayoutAt impl p s).numberOfGlyphs)
    (he : ¬ isMustBreak p (s + (lineLayoutAt impl p s).numberOfGlyphs - 1)) :
    ∃ g, s + (lineLayoutAt impl p s).numberOfGlyphs - 1 < g ∧ g < p.totalNumberOfGlyphs ∧
      (∀ j, s + (lineLayoutAt impl p s).numberOfGlyphs - 1 < j → j < g →
        ¬ isWordBreak p j ∧ ¬ isMustBreak p j) ∧
      (accumulateGlyphs impl p (g - (s + (lineLayoutAt impl p s).numberOfGlyphs - 1))
        (s + (lineLayoutAt impl p s).numberOfGlyphs) LineLayout.Clear).widthAdvanceDiff =
          glyphWidthAdvanceDiff impl p g ∧
      overflowExtent impl (lineLayoutAt impl p s)
          (accumulateGlyphs impl p (g - (s + (lineLayoutAt impl p s).numberOfGlyphs - 1))
            (s + (lineLayoutAt impl p s).numberOfGlyphs) LineLayout.Clear) >
        p.boundingBox.width := by
  obtain ⟨e0, he1, he2, _, _⟩ := lineLayoutAt_end impl p s (by omega)
  obtain ⟨x1, x2⟩ := GetLineLayoutForBox_loop_exit impl p hm (p.totalNumberOfGlyphs - s) s
    { LineLayout.Clear with glyphIndex := s } LineLayout.Clear 0
  have hover := GetLineLayoutForBox_loop_overflow impl p hm s (p.totalNumberOfGlyphs - s) 0 0
    { LineLayout.Clear with glyphIndex := s } LineLayout.Clear 0 rfl rfl ⟨rfl, rfl, rfl⟩
    (fun j a b => by omega)
  simp only [Nat.add_zero] at hover
  rw [← lineLayoutAt_eq] at x1 hover
  rw [← lineExitAt_eq] at x1 x2 hover
  cases hexit : lineExitAt impl p s with
  | wordDoesNotFit g =>
    obtain ⟨a, b, c, d⟩ := hover g hexit
    refine ⟨g, by omega, by omega, fun j h1 h2 => ?_, ?_, ?_⟩
    · have := c j (by omega) h2
      exact ⟨this.2, this.1⟩
    · rw [show g - (s + (lineLayoutAt impl p s).numberOfGlyphs - 1) =
        (g - (s + (lineLayoutAt impl p s).numberOfGlyphs)) + 1 by omega, accumulateGlyphs_succ,
        accumulateGlyph_widthAdvanceDiff]
      congr 1
      omega
    · rw [show g - (s + (lineLayoutAt impl p s).numberOfGlyphs - 1) =
        g + 1 - (s + (lineLayoutAt impl p s).numberOfGlyphs) by omega]
      exact d
  | mustBreak e =>
    exfalso
    obtain ⟨a, b, c, d, f⟩ := x1 e hexit
    apply he
    have : s + (lineLayoutAt impl p s).numberOfGlyphs - 1 = e := by
      rw [f]
      show s + (0 + 0 + (e - s + 1)) - 1 = e
      omega
    rw [this]
    exact c
  | endOfGlyphs =>
    exfalso
    exact x2 hexit (p.totalNumberOfGlyphs - 1) (by omega) (by omega) hlast

theorem GetLineLayoutForBox_greedy_witness :
    overflowExtent (sampleImpl MULTI_LINE_BOX HORIZONTAL_ALIGN_BEGIN)
        (lineLayoutAt (sampleImpl MULTI_LINE_BOX HORIZONTAL_ALIGN_BEGIN) (helloParameters 50) 0)
      (accumulateGlyphs (sampleImpl MULTI_LINE_BOX HORIZONTAL_ALIGN_BEGIN) (helloParameters 50)
        1 6 LineLayout.Clear) > (helloParameters 50).boundingBox.width ∧
    ∃ g, 0 + (lineLayoutAt (sampleImpl MULTI_LINE_BOX HORIZONTAL_ALIGN_BEGIN)
        (helloParameters 50) 0).numberOfGlyphs - 1 < g ∧
      g < (helloParameters 50).totalNumberOfGlyphs :=
  ⟨by decide!,
    (GetLineLayoutForBox_greedy (sampleImpl MULTI_LINE_BOX HORIZONTAL_ALIGN_BEGIN)
      (helloParameters 50) 0 rfl (by decide) (by decide!) (by decide!)).imp
      (fun _ h => ⟨h.1, h.2.1⟩)⟩

/-! ## Trailing white space -/

/-- C23, the code at the failing input: in the text "a " followed by a mark that is not a
white space and has no advance, every advance is non-negative and the one line
`LayoutText` emits ends with the mark, so that the white spaces at its end sum up to 0;
its `extraLength` is 10, the advance of the space before the mark. -/
theorem LayoutText_extraLength_before_mark :
    LayoutText (sampleImpl MULTI_LINE_BOX HORIZONTAL_ALIGN_BEGIN) markParameters zeroPositions []
        { width := 0, height := 0 } =
      some (true, layoutOutput (sampleImpl MULTI_LINE_BOX HORIZONTAL_ALIGN_BEGIN) markParameters
        zeroPositions [] { width := 0, height := 0 }) ∧
    (layoutOutput (sampleImpl MULTI_LINE_BOX HORIZONTAL_ALIGN_BEGIN) markParameters
        zeroPositions [] { width := 0, height := 0 }).lines.map
          (fun l => (l.glyphIndex, l.numberOfGlyphs, l.extraLength)) = [(0, 3, 10)] ∧
    (∀ g, g < markParameters.totalNumberOfGlyphs →
      0 ≤ (markParameters.glyphsBuffer g).advance) ∧
    isWhiteSpaceGlyph (sampleImpl MULTI_LINE_BOX HORIZONTAL_ALIGN_BEGIN) markParameters 2 =
      false ∧
    trailingWhiteSpace (sampleImpl MULTI_LINE_BOX HORIZONTAL_ALIGN_BEGIN) markParameters 0 3 =
      0 :=
  ⟨LayoutText_eq_of_flag _ _ _ _ _ _ (by decide!), by decide!, by decide!, by decide!,
    by decide!⟩

/-! ## Texts that do not end with a break -/

/-- In single-line mode, when the last glyph is a `LINE_MUST_BREAK` glyph the loop returns
all the glyphs left. -/
theorem GetLineLayoutForBox_loop_single (impl : Impl) (p : LayoutParameters)
    (hs : impl.mLayout = SINGLE_LINE_BOX)
    (hlast : isMustBreak p (p.totalNumberOfGlyphs - 1)) :
    ∀ (rem g : Nat) (line tmp : LineLayout) (lf : Nat),
      g + rem = p.totalNumberOfGlyphs → 1 ≤ rem →
      (GetLineLayoutForBox.loop impl p rem g line tmp lf).1.numberOfGlyphs =
        line.numberOfGlyphs + tmp.numberOfGlyphs + rem := by
  have hne : impl.mLayout ≠ MULTI_LINE_BOX := by rw [hs]; decide
  intro rem
  induction rem with
  | zero => intro g line tmp lf _ h; omega
  | succ rem ih =>
    intro g line tmp lf hg _
    rw [GetLineLayoutForBox_loop_succ]
    split_ifs with h1 h2 h3
    · exact absurd h1.1 hne
    · rcases h2.1 with h | h
      · exact absurd h hne
      · simp only [MergeLineLayout_numberOfGlyphs, accumulateGlyph_numberOfGlyphs]
        omega
    · exact absurd h3.1 hne
    · have hrem : 1 ≤ rem := by
        by_contra hr
        have h0 : rem = 0 := by omega
        apply h2
        have hg2 : g = p.totalNumberOfGlyphs - 1 := by omega
        exact ⟨Or.inr hg2, by rw [hg2]; exact hlast⟩
      rw [ih (g + 1) _ _ _ (by omega) hrem]
      simp only [accumulateGlyph_numberOfGlyphs, updateFontMetrics_numberOfGlyphs]
      omega

/-- After a successful layout of at least one glyph, the last glyph of the text is one at
which the line breaker merges. -/
theorem LinesFrom_last (impl : Impl) (p : LayoutParameters) :
    ∀ (new : List LineRun) (index : Nat), LinesFrom impl p index new true →
      index < p.totalNumberOfGlyphs → commitsAt impl p (p.totalNumberOfGlyphs - 1) := by
  intro new
  induction new with
  | nil =>
    intro index h hlt
    simp only [LinesFrom] at h
    rw [if_pos hlt] at h
    simp at h
  | cons l0 rest ih =>
    intro index h hlt
    simp only [LinesFrom] at h
    obtain ⟨_, h2, _, h4⟩ := h
    rcases Nat.lt_or_ge (index + (lineLayoutAt impl p index).numberOfGlyphs)
        p.totalNumberOfGlyphs with hn | hn
    · exact ih _ h4 hn
    · obtain ⟨e, e1, e2, e3, e4⟩ := lineLayoutAt_end impl p index h2
      have : e = p.totalNumberOfGlyphs - 1 := by omega
      rw [← this]
      exact e4

/-- After a failed layout, some line had to start at a glyph at which the line layout has
no glyphs. -/
theorem LinesFrom_fails (impl : Impl) (p : LayoutParameters) :
    ∀ (new : List LineRun) (index : Nat), LinesFrom impl p index new false →
      ∃ s, s < p.totalNumberOfGlyphs ∧ (lineLayoutAt impl p s).numberOfGlyphs = 0 := by
  intro new
  induction new with
  | nil =>
    intro index h
    simp only [LinesFrom] at h
    split_ifs at h with hlt
    exact ⟨index, hlt, h.1⟩
  | cons l0 rest ih =>
    intro index h
    simp only [LinesFrom] at h
    exact ih _ h.2.2.2

/-- C27: for a text of at least one glyph and every box width, `LayoutText` returns, and
in `SINGLE_LINE_BOX` mode it returns true exactly when the last character of the last
glyph is `LINE_MUST_BREAK` (so false when it is not), while in `MULTI_LINE_BOX` mode it
returns false when that character is neither `LINE_MUST_BREAK` nor `WORD_BREAK`. -/
theorem LayoutText_unterminated (impl : Impl) (p : LayoutParameters)
    (glyphPositions : Nat → Vector2) (lines : List LineRun) (actualSize : Size)
    (hn : 0 < p.totalNumberOfGlyphs) :
    ∃ r, LayoutText impl p glyphPositions lines actualSize = some r ∧
      (impl.mLayout = SINGLE_LINE_BOX →
        (r.1 = true ↔ isMustBreak p (p.totalNumberOfGlyphs - 1))) ∧
      (impl.mLayout = MULTI_LINE_BOX → ¬ isMustBreak p (p.totalNumberOfGlyphs - 1) →
        ¬ isWordBreak p (p.totalNumberOfGlyphs - 1) → r.1 = false) := by
  obtain ⟨r, hr⟩ := LayoutText_returns impl p glyphPositions lines actualSize
  obtain ⟨new, _, _, h2, _⟩ := LayoutText_lines impl p _ _ _ _ hr
  refine ⟨r, hr, fun hs => ⟨fun ht => ?_, fun hlast => ?_⟩, fun hm h1 h3 => ?_⟩
  · have hne : impl.mLayout ≠ MULTI_LINE_BOX := by rw [hs]; decide
    rw [ht] at h2
    rcases LinesFrom_last impl p new 0 h2 hn with h | h
    · exact h.2
    · exact absurd h.1 hne
  · by_contra hf
    have hf2 : r.1 = false := by simpa using hf
    rw [hf2] at h2
    obtain ⟨s, s1, s2⟩ := LinesFrom_fails impl p new 0 h2
    rw [lineLayoutAt_eq, GetLineLayoutForBox_loop_single impl p hs hlast _ _ _ _ _ (by omega)
      (by omega)] at s2
    omega
  · by_contra hf
    have ht : r.1 = true := by simpa using hf
    rw [ht] at h2
    rcases LinesFrom_last impl p new 0 h2 hn with h | h
    · exact h1 h.2
    · exact h3 h.2

theorem LayoutText_unterminated_witness :
    0 < (sampleParameters 100 [97, 98] [2, 2] [1, 1]).totalNumberOfGlyphs ∧
      (sampleImpl MULTI_LINE_BOX HORIZONTAL_ALIGN_BEGIN).mLayout = MULTI_LINE_BOX ∧
      ¬ isMustBreak (sampleParameters 100 [97, 98] [2, 2] [1, 1]) 1 ∧
      ¬ isWordBreak (sampleParameters 100 [97, 98] [2, 2] [1, 1]) 1 ∧
      ∃ r, LayoutText (sampleImpl MULTI_LINE_BOX HORIZONTAL_ALIGN_BEGIN)
          (sampleParameters 100 [97, 98] [2, 2] [1, 1]) zeroPositions []
          { width := 0, height := 0 } = some r ∧ r.1 = false :=
  ⟨by decide, rfl, by decide, by decide,
    (LayoutText_unterminated (sampleImpl MULTI_LINE_BOX HORIZONTAL_ALIGN_BEGIN)
      (sampleParameters 100 [97, 98] [2, 2] [1, 1]) zeroPositions []
      { width := 0, height := 0 } (by decide)).imp
      (fun _ h => ⟨h.1, h.2.2 rfl (by decide) (by decide)⟩)⟩

/-! ## Pen positions -/

theorem penXAt_succ (impl : Impl) (p : LayoutParameters) (s k : Nat) :
    penXAt impl p s (k + 1) =
      impl.round (penXAt impl p s k + (p.glyphsBuffer (s + k)).advance) := rfl

theorem penYAfter_append (impl : Impl) (before : List LineRun) (l : LineRun) :
    penYAfter impl (before ++ [l]) =
      impl.round (impl.round (penYAfter impl before + l.ascender) + -l.descender) := by
  simp [penYAfter, List.foldl_append]

/-- The inner loop of `LayoutText`, entered with the pen of the line after `k` glyphs, puts
each of the next `count` glyphs at the pen position after the glyphs before it, and leaves
the others. -/
theorem setGlyphPositions_apply (impl : Impl) (p : LayoutParameters) (penY : ℚ) (s : Nat) :
    ∀ (count k : Nat) (pos : Nat → Vector2) (j : Nat),
      setGlyphPositions impl p penY count (s + k) (penXAt impl p s k) pos j =
        if s + k ≤ j ∧ j < s + k + count then
          { x := impl.round (penXAt impl p s (j - s) + (p.glyphsBuffer j).xBearing)
            y := impl.round (penY - (p.glyphsBuffer j).yBearing) }
        else pos j := by
  intro count
  induction count with
  | zero =>
    intro k pos j
    rw [if_neg (by omega)]
    rfl
  | succ count ih =>
    intro k pos j
    simp only [setGlyphPositions]
    rw [← penXAt_succ, show s + k + 1 = s + (k + 1) by omega, ih]
    by_cases h1 : s + (k + 1) ≤ j ∧ j < s + (k + 1) + count
    · rw [if_pos h1, if_pos (by omega)]
    · rw [if_neg h1]
      by_cases h2 : j = s + k
      · subst h2
        rw [Function.update_same, if_pos (by omega), show s + k - s = k by omega]
      · rw [Function.update_noteq h2, if_neg (by omega)]

/-- The positions the loop of `LayoutText` leaves: the glyphs of every appended line are
at the pen positions of that line, and the glyphs before the first line are untouched. -/
theorem LayoutText_loop_pen (impl : Impl) (p : LayoutParameters) :
    ∀ (budget index : Nat) (penY : ℚ) (out : LayoutOutput) (r : Bool × LayoutOutput),
      LayoutText.loop impl p budget index penY out = some r →
      ∃ new, r.2.lines = out.lines ++ new ∧
        (∀ (before after : List LineRun) (l : LineRun), new = before ++ l :: after →
          ∀ i, l.glyphIndex ≤ i → i < l.glyphIndex + l.numberOfGlyphs →
            r.2.glyphPositions i =
              { x := impl.round (penXAt impl p l.glyphIndex (i - l.glyphIndex) +
                  (p.glyphsBuffer i).xBearing)
                y := impl.round (impl.round
                    (before.foldl (fun penY l =>
                      impl.round (impl.round (penY + l.ascender) + -l.descender)) penY +
                      l.ascender) -
                    (p.glyphsBuffer i).yBearing) }) ∧
        ∀ i, i < index → r.2.glyphPositions i = out.glyphPositions i := by
  intro budget
  induction budget with
  | zero =>
    intro index penY out r h
    simp only [LayoutText.loop] at h
    split_ifs at h with h1
    cases h
    exact ⟨[], by simp, fun before after l hl => by simp at hl, fun _ _ => rfl⟩
  | succ budget ih =>
    intro index penY out r h
    rw [LayoutText_loop_succ] at h
    split_ifs at h with h1 h2
    · cases h
      exact ⟨[], by simp, fun before after l hl => by simp at hl, fun _ _ => rfl⟩
    · obtain ⟨new, e1, e2, e3⟩ := ih _ _ _ _ h
      refine ⟨makeLineRun impl p index (lineLayoutAt impl p index) :: new, ?_, ?_, ?_⟩
      · rw [e1]; simp
      · intro before after l hl i hi1 hi2
        cases before with
        | nil =>
          simp only [List.nil_append, List.cons.injEq] at hl
          obtain ⟨hl1, _⟩ := hl
          subst hl1
          have hi3 : i < index + (lineLayoutAt impl p index).numberOfGlyphs := hi2
          have hi4 : index ≤ i := hi1
          rw [e3 i hi3]
          simp only
          have hset := setGlyphPositions_apply impl p
            (impl.round (penY + (lineLayoutAt impl p index).ascender)) index
            (lineLayoutAt impl p index).numberOfGlyphs 0 out.glyphPositions i
          rw [Nat.add_zero] at hset
          rw [show (0 : ℚ) = penXAt impl p index 0 from rfl, hset, if_pos ⟨hi4, hi3⟩]
          rfl
        | cons b before2 =>
          simp only [List.cons_append, List.cons.injEq] at hl
          obtain ⟨hl1, hl2⟩ := hl
          rw [e2 before2 after l hl2 i hi1 hi2, ← hl1]
          rfl
      · intro i hi
        rw [e3 i (by omega)]
        simp only
        have hset := setGlyphPositions_apply impl p
          (impl.round (penY + (lineLayoutAt impl p index).ascender)) index
          (lineLayoutAt impl p index).numberOfGlyphs 0 out.glyphPositions i
        rw [Nat.add_zero] at hset
        rw [show (0 : ℚ) = penXAt impl p index 0 from rfl, hset, if_neg (by omega)]
    · cases h
      exact ⟨[], by simp, fun before after l hl => by simp at hl, fun _ _ => rfl⟩

/-- The positions `LayoutText` leaves for the glyphs of the lines it appends. -/
theorem LayoutText_pen (impl : Impl) (p : LayoutParameters)
    (glyphPositions : Nat → Vector2) (lines : List LineRun) (actualSize : Size)
    (r : Bool × LayoutOutput)
    (h : LayoutText impl p glyphPositions lines actualSize = some r)
    (before after : List LineRun) (l : LineRun)
    (hl : r.2.lines.drop lines.length = before ++ l :: after)
    (i : Nat) (hi1 : l.glyphIndex ≤ i) (hi2 : i < l.glyphIndex + l.numberOfGlyphs) :
    r.2.glyphPositions i =
      { x := impl.round (penXAt impl p l.glyphIndex (i - l.glyphIndex) +
          (p.glyphsBuffer i).xBearing)
        y := impl.round (impl.round (penYAfter impl before + l.ascender) -
          (p.glyphsBuffer i).yBearing) } := by
  obtain ⟨new, e1, e2, _⟩ := LayoutText_loop_pen impl p _ _ _ _ r h
  simp only at e1
  rw [e1, List.drop_left] at hl
  rw [e2 before after l hl i hi1 hi2]
  rfl

/-- When the first characters of the glyphs are the prefix sums of the characters per
glyph and the characters are counted by a 32 bit `Length`, the character run of the line
laid out at glyph `s` starts at the first character of `s` and holds the characters of
the glyphs of the line. -/
theorem makeLineRun_characterRun (impl : Impl) (p : LayoutParameters)
    (hfirst : ∀ g, g < p.totalNumberOfGlyphs →
      p.glyphsToCharactersBuffer g = sumFrom p.charactersPerGlyphBuffer 0 g)
    (hc : sumFrom p.charactersPerGlyphBuffer 0 p.totalNumberOfGlyphs < 2 ^ 32)
    (s : Nat) (hs : s < p.totalNumberOfGlyphs)
    (hn : (lineLayoutAt impl p s).numberOfGlyphs ≠ 0) :
    (makeLineRun impl p s (lineLayoutAt impl p s)).characterRun =
      { characterIndex := sumFrom p.charactersPerGlyphBuffer 0 s
        numberOfCharacters :=
          sumFrom p.charactersPerGlyphBuffer s (lineLayoutAt impl p s).numberOfGlyphs } := by
  have hle := lineLayoutAt_le impl p s
  rw [max_eq_right (le_of_lt hs)] at hle
  obtain ⟨n, hn1⟩ : ∃ n, (lineLayoutAt impl p s).numberOfGlyphs = n + 1 :=
    ⟨(lineLayoutAt impl p s).numberOfGlyphs - 1, by omega⟩
  rw [hn1] at hle
  have hall := sumFrom_le p.charactersPerGlyphBuffer 0 (s + (n + 1)) _ (by omega : 0 + (s + (n + 1)) ≤ p.totalNumberOfGlyphs)
  have hsplit : sumFrom p.charactersPerGlyphBuffer 0 (s + (n + 1)) =
      sumFrom p.charactersPerGlyphBuffer 0 s + sumFrom p.charactersPerGlyphBuffer s (n + 1) := by
    rw [sumFrom_add, Nat.zero_add]
  have hlast : sumFrom p.charactersPerGlyphBuffer 0 (s + n) + p.charactersPerGlyphBuffer (s + n) =
      sumFrom p.charactersPerGlyphBuffer 0 (s + (n + 1)) := by
    rw [← Nat.add_assoc, sumFrom_succ, Nat.zero_add]
  simp only [makeLineRun, hn1]
  rw [show s + (n + 1) - 1 = s + n by omega, hfirst s hs, hfirst (s + n) (by omega), hlast,
    hsplit]
  congr 1
  simp only [wrap32]
  rw [hsplit] at hall
  omega

/-- The character runs of the lines `LayoutText` appends, when the first characters of the
glyphs are the prefix sums of the characters per glyph. -/
theorem LinesFrom_characters (impl : Impl) (p : LayoutParameters)
    (hfirst : ∀ g, g < p.totalNumberOfGlyphs →
      p.glyphsToCharactersBuffer g = sumFrom p.charactersPerGlyphBuffer 0 g)
    (hc : sumFrom p.charactersPerGlyphBuffer 0 p.totalNumberOfGlyphs < 2 ^ 32) :
    ∀ (new : List LineRun) (index : Nat) (ok : Bool), LinesFrom impl p index new ok →
      index ≤ p.totalNumberOfGlyphs →
      (∀ l ∈ new, l.characterRun.numberOfCharacters =
        sumFrom p.charactersPerGlyphBuffer l.glyphIndex l.numberOfGlyphs) ∧
      (∀ l, new.head? = some l →
        l.characterRun.characterIndex = sumFrom p.charactersPerGlyphBuffer 0 index) ∧
      List.Chain' (fun a b : LineRun => b.characterRun.characterIndex =
        a.characterRun.characterIndex + a.characterRun.numberOfCharacters) new ∧
      (ok = true →
        sumFrom p.charactersPerGlyphBuffer 0 index +
            (new.map (fun l => l.characterRun.numberOfCharacters)).sum =
          sumFrom p.charactersPerGlyphBuffer 0 p.totalNumberOfGlyphs) := by
  intro new
  induction new with
  | nil =>
    intro index ok h hle
    simp only [LinesFrom] at h
    refine ⟨by simp, by simp, List.chain'_nil, fun hok => ?_⟩
    split_ifs at h with h1
    · rw [hok] at h; simp at h
    · rw [show index = p.totalNumberOfGlyphs by omega]
      simp
  | cons l0 rest ih =>
    intro index ok h hle
    simp only [LinesFrom] at h
    obtain ⟨h1, h2, h3, h4⟩ := h
    have hle2 := lineLayoutAt_le impl p index
    rw [max_eq_right hle] at hle2
    obtain ⟨i1, i2, i3, i4⟩ := ih _ ok h4 hle2
    have hrun := makeLineRun_characterRun impl p hfirst hc index h1 h2
    rw [← h3] at hrun
    have hg : l0.glyphIndex = index := by rw [h3]; rfl
    have hn : l0.numberOfGlyphs = (lineLayoutAt impl p index).numberOfGlyphs := by rw [h3]; rfl
    have hnc : l0.characterRun.numberOfCharacters =
        sumFrom p.charactersPerGlyphBuffer index (lineLayoutAt impl p index).numberOfGlyphs := by
      rw [hrun]
    have hci : l0.characterRun.characterIndex = sumFrom p.charactersPerGlyphBuffer 0 index := by
      rw [hrun]
    have hsplit : sumFrom p.charactersPerGlyphBuffer 0
        (index + (lineLayoutAt impl p index).numberOfGlyphs) =
        sumFrom p.charactersPerGlyphBuffer 0 index +
          sumFrom p.charactersPerGlyphBuffer index (lineLayoutAt impl p index).numberOfGlyphs := by
      rw [sumFrom_add, Nat.zero_add]
    refine ⟨?_, ?_, ?_, ?_⟩
    · intro l hl
      rcases List.mem_cons.mp hl with hl | hl
      · rw [hl, hnc, hg, hn]
      · exact i1 l hl
    · intro l hl
      simp only [List.head?_cons, Option.some.injEq] at hl
      rw [← hl]; exact hci
    · rw [List.chain'_cons']
      refine ⟨fun y hy => ?_, i3⟩
      rw [i2 y hy, hci, hnc, hsplit]
    · intro hok
      have := i4 hok
      simp only [List.map_cons, List.sum_cons]
      rw [hnc]
      omega

/-- C29: when `glyphsToCharacters` is the prefix sum of `charactersPerGlyph` (and the
characters are counted by a 32 bit `Length`), every line `LayoutText` appends has
`characterRun.numberOfCharacters` equal to the sum of `charactersPerGlyph` over its
glyphs, the character run of each line starts where that of the line before ends, and
after a successful layout the lengths of the character runs add up to the number of
characters of the text. -/
theorem LayoutText_character_coverage (impl : Impl) (p : LayoutParameters)
    (glyphPositions : Nat → Vector2) (lines : List LineRun) (actualSize : Size)
    (r : Bool × LayoutOutput)
    (h : LayoutText impl p glyphPositions lines actualSize = some r)
    (hfirst : ∀ g, g < p.totalNumberOfGlyphs →
      p.glyphsToCharactersBuffer g = sumFrom p.charactersPerGlyphBuffer 0 g)
    (hc : sumFrom p.charactersPerGlyphBuffer 0 p.totalNumberOfGlyphs < 2 ^ 32) :
    (∀ l ∈ r.2.lines.drop lines.length, l.characterRun.numberOfCharacters =
        sumFrom p.charactersPerGlyphBuffer l.glyphIndex l.numberOfGlyphs) ∧
      List.Chain' (fun a b : LineRun => b.characterRun.characterIndex =
        a.characterRun.characterIndex + a.characterRun.numberOfCharacters)
        (r.2.lines.drop lines.length) ∧
      (r.1 = true →
        ((r.2.lines.drop lines.length).map (fun l => l.characterRun.numberOfCharacters)).sum =
          sumFrom p.charactersPerGlyphBuffer 0 p.totalNumberOfGlyphs) := by
  obtain ⟨new, _, h1, h2, _⟩ := LayoutText_lines impl p _ _ _ _ h
  rw [h1]
  obtain ⟨a, _, c, d⟩ := LinesFrom_characters impl p hfirst hc new 0 r.1 h2 (Nat.zero_le _)
  refine ⟨a, c, fun hok => ?_⟩
  have := d hok
  rw [sumFrom_zero, Nat.zero_add] at this
  exact this

theorem LayoutText_character_coverage_witness :
    (layoutOutput (sampleImpl MULTI_LINE_BOX HORIZONTAL_ALIGN_BEGIN) (helloParameters 50)
        zeroPositions [] { width := 0, height := 0 }).lines.map
          (fun l => (l.characterRun.characterIndex, l.characterRun.numberOfCharacters)) =
        [(0, 6), (6, 4), (10, 5)] ∧
      (((layoutOutput (sampleImpl MULTI_LINE_BOX HORIZONTAL_ALIGN_BEGIN) (helloParameters 50)
        zeroPositions [] { width := 0, height := 0 }).lines.drop
          ([] : List LineRun).length).map (fun l => l.characterRun.numberOfCharacters)).sum =
        sumFrom (helloParameters 50).charactersPerGlyphBuffer 0
          (helloParameters 50).totalNumberOfGlyphs :=
  ⟨by decide!,
    (LayoutText_character_coverage (sampleImpl MULTI_LINE_BOX HORIZONTAL_ALIGN_BEGIN)
      (helloParameters 50) zeroPositions [] { width := 0, height := 0 } _
      (LayoutText_eq_of_flag _ _ _ _ _ true (by decide!)) (by decide!) (by decide!)).2.2 rfl⟩

/-! ## Reordering a line in its logical order -/

theorem sumFrom_ones (f : Nat → Nat) (a : Nat) :
    ∀ n, (∀ j, j < n → f (a + j) = 1) → sumFrom f a n = n := by
  intro n
  induction n with
  | zero => intro _; rfl
  | succ n ih =>
    intro h
    rw [sumFrom_succ, ih (fun j hj => h j (by omega)), h n (by omega)]

/-- C30: for a line appended by `LayoutText` on a text with one glyph per character (less
than 2^32 of them), running `ReLayoutRightToLeftLines` on the positions `LayoutText` left,
with a single bidirectional line run that covers exactly the characters of that line and
whose visual to logical map is the identity, leaves the x coordinate of every glyph of the
line equal to the value `LayoutText` gave it. -/
theorem ReLayoutRightToLeftLines_identity (impl : Impl) (p : LayoutParameters)
    (glyphPositions : Nat → Vector2) (lines : List LineRun) (actualSize : Size)
    (ok : Bool) (out : LayoutOutput)
    (h : LayoutText impl p glyphPositions lines actualSize = some (ok, out))
    (l : LineRun) (hl : l ∈ out.lines.drop lines.length)
    (buffer : Nat → BidirectionalLineInfoRun)
    (hbuffer : p.lineBidirectionalInfoRunsBuffer = some buffer)
    (hruns : p.numberOfBidirectionalInfoRuns = 1)
    (hrun : (buffer 0).characterRun = l.characterRun)
    (hmap : ∀ k, k < l.characterRun.numberOfCharacters → (buffer 0).visualToLogicalMap k = k)
    (hone : ∀ g, g < p.totalNumberOfGlyphs →
      p.charactersPerGlyphBuffer g = 1 ∧ p.glyphsToCharactersBuffer g = g ∧
      p.glyphsPerCharacterBuffer g = 1 ∧ p.charactersToGlyphsBuffer g = g)
    (hc : p.totalNumberOfGlyphs < 2 ^ 32) :
    ∃ pos2, ReLayoutRightToLeftLines impl p out.glyphPositions = some pos2 ∧
      ∀ i, l.glyphIndex ≤ i → i < l.glyphIndex + l.numberOfGlyphs →
        (pos2 i).x = (out.glyphPositions i).x := by
  obtain ⟨new, _, h1, h2, _⟩ := LayoutText_lines impl p _ _ _ _ h
  simp only at h1 h2
  have hl2 := hl
  rw [h1] at hl2
  obtain ⟨s, _, hs, hn, hls⟩ := LinesFrom_mem impl p new 0 ok h2 l hl2
  have hg : l.glyphIndex = s := by rw [hls]; rfl
  have hnum : l.numberOfGlyphs = (lineLayoutAt impl p s).numberOfGlyphs := by rw [hls]; rfl
  have hle := lineLayoutAt_le impl p s
  rw [max_eq_right (le_of_lt hs)] at hle
  have hones : ∀ a n, a + n ≤ p.totalNumberOfGlyphs →
      sumFrom p.charactersPerGlyphBuffer a n = n :=
    fun a n han => sumFrom_ones _ a n (fun j hj => (hone (a + j) (by omega)).1)
  have hcr := makeLineRun_characterRun impl p
    (fun g hg => by rw [(hone g hg).2.1, hones 0 g (by omega)])
    (by rw [hones 0 _ (by omega)]; exact hc) s hs hn
  rw [← hls, hones 0 s (by omega), hones s _ hle, ← hnum] at hcr
  have hci : (buffer 0).characterRun.characterIndex = s := by rw [hrun, hcr]
  have hnc : (buffer 0).characterRun.numberOfCharacters = l.numberOfGlyphs := by rw [hrun, hcr]
  have hlnc : l.characterRun.numberOfCharacters = l.numberOfGlyphs := by rw [hcr]
  rw [← hnum] at hle
  have hvis : ∀ k, k < l.numberOfGlyphs → characterVisualIndex (buffer 0) k = s + k := by
    intro k hk
    unfold characterVisualIndex wrap32
    rw [hci, hmap k (by omega), Nat.mod_eq_of_lt (by omega)]
  have hglyph : ∀ k, k < l.numberOfGlyphs → glyphOfVisual p (buffer 0) k = s + k := by
    intro k hk
    unfold glyphOfVisual
    rw [hvis k hk, (hone (s + k) (by omega)).2.2.2]
  have hpenBefore : ∀ k, k ≤ l.numberOfGlyphs → penBefore impl p (buffer 0) k =
      penXAt impl p s k := by
    intro k
    induction k with
    | zero => intro _; rfl
    | succ k ih =>
      intro hk
      rw [penBefore_succ, penXAt_succ, ih (by omega), hglyph k (by omega)]
  refine ⟨_, by unfold ReLayoutRightToLeftLines; rw [hbuffer, hruns], ?_⟩
  intro i hi1 hi2
  simp only [ReLayoutRightToLeftLines.lines]
  have hpen := ReLayout_characters_pen impl p (buffer 0) l.numberOfGlyphs
    (fun k hk => by rw [hvis k hk]; exact (hone (s + k) (by omega)).2.2.1)
    (fun k k2 hk hk2 hkk => by rw [hglyph k hk, hglyph k2 hk2] at hkk; omega)
    l.numberOfGlyphs 0 out.glyphPositions (by omega) (i - s) (Nat.zero_le _) (by omega)
  have h0 : penBefore impl p (buffer 0) 0 = 0 := rfl
  rw [h0, hglyph (i - s) (by omega), hpenBefore (i - s) (by omega),
    show s + (i - s) = i by omega] at hpen
  rw [hnc, hpen]
  obtain ⟨before, after, hsplit⟩ := List.append_of_mem hl
  rw [LayoutText_pen impl p _ _ _ _ h before after l hsplit i hi1 hi2, hg]

theorem ReLayoutRightToLeftLines_identity_witness :
    ∃ pos2, ReLayoutRightToLeftLines (sampleImpl MULTI_LINE_BOX HORIZONTAL_ALIGN_BEGIN)
        identityParameters
        (layoutOutput (sampleImpl MULTI_LINE_BOX HORIZONTAL_ALIGN_BEGIN) identityParameters
          zeroPositions [] { width := 0, height := 0 }).glyphPositions = some pos2 ∧
      ∀ i, 6 ≤ i → i < 6 + 4 →
        (pos2 i).x =
          ((layoutOutput (sampleImpl MULTI_LINE_BOX HORIZONTAL_ALIGN_BEGIN) identityParameters
            zeroPositions [] { width := 0, height := 0 }).glyphPositions i).x :=
  ReLayoutRightToLeftLines_identity (sampleImpl MULTI_LINE_BOX HORIZONTAL_ALIGN_BEGIN)
    identityParameters zeroPositions [] { width := 0, height := 0 } true _
    (LayoutText_eq_of_flag _ _ _ _ _ true (by decide!))
    { glyphIndex := 6, numberOfGlyphs := 4,
      characterRun := { characterIndex := 6, numberOfCharacters := 4 },
      width := 30, ascender := 10, descender := -2, extraLength := 10, direction := false }
    (by decide!) (fun _ => identityLine) rfl rfl (by decide!) (fun _ _ => rfl)
    (fun _ _ => ⟨rfl, rfl, rfl, rfl⟩) (by decide)

end LayoutEngine

/-! ## The visual model -/

namespace VisualModel

/-- C16, the code at the failing input: a second `SetGlyphs`, with one glyph of one
character, on a model that was set two glyphs of one character each leaves a characters to
glyph table of length 3, the table of the first call followed by that of the second, while
the characters per glyph passed to the second call add up to 1. -/
theorem SetGlyphs_second_call_appends :
    (SetGlyphs (SetGlyphs New (fun _ => LayoutEngine.sampleGlyph) (fun i => i) (fun _ => 1) 2)
        (fun _ => LayoutEngine.sampleGlyph) (fun i => i) (fun _ => 1) 1).mCharactersToGlyph =
      [0, 1, 0] ∧
    (SetGlyphs (SetGlyphs New (fun _ => LayoutEngine.sampleGlyph) (fun i => i) (fun _ => 1) 2)
        (fun _ => LayoutEngine.sampleGlyph) (fun i => i) (fun _ => 1)
        1).mCharactersToGlyph.length = 3 ∧
    charactersBefore (fun _ => 1) 1 = 1 := by
  refine ⟨by decide, by decide, by decide⟩

theorem SetGlyphs_pushBack_eq (glyphIndex : Nat) :
    ∀ (count : Nat) (table : List Nat),
      SetGlyphs.pushBack glyphIndex count table = table ++ List.replicate count glyphIndex := by
  intro count
  induction count with
  | zero => intro table; simp [SetGlyphs.pushBack]
  | succ count ih =>
    intro table
    simp only [SetGlyphs.pushBack, ih, List.replicate_succ, List.append_assoc,
      List.singleton_append]

/-- The traversal keeps the table it starts from and pushes one entry per character. -/
theorem SetGlyphs_traverse_append :
    ∀ (l : List Nat) (glyphIndex : Nat) (table : List Nat),
      ∃ suffix, SetGlyphs.traverse l glyphIndex table = table ++ suffix ∧
        suffix.length = l.sum := by
  intro l
  induction l with
  | nil => intro glyphIndex table; exact ⟨[], by simp [SetGlyphs.traverse], rfl⟩
  | cons n0 rest ih =>
    intro glyphIndex table
    obtain ⟨suffix, h1, h2⟩ :=
      ih (glyphIndex + 1) (SetGlyphs.pushBack glyphIndex n0 table)
    refine ⟨List.replicate n0 glyphIndex ++ suffix, ?_, ?_⟩
    · rw [SetGlyphs.traverse, h1, SetGlyphs_pushBack_eq, List.append_assoc]
    · simp [h2]

/-- The entry pushed for the character `c` names the glyph whose characters hold `c`. -/
theorem SetGlyphs_traverse_lookup :
    ∀ (l : List Nat) (g0 : Nat) (table : List Nat) (c : Nat), c < l.sum →
      ∃ i, i < l.length ∧
        (SetGlyphs.traverse l g0 table)[table.length + c]? = some (g0 + i) ∧
        (l.take i).sum ≤ c ∧ c < (l.take (i + 1)).sum := by
  intro l
  induction l with
  | nil => intro g0 table c h; simp at h
  | cons n0 rest ih =>
    intro g0 table c h
    simp only [List.sum_cons] at h
    simp only [SetGlyphs.traverse, SetGlyphs_pushBack_eq]
    by_cases hc : c < n0
    · obtain ⟨suffix, h1, _⟩ :=
        SetGlyphs_traverse_append rest (g0 + 1) (table ++ List.replicate n0 g0)
      refine ⟨0, by simp, ?_, by simp, by simpa using hc⟩
      rw [h1, List.getElem?_append_left (by simp; omega),
        List.getElem?_append_right (by omega)]
      simp [List.getElem?_replicate, hc]
    · obtain ⟨i, hi1, hi2, hi3, hi4⟩ :=
        ih (g0 + 1) (table ++ List.replicate n0 g0) (c - n0) (by omega)
      refine ⟨i + 1, by simp; omega, ?_, ?_, ?_⟩
      · have hidx : (table ++ List.replicate n0 g0).length + (c - n0) = table.length + c := by
          simp; omega
        rw [hidx] at hi2
        rw [hi2]
        congr 1
        omega
      · simp only [List.take_succ_cons, List.sum_cons]; omega
      · simp only [List.take_succ_cons, List.sum_cons]; omega

theorem copyBuffer_take_sum (charactersPerGlyph : Nat → Nat) (n i : Nat) (h : i ≤ n) :
    ((copyBuffer charactersPerGlyph n).take i).sum = charactersBefore charactersPerGlyph i := by
  unfold copyBuffer charactersBefore
  rw [← List.map_take, List.take_range, min_eq_left h]

theorem charactersBefore_succ (charactersPerGlyph : Nat → Nat) (g : Nat) :
    charactersBefore charactersPerGlyph (g + 1) =
      charactersBefore charactersPerGlyph g + charactersPerGlyph g := by
  unfold charactersBefore
  exact List.sum_range_succ _ _

theorem charactersBefore_mono (charactersPerGlyph : Nat → Nat) (a b : Nat) (h : a ≤ b) :
    charactersBefore charactersPerGlyph a ≤ charactersBefore charactersPerGlyph b := by
  induction b with
  | zero => rw [Nat.le_zero.mp h]
  | succ b ih =>
    rcases Nat.eq_or_lt_of_le h with h1 | h1
    · rw [h1]
    · have := ih (by omega)
      rw [charactersBefore_succ]
      omega

/-- C17: after the first `SetGlyphs` on a new model, for every character `c` below the sum
of the characters per glyph, `GetGlyphIndex(c)` is the unique glyph `g` with
`sum(charactersPerGlyph[0..g-1]) <= c < sum(charactersPerGlyph[0..g])`; and when the
character indices are the prefix sums of the characters per glyph,
`GetGlyphIndex(GetCharacterIndex(g)) = g` for every glyph with at least one character. -/
theorem SetGlyphs_GetGlyphIndex (glyphs : Nat → GlyphInfo)
    (characterIndices charactersPerGlyph : Nat → Nat) (numberOfGlyphs : Nat) :
    (∀ c, c < charactersBefore charactersPerGlyph numberOfGlyphs →
      ∃ g, g < numberOfGlyphs ∧
        GetGlyphIndex
          (SetGlyphs New glyphs characterIndices charactersPerGlyph numberOfGlyphs) c =
            some g ∧
        charactersBefore charactersPerGlyph g ≤ c ∧
        c < charactersBefore charactersPerGlyph (g + 1) ∧
        ∀ g2, g2 < numberOfGlyphs → charactersBefore charactersPerGlyph g2 ≤ c →
          c < charactersBefore charactersPerGlyph (g2 + 1) → g2 = g) ∧
    ((∀ g, g < numberOfGlyphs → characterIndices g = charactersBefore charactersPerGlyph g) →
      ∀ g, g < numberOfGlyphs → 1 ≤ charactersPerGlyph g →
        (GetCharacterIndex
          (SetGlyphs New glyphs characterIndices charactersPerGlyph numberOfGlyphs) g).bind
          (GetGlyphIndex
            (SetGlyphs New glyphs characterIndices charactersPerGlyph numberOfGlyphs)) =
          some g) := by
  have hlen : (copyBuffer charactersPerGlyph numberOfGlyphs).length = numberOfGlyphs := by
    simp [copyBuffer]
  have hsum : (copyBuffer charactersPerGlyph numberOfGlyphs).sum =
      charactersBefore charactersPerGlyph numberOfGlyphs := rfl
  have first : ∀ c, c < charactersBefore charactersPerGlyph numberOfGlyphs →
      ∃ g, g < numberOfGlyphs ∧
        GetGlyphIndex
          (SetGlyphs New glyphs characterIndices charactersPerGlyph numberOfGlyphs) c =
            some g ∧
        charactersBefore charactersPerGlyph g ≤ c ∧
        c < charactersBefore charactersPerGlyph (g + 1) ∧
        ∀ g2, g2 < numberOfGlyphs → charactersBefore charactersPerGlyph g2 ≤ c →
          c < charactersBefore charactersPerGlyph (g2 + 1) → g2 = g := by
    intro c hc
    obtain ⟨i, hi1, hi2, hi3, hi4⟩ :=
      SetGlyphs_traverse_lookup (copyBuffer charactersPerGlyph numberOfGlyphs) 0 [] c
        (by rw [hsum]; exact hc)
    rw [hlen] at hi1
    rw [copyBuffer_take_sum _ _ _ (by omega)] at hi3 hi4
    refine ⟨i, hi1, ?_, hi3, hi4, fun g2 _ h1 h2 => ?_⟩
    · simpa [GetGlyphIndex, SetGlyphs, New] using hi2
    · rcases Nat.lt_trichotomy g2 i with h | h | h
      · have := charactersBefore_mono charactersPerGlyph (g2 + 1) i (by omega)
        omega
      · exact h
      · have := charactersBefore_mono charactersPerGlyph (i + 1) g2 (by omega)
        omega
  refine ⟨first, fun hfirst g hg hone => ?_⟩
  have hchar : GetCharacterIndex
      (SetGlyphs New glyphs characterIndices charactersPerGlyph numberOfGlyphs) g =
        some (charactersBefore charactersPerGlyph g) := by
    simp [GetCharacterIndex, SetGlyphs, copyBuffer, List.getElem?_range hg, hfirst g hg]
  have hnext := charactersBefore_succ charactersPerGlyph g
  have hmono := charactersBefore_mono charactersPerGlyph (g + 1) numberOfGlyphs (by omega)
  obtain ⟨g0, _, h2, _, _, h5⟩ := first (charactersBefore charactersPerGlyph g) (by omega)
  rw [hchar, Option.some_bind, h2, h5 g hg (le_refl _) (by omega)]

end VisualModel

/-! ## The logical model -/

namespace LogicalModel

/-- C18, counterexample: `SetText` with a length of 0 on a model with text, two script
runs, two font runs and break info empties the text and leaves the script runs, the font
runs, the line break info and the word break info in place. -/
theorem SetText_zero_keeps_runs :
    (SetText sampleModel (fun _ => 0) 0).mText = [] ∧
      (SetText sampleModel (fun _ => 0) 0).mScriptRuns ≠ [] ∧
      (SetText sampleModel (fun _ => 0) 0).mFontRuns ≠ [] ∧
      (SetText sampleModel (fun _ => 0) 0).mLineBreakInfo ≠ [] ∧
      (SetText sampleModel (fun _ => 0) 0).mWordBreakInfo ≠ [] := by
  refine ⟨by decide, by decide, by decide, by decide, by decide⟩

/-- C18, amended: `SetText` with a length of 0 clears the text buffer: afterwards the
character stream is empty, and the script runs, the font runs, the line break info and the
word break info are what they were before the call. -/
theorem SetText_zero (model : Impl) (text : Nat → Nat) :
    (SetText model text 0).mText = [] ∧
      (SetText model text 0).mScriptRuns = model.mScriptRuns ∧
      (SetText model text 0).mFontRuns = model.mFontRuns ∧
      (SetText model text 0).mLineBreakInfo = model.mLineBreakInfo ∧
      (SetText model text 0).mWordBreakInfo = model.mWordBreakInfo := by
  simp [SetText]

theorem runEnd_eq (characterRun : CharacterRun)
    (h : characterRun.characterIndex + characterRun.numberOfCharacters < 2 ^ 32) :
    runEnd characterRun = characterRun.characterIndex + characterRun.numberOfCharacters := by
  unfold runEnd wrap32
  exact Nat.mod_eq_of_lt h

theorem GetScript_loop_first (UNKNOWN c : Nat) :
    ∀ (runs : List ScriptRun),
      (∀ r ∈ runs, r.characterRun.characterIndex + r.characterRun.numberOfCharacters < 2 ^ 32) →
      (∀ (i : Nat) (r : ScriptRun), runs[i]? = some r → coversCharacter r.characterRun c →
        (∀ (j : Nat) (r2 : ScriptRun), j < i → runs[j]? = some r2 → ¬ coversCharacter r2.characterRun c) →
        GetScript.loop UNKNOWN c runs = r.script) ∧
      ((∀ r ∈ runs, ¬ coversCharacter r.characterRun c) →
        GetScript.loop UNKNOWN c runs = UNKNOWN) := by
  intro runs
  induction runs with
  | nil =>
    intro _
    exact ⟨fun i r h => by simp at h, fun _ => rfl⟩
  | cons r0 rest ih =>
    intro hrep
    have h0 := runEnd_eq r0.characterRun (hrep r0 (List.mem_cons_self _ _))
    obtain ⟨ih1, ih2⟩ := ih (fun r hr => hrep r (List.mem_cons_of_mem _ hr))
    have hcov : (r0.characterRun.characterIndex ≤ c ∧ c < runEnd r0.characterRun) ↔
        coversCharacter r0.characterRun c := by rw [h0]; rfl
    refine ⟨fun i r hi hc hfirst => ?_, fun hnone => ?_⟩
    · simp only [GetScript.loop]
      cases i with
      | zero =>
        simp only [List.getElem?_cons_zero, Option.some.injEq] at hi
        subst hi
        rw [if_pos (hcov.mpr hc)]
      | succ i =>
        have hn0 : ¬ coversCharacter r0.characterRun c :=
          hfirst 0 r0 (Nat.succ_pos i) (by simp)
        rw [if_neg (fun h => hn0 (hcov.mp h))]
        simp only [List.getElem?_cons_succ] at hi
        exact ih1 i r hi hc (fun j r2 hj hr2 =>
          hfirst (j + 1) r2 (Nat.succ_lt_succ hj) (by simpa using hr2))
    · simp only [GetScript.loop]
      rw [if_neg (fun h => hnone r0 (List.mem_cons_self _ _) (hcov.mp h))]
      exact ih2 (fun r hr => hnone r (List.mem_cons_of_mem _ hr))

theorem GetFont_loop_first (c : Nat) :
    ∀ (runs : List FontRun),
      (∀ r ∈ runs, r.characterRun.characterIndex + r.characterRun.numberOfCharacters < 2 ^ 32) →
      (∀ (i : Nat) (r : FontRun), runs[i]? = some r → coversCharacter r.characterRun c →
        (∀ (j : Nat) (r2 : FontRun), j < i → runs[j]? = some r2 → ¬ coversCharacter r2.characterRun c) →
        GetFont.loop c runs = r.fontId) ∧
      ((∀ r ∈ runs, ¬ coversCharacter r.characterRun c) → GetFont.loop c runs = 0) := by
  intro runs
  induction runs with
  | nil =>
    intro _
    exact ⟨fun i r h => by simp at h, fun _ => rfl⟩
  | cons r0 rest ih =>
    intro hrep
    have h0 := runEnd_eq r0.characterRun (hrep r0 (List.mem_cons_self _ _))
    obtain ⟨ih1, ih2⟩ := ih (fun r hr => hrep r (List.mem_cons_of_mem _ hr))
    have hcov : (r0.characterRun.characterIndex ≤ c ∧ c < runEnd r0.characterRun) ↔
        coversCharacter r0.characterRun c := by rw [h0]; rfl
    refine ⟨fun i r hi hc hfirst => ?_, fun hnone => ?_⟩
    · simp only [GetFont.loop]
      cases i with
      | zero =>
        simp only [List.getElem?_cons_zero, Option.some.injEq] at hi
        subst hi
        rw [if_pos (hcov.mpr hc)]
      | succ i =>
        have hn0 : ¬ coversCharacter r0.characterRun c :=
          hfirst 0 r0 (Nat.succ_pos i) (by simp)
        rw [if_neg (fun h => hn0 (hcov.mp h))]
        simp only [List.getElem?_cons_succ] at hi
        exact ih1 i r hi hc (fun j r2 hj hr2 =>
          hfirst (j + 1) r2 (Nat.succ_lt_succ hj) (by simpa using hr2))
    · simp only [GetFont.loop]
      rw [if_neg (fun h => hnone r0 (List.mem_cons_self _ _) (hcov.mp h))]
      exact ih2 (fun r hr => hnone r (List.mem_cons_of_mem _ hr))

/-- C19: for runs whose ends are 32 bit character indices, `GetScript(c)` returns the script
of the first stored script run `r` with `r.characterIndex <= c < r.characterIndex +
r.numberOfCharacters`, and `UNKNOWN` when no script run covers `c`; `GetFont(c)` returns
the font id of the first font run that covers `c`, and 0 when none does. -/
theorem GetScript_GetFont_first_covering (UNKNOWN : Nat) (model : Impl) (c : Nat)
    (hscripts : ∀ r ∈ model.mScriptRuns,
      r.characterRun.characterIndex + r.characterRun.numberOfCharacters < 2 ^ 32)
    (hfonts : ∀ r ∈ model.mFontRuns,
      r.characterRun.characterIndex + r.characterRun.numberOfCharacters < 2 ^ 32) :
    (∀ (i : Nat) (r : ScriptRun), model.mScriptRuns[i]? = some r → coversCharacter r.characterRun c →
        (∀ (j : Nat) (r2 : ScriptRun), j < i → model.mScriptRuns[j]? = some r2 →
          ¬ coversCharacter r2.characterRun c) →
        GetScript UNKNOWN model c = r.script) ∧
      ((∀ r ∈ model.mScriptRuns, ¬ coversCharacter r.characterRun c) →
        GetScript UNKNOWN model c = UNKNOWN) ∧
      (∀ (i : Nat) (r : FontRun), model.mFontRuns[i]? = some r → coversCharacter r.characterRun c →
        (∀ (j : Nat) (r2 : FontRun), j < i → model.mFontRuns[j]? = some r2 →
          ¬ coversCharacter r2.characterRun c) →
        GetFont model c = r.fontId) ∧
      ((∀ r ∈ model.mFontRuns, ¬ coversCharacter r.characterRun c) →
        GetFont model c = 0) := by
  obtain ⟨s1, s2⟩ := GetScript_loop_first UNKNOWN c model.mScriptRuns hscripts
  obtain ⟨f1, f2⟩ := GetFont_loop_first c model.mFontRuns hfonts
  exact ⟨s1, s2, f1, f2⟩

theorem GetScript_GetFont_first_covering_witness :
    GetScript 99 sampleModel 7 = 2 ∧ GetScript 99 sampleModel 12 = 99 ∧
      GetFont sampleModel 7 = 4 ∧ GetFont sampleModel 12 = 0 :=
  have h := GetScript_GetFont_first_covering 99 sampleModel 7 (by decide) (by decide)
  have h2 := GetScript_GetFont_first_covering 99 sampleModel 12 (by decide) (by decide)
  ⟨h.1 1 _ rfl (by decide) (fun j r2 hj hr2 => by
      interval_cases j
      simp only [sampleModel, List.getElem?_cons_zero, Option.some.injEq] at hr2
      subst hr2
      decide),
    h2.2.1 (by decide),
    h.2.2.1 1 _ rfl (by decide) (fun j r2 hj hr2 => by
      interval_cases j
      simp only [sampleModel, List.getElem?_cons_zero, Option.some.injEq] at hr2
      subst hr2
      decide),
    h2.2.2.2 (by decide)⟩

/-- C20, the code at the failing input: with ten characters and the script runs and font
runs `[0, 5)` and `[5, 10)`, `GetNumberOfScriptRuns( 0, 5 )` and
`GetNumberOfFontRuns( 0, 5 )` return 2, while one run holds a character of the range. -/
theorem GetNumberOfRuns_counts_run_after_range :
    GetNumberOfScriptRuns sampleModel 0 5 = 2 ∧
      (sampleModel.mScriptRuns.filter
        (fun run => decide (runMeetsRange 0 5 run.characterRun))).length = 1 ∧
      GetNumberOfFontRuns sampleModel 0 5 = 2 ∧
      (sampleModel.mFontRuns.filter
        (fun run => decide (runMeetsRange 0 5 run.characterRun))).length = 1 := by
  refine ⟨by decide, by decide, by decide, by decide⟩

end LogicalModel

end Dali.Toolkit.Text
